import Mathlib

/-! The network core of 3d-multiplayer-lobby.

A shallow embedding of the holey array (`array.hpp`), the server session code
(`server.cpp`), the client message handler (`client-networking.cpp`), the
asynchronous socket helpers (`networking.cpp`, `networking-impl.hpp`) and the
reactor (`concurrency.cpp`).

Conventions of the embedding.

* A `char` is a natural number below 256; a buffer is a `List Nat`.
* Container sizes, capacities and byte counts are natural numbers.  `Size` is a
  template parameter of the containers; the embedding covers the range in which
  it does not wrap.  Player ids are `U32` values and the arithmetic done on them
  (`newPlayerI - (playerI <= newPlayerI)`) is modelled modulo `2^32`.
* Storage is a list of optional elements: `none` marks a bucket in which no
  object is constructed.  In every instantiation of `HoleyArray` in the
  repository `sizeof(El) >= sizeof(Size)`, so `bucketSize = sizeof(El)` and a
  bucket is addressed by its index alone.
* A call of `scheduleSocketWrite(player.socket, bytes, ...)` made by the server
  code is recorded as a `Write` naming the slot of the player whose socket is
  written; the socket itself is embedded separately (`AsyncWrite`).
* `std::exit(1)` reached through `ASSERT`, `PERROR_ASSERT` or `UNIMPLEMENTED`
  is an explicit outcome of the function concerned.
* A value that the source reads but that the language leaves undefined (a flag
  never initialised, a local read through a reference after its lifetime) is an
  argument of the function concerned.
* The reactor is embedded as seen by one thread at a time: a registration runs
  from start to end without another thread in between.  Time points and
  durations are counts of `steady_clock` ticks and `now` is an argument.
-/

namespace Lobby

/-! ## array.hpp: HoleyArray -/

/-- `HoleyArray<El, Size>`: `mem` holds one entry per bucket, `holeIs` is the
"sorted array of indices of uninitialised elements". -/
structure HoleyArray (El : Type) where
  mem : List (Option El)
  capacity : Nat
  holeIs : List Nat
deriving Repr, DecidableEq

/-- `HoleyArray::HoleyArray(initialCap)`: allocates `initialCap` buckets and
pushes `0, 1, ..., initialCap - 1` onto `holeIs`. -/
def HoleyArray.construct {El : Type} (initialCap : Nat) : HoleyArray El :=
  { mem := List.replicate initialCap none
    capacity := initialCap
    holeIs := List.range initialCap }

/-- `HoleyArray::operator[]`: the object in bucket `i`; `none` stands for a
bucket without a constructed object (reading it is undefined in the source). -/
def HoleyArray.index {El : Type} (arr : HoleyArray El) (i : Nat) : Option El :=
  (arr.mem[i]?).join

/-- `std::lower_bound(begin(v), end(v), i)` as an offset from `begin(v)`, for a
vector sorted ascending: the position of the first element that is not less
than `i`. -/
def lowerBound (v : List Nat) (i : Nat) : Nat :=
  (v.takeWhile (fun x => decide (x < i))).length

/-- `std::vector::insert(begin(v) + pos, i)`. -/
def vectorInsert (v : List Nat) (pos : Nat) (i : Nat) : List Nat :=
  v.take pos ++ i :: v.drop pos

/-- `std::vector::erase(begin(v) + pos)`. -/
def vectorErase (v : List Nat) (pos : Nat) : List Nat :=
  v.take pos ++ v.drop (pos + 1)

/-- `destroy(HoleyArray&, i)`: runs the destructor of the object in bucket `i`
and inserts `i` into `holeIs` at its lower bound. -/
def destroy {El : Type} (arr : HoleyArray El) (i : Nat) : HoleyArray El :=
  { arr with
    mem := arr.mem.set i none
    holeIs := vectorInsert arr.holeIs (lowerBound arr.holeIs i) i }

/-- `GrownArray<Size>`. -/
structure GrownArray (El : Type) where
  newMemory : List (Option El)
  newCapacity : Nat

/-- The numerator of `growthMultiplier = 1.6f`: the `float` nearest to 1.6 is
`13421773 / 2^23`, and converting it to `double` is exact. -/
def growthMultiplierNum : Nat := 13421773

/-- The denominator `2^23` of `growthMultiplier = 1.6f`. -/
def growthMultiplierDen : Nat := 8388608

/-- `growArray<El>(arr, currentSize, stride)`:
`newCap = static_cast<Size>(growthMultiplier * currentSize)` (the `double`
product is exact for sizes below `2^29`, the cast truncates), the first
`currentSize` elements are moved to the same indices of the new memory. -/
def growArray {El : Type} (arr : List (Option El)) (currentSize : Nat) : GrownArray El :=
  let newCap := growthMultiplierNum * currentSize / growthMultiplierDen
  { newMemory := arr.take currentSize ++ List.replicate (newCap - currentSize) none
    newCapacity := newCap }

/-- The capacity that the specification names for a growth step,
"ceil(growth-factor * old-capacity)", taken at the growth factor of `growArray`;
it follows the specification and is compared with `growArray`. -/
def specCeilCapacity (c : Nat) : Nat :=
  (growthMultiplierNum * c + (growthMultiplierDen - 1)) / growthMultiplierDen

/-- The `if(arr.holeIs.empty())` block of `emplace`: the storage is grown by
`growArray`, the new indices `capacity, ..., newCapacity - 1` are pushed onto
`holeIs`, then `mem` and `capacity` are replaced. -/
def emplaceGrow {El : Type} (arr : HoleyArray El) : HoleyArray El :=
  if arr.holeIs.isEmpty then
    let grownArray := growArray arr.mem arr.capacity
    { mem := grownArray.newMemory
      capacity := grownArray.newCapacity
      holeIs := arr.holeIs ++ List.range' arr.capacity (grownArray.newCapacity - arr.capacity) }
  else arr

/-- `emplace(HoleyArray&, create)`: grows the storage when `holeIs` is empty,
takes `holeIs.back()`, pops it and lets `create` construct the element there.
`create` receives the index `holeI`; the result is `holeI` (what the callers'
`create` functions return) with the updated array.  `none`: `holeIs.back()` was
called on an empty vector (undefined in the source). -/
def emplace {El : Type} (arr : HoleyArray El) (create : Nat → El) :
    Option (Nat × HoleyArray El) :=
  let arr1 := emplaceGrow arr
  match arr1.holeIs.getLast? with
  | none => none
  | some holeI =>
    some (holeI,
      { arr1 with
        mem := arr1.mem.set holeI (some (create holeI))
        holeIs := arr1.holeIs.dropLast })

/-- The second loop of `holeyArrayForeachImpl` ("no more holes"):
`for(; oI < arr.capacity; ++oI) f(filledI++, oI, arr[oI])`, with
`k = capacity - oI` iterations left.  The result lists the calls of `f` as
pairs `(filledI, oI)`. -/
def foreachNoMoreHoles : (k oI filledI : Nat) → List (Nat × Nat)
  | 0, _, _ => []
  | k + 1, oI, filledI => (filledI, oI) :: foreachNoMoreHoles k (oI + 1) (filledI + 1)

/-- The first loop of `holeyArrayForeachImpl`, with `k = capacity - oI` and
`holes` the part of `holeIs` from index `holeII` on.  It ends when `holeII`
reaches `holeIs.size()` (then the second loop runs) or returns when
`oI == capacity`. -/
def foreachHoles : (k oI filledI : Nat) → (holes : List Nat) → List (Nat × Nat)
  | k, oI, filledI, [] => foreachNoMoreHoles k oI filledI
  | 0, _, _, _ :: _ => []
  | k + 1, oI, filledI, h :: hs =>
    if h = oI then foreachHoles k (oI + 1) filledI hs
    else (filledI, oI) :: foreachHoles k (oI + 1) (filledI + 1) (h :: hs)

/-- `holeyArrayForeachImpl(arr, f)`: the calls `f(filledI, oI, arr[oI])` it
makes, in order, as pairs `(filledI, oI)`. -/
def holeyArrayForeachImpl {El : Type} (arr : HoleyArray El) : List (Nat × Nat) :=
  foreachHoles arr.capacity 0 0 arr.holeIs

/-- `foreach(HoleyArray&, f)` for a callback `f` that updates a state `σ`
captured by reference: `f` is run on every call of `holeyArrayForeachImpl`. -/
def foreach {El σ : Type} (arr : HoleyArray El) (f : Nat → Nat → Option El → σ → σ)
    (init : σ) : σ :=
  (holeyArrayForeachImpl arr).foldl (fun s c => f c.1 c.2 (arr.index c.2) s) init

/-- `size(HoleyArray const&)`: `capacity - holeIs.size()`. -/
def size {El : Type} (arr : HoleyArray El) : Nat :=
  arr.capacity - arr.holeIs.length

/-- The slots that are not holes, ascending. -/
def liveSlots {El : Type} (arr : HoleyArray El) : List Nat :=
  (List.range arr.capacity).filter (fun i => decide (i ∉ arr.holeIs))

/-- The number of buckets holding a constructed object. -/
def liveCount {El : Type} (arr : HoleyArray El) : Nat :=
  arr.mem.countP (fun e => e.isSome)

/-- The representation invariant of `HoleyArray`: `holeIs` strictly ascending
with entries below `capacity`, one bucket per slot, and a bucket holds an
object exactly when its index is not in `holeIs`. -/
structure HoleyArray.Inv {El : Type} (arr : HoleyArray El) : Prop where
  sorted : arr.holeIs.Pairwise (fun a b => a < b)
  bound : ∀ h ∈ arr.holeIs, h < arr.capacity
  memLength : arr.mem.length = arr.capacity
  live : ∀ i, i < arr.capacity → (arr.index i = none ↔ i ∈ arr.holeIs)

/-- What `emplace` does to an array that satisfies the invariant and has a free
slot or a capacity of at least 2. -/
structure EmplaceSpec {El : Type} (arr : HoleyArray El) (create : Nat → El)
    (holeI : Nat) (arr' : HoleyArray El) : Prop where
  inv : arr'.Inv
  notLive : holeI ∉ liveSlots arr
  isLive : holeI ∈ liveSlots arr'
  value : arr'.index holeI = some (create holeI)
  frame : ∀ i, i ≠ holeI → arr'.index i = arr.index i
  slots : ∀ i, i ∈ liveSlots arr' ↔ i = holeI ∨ i ∈ liveSlots arr
  capacity : arr.capacity ≤ arr'.capacity
  last : (emplaceGrow arr).holeIs = arr'.holeIs ++ [holeI]
  capacityEq : arr'.capacity = (emplaceGrow arr).capacity

/-- One operation of a client of `HoleyArray`. -/
inductive HoleyOp (El : Type) where
  | emplace (create : Nat → El)
  | destroy (i : Nat)

/-- A sequence of operations run on an array; `none` when an `emplace` in it
is undefined. -/
def applyOps {El : Type} (arr : HoleyArray El) : List (HoleyOp El) → Option (HoleyArray El)
  | [] => some arr
  | .emplace create :: ops =>
    match emplace arr create with
    | none => none
    | some (_, arr1) => applyOps arr1 ops
  | .destroy i :: ops => applyOps (destroy arr i) ops

/-- Every `destroy` of the sequence names a slot that is live when the
operation is reached (the precondition of `destroy`). -/
def destroysLive {El : Type} (arr : HoleyArray El) : List (HoleyOp El) → Bool
  | [] => true
  | .emplace create :: ops =>
    match emplace arr create with
    | none => true
    | some (_, arr1) => destroysLive arr1 ops
  | .destroy i :: ops => decide (i ∈ liveSlots arr) && destroysLive (destroy arr i) ops

/-- Whether the operation is `destroy` of slot `i`. -/
def HoleyOp.isDestroyOf {El : Type} (i : Nat) : HoleyOp El → Bool
  | .destroy j => decide (j = i)
  | .emplace _ => false

/-! ## Bytes and 32-bit values -/

/-- The four bytes `memcpy` copies out of a `U32` on the little-endian target:
the value modulo `2^32`, least significant byte first. -/
def le32 (v : Nat) : List Nat :=
  [v % 256, v / 256 % 256, v / 65536 % 256, v / 16777216 % 256]

/-- The `U32` that `memcpy` reads from four bytes (little-endian). -/
def u32OfBytes (b : List Nat) : Nat :=
  b.getD 0 0 + 256 * b.getD 1 0 + 65536 * b.getD 2 0 + 16777216 * b.getD 3 0

/-- The bytes of an `S32` in two's complement, least significant byte first. -/
def leS32 (v : Int) : List Nat :=
  le32 (v % 4294967296).toNat

/-- The `S32` that `memcpy` reads from four bytes (two's complement). -/
def s32OfBytes (b : List Nat) : Int :=
  if u32OfBytes b < 2147483648 then (u32OfBytes b : Int) else (u32OfBytes b : Int) - 4294967296

/-- `a - b` in `U32` arithmetic (wraps modulo `2^32`). -/
def u32Sub (a b : Nat) : Nat :=
  (a % 4294967296 + 4294967296 - b % 4294967296) % 4294967296

/-- A comparison result converted to an integer, as in `n - (r <= n)`. -/
def boolToNat (b : Bool) : Nat :=
  if b then 1 else 0

/-- `memcpyInspect(dst + offset, src)` / `std::memcpy(dst + offset, src, n)` on
a buffer `dst`: overwrites `src.length` bytes from `offset` on. -/
def memcpyInspect (dst : List Nat) (offset : Nat) (src : List Nat) : List Nat :=
  dst.take offset ++ src ++ dst.drop (offset + src.length)

/-- `serialise(MessageType{t}, v)` for a `U32` `v` (server.cpp): the type byte
followed by the four bytes of `v`. -/
def serialise (messageType : Nat) (v : Nat) : List Nat :=
  memcpyInspect (memcpyInspect (List.replicate 5 0) 0 [messageType]) 1 (le32 v)

/-! ## server.cpp -/

/-- Modelled from the spec: the header `position/cpp.hpp` that declares
`Position` is not among the sources; the spec gives "Position={x,y,z as 32-bit
signed integers}", and the code copies `sizeof(Position::El)` bytes per
coordinate. -/
structure Position where
  x : Int
  y : Int
  z : Int
deriving Repr, DecidableEq

/-- `struct Player` (the object behind the `std::unique_ptr<Player>` stored in
the table).  Its `AsyncSocket` is represented by the `Write`s addressed to the
player's slot. -/
structure Player where
  position : Position
deriving Repr, DecidableEq

/-- One call `scheduleSocketWrite(p.socket, bytes, reactor)` where `p` is the
player in slot `recipient`. -/
structure Write where
  recipient : Nat
  bytes : List Nat
deriving Repr, DecidableEq

/-- `MutexedPlayers::o`, constructed as `o{5}`. -/
def MutexedPlayers.initial : HoleyArray Player :=
  HoleyArray.construct 5

/-- `Player::Player`: `position{{0, 0, 0}}`. -/
def Player.construct : Player :=
  { position := { x := 0, y := 0, z := 0 } }

/-- `handleNewConnection` from `std::lock_guard g{ctx.players.mutex}` on:
inserts the new player, gathers the indices of the other players, sends the
new player the message of type 0 and every player gathered a message of
type 1.

The `create` lambda copies the slot index into its local `playerI` and returns
`std::forward_as_tuple(player, playerI)`, a tuple of references whose second
component refers to that local.  The local is dead when `emplace` returns, and
`auto const newPlayerI= std::get<1>(playerInfo)` reads it then: the value of
`newPlayerI` is undefined in the source.  It is the argument `readPlayerI`
here: `readPlayerI holeI` is the `U32` that the read yields in a call in which
the local held `holeI` (`id`: the storage of the local still holds the index).
`player`, the first component, refers to the object that the table owns, so
the message of type 0 goes to the socket of the player in slot `holeI`
whatever is read.

The result is the table, the slot `holeI` of the new player and the writes in
call order. -/
def handleNewConnection (players : HoleyArray Player) (readPlayerI : Nat → Nat) :
    Option (HoleyArray Player × Nat × List Write) :=
  match emplace players (fun _ => Player.construct) with
  | none => none
  | some (holeI, players1) =>
    let newPlayerI := readPlayerI holeI
    let playerC := u32Sub (size players1) 1
    let playerIs : List Nat :=
      foreach players1 (fun _ oI _ playerIs => if oI = newPlayerI then playerIs else playerIs ++ [oI]) []
    let bufSize := 1 + 4 + 4 * playerIs.length
    let mem0 := memcpyInspect (List.replicate bufSize 0) 0 [0]
    let mem1 := memcpyInspect mem0 1 (le32 playerC)
    let mem2 := (List.range playerIs.length).foldl
      (fun mem i => memcpyInspect mem (1 + 4 + i * 4) (le32 (playerIs.getD i 0))) mem1
    let joined := playerIs.map (fun playerI =>
      { recipient := playerI
        bytes := serialise 1 (u32Sub newPlayerI (boolToNat (decide (playerI ≤ newPlayerI)))) : Write })
    some (players1, holeI, { recipient := holeI, bytes := mem2.take bufSize } :: joined)

/-- `handleClientDisconnected` (the lambda in `handlePlayerSocketReady`) from
`destroy(players.o, playerI)` on: removes the player and sends every player
still in the table a message of type 2. -/
def handleClientDisconnected (players : HoleyArray Player) (playerI : Nat) :
    HoleyArray Player × List Write :=
  let players1 := destroy players playerI
  (players1,
    foreach players1 (fun _ oI _ writes =>
      writes ++ [{ recipient := oI
                   bytes := serialise 2 (u32Sub playerI (boolToNat (decide (oI ≤ playerI)))) }]) [])

/-- The state of the inner lambda of `broadcastPlayerPositions`: the shared
buffer and the captured `haveReachedSamePlayer`. -/
structure BroadcastScan where
  buf : List Nat
  haveReachedSamePlayer : Bool

/-- The inner lambda of `broadcastPlayerPositions` run for recipient `oI0`:
skips `oI0` and copies the position of player `oI1` to triple
`i = filledI - haveReachedSamePlayer` of the payload (which starts at offset
`sizeof(MessageType) = 1`). -/
def broadcastScan (oI0 : Nat) (filledI oI1 : Nat) (player : Option Player)
    (s : BroadcastScan) : BroadcastScan :=
  if oI0 = oI1 then { s with haveReachedSamePlayer := true }
  else
    let i := filledI - boolToNat s.haveReachedSamePlayer
    match player with
    | none => s
    | some p =>
      let b0 := memcpyInspect s.buf (1 + (0 + i * 3) * 4) (leS32 p.position.x)
      let b1 := memcpyInspect b0 (1 + (1 + i * 3) * 4) (leS32 p.position.y)
      let b2 := memcpyInspect b1 (1 + (2 + i * 3) * 4) (leS32 p.position.z)
      { s with buf := b2 }

/-- `broadcastPlayerPositions` under `players.mutex`: one buffer of
`1 + 12 * (size - 1)` bytes is allocated (zeroed) and given type byte 3; for
every player `oI0` the payload is rewritten by the inner `foreach` and the
buffer is passed to `scheduleSocketWrite` for `players.o[oI0]->socket`. -/
def broadcastPlayerPositions (players : HoleyArray Player) : List Write :=
  if size players < 1 then []
  else
    let bufSize := 1 + 3 * 4 * (size players - 1)
    let buf := memcpyInspect (List.replicate bufSize 0) 0 [3]
    (foreach players (fun _ oI0 _ (s : List Nat × List Write) =>
        let buf1 := (foreach players (broadcastScan oI0)
          { buf := s.1, haveReachedSamePlayer := false }).buf
        (buf1, s.2 ++ [{ recipient := oI0, bytes := buf1.take bufSize }]))
      (buf, [])).2

/-- The two events that change the membership of the player table. -/
inductive ServerEvent where
  | newConnection
  | clientDisconnected (playerI : Nat)
deriving Repr, DecidableEq

/-- One server event on the table: the new table and the writes it makes, in
a run of the server in which every read of `newPlayerI` in
`handleNewConnection` yields the index that the dead local held
(`readPlayerI = id`); the other runs are those of `handleNewConnection` with
another `readPlayerI`.
`none`: `emplace` was undefined, or `clientDisconnected` names a slot that
holds no player (no reaction exists for such a slot). -/
def serverStep (players : HoleyArray Player) : ServerEvent → Option (HoleyArray Player × List Write)
  | .newConnection =>
    match handleNewConnection players id with
    | none => none
    | some (players1, _, writes) => some (players1, writes)
  | .clientDisconnected playerI =>
    if playerI ∈ liveSlots players then some (handleClientDisconnected players playerI)
    else none

/-- A sequence of server events, each as in `serverStep`: the final table and
all writes in order. -/
def serverRun (players : HoleyArray Player) : List ServerEvent → Option (HoleyArray Player × List Write)
  | [] => some (players, [])
  | e :: es =>
    match serverStep players e with
    | none => none
    | some (players1, writes) =>
      match serverRun players1 es with
      | none => none
      | some (players2, writes2) => some (players2, writes ++ writes2)

/-- The bytes written to the socket of the player in slot `r`, message by
message. -/
def writesTo (r : Nat) (writes : List Write) : List (List Nat) :=
  (writes.filter (fun w => decide (w.recipient = r))).map (fun w => w.bytes)

/-- The twelve bytes of a position in a message: `x`, `y`, `z`, four bytes each. -/
def positionBytes (pos : Position) : List Nat :=
  leS32 pos.x ++ leS32 pos.y ++ leS32 pos.z

/-- The twelve payload bytes for the player in slot `o`. -/
def slotPositionBytes (players : HoleyArray Player) (o : Nat) : List Nat :=
  match players.index o with
  | some p => positionBytes p.position
  | none => []

/-- The positions of the live players other than `r`, in ascending slot order,
twelve bytes each. -/
def othersPositions (players : HoleyArray Player) (r : Nat) : List Nat :=
  ((liveSlots players).filter (fun o => decide (o ≠ r))).flatMap (slotPositionBytes players)

/-- The three `memcpyInspect` calls of the inner lambda of
`broadcastPlayerPositions` for triple `i` and the player in slot `o`. -/
def writeTriple (players : HoleyArray Player) (buf : List Nat) (i o : Nat) : List Nat :=
  match players.index o with
  | none => buf
  | some p =>
    memcpyInspect
      (memcpyInspect (memcpyInspect buf (1 + (0 + i * 3) * 4) (leS32 p.position.x))
        (1 + (1 + i * 3) * 4) (leS32 p.position.y))
      (1 + (2 + i * 3) * 4) (leS32 p.position.z)

/-! ## array.hpp: ReplicaHoleyArray, client-networking.cpp -/

/-- How a handler or a library call can fail: `exit` is `std::exit(1)` (a
failed `ASSERT`, `UNIMPLEMENTED`), `undefined` is undefined behaviour (an
access outside the allocation, a dereferenced end iterator). -/
inductive Fault where
  | exit
  | undefined
deriving Repr, DecidableEq

/-- `ReplicaHoleyArray<El, Size>`: `mem` is `none` while the pointer is null;
`filledIs` is the sorted list of populated indices. -/
structure ReplicaHoleyArray (El : Type) where
  mem : Option (List (Option El))
  filledIs : List Nat
  size : Nat
deriving Repr, DecidableEq

/-- `ReplicaHoleyArray(Tag::Empty)`: `mem{nullptr}`. -/
def ReplicaHoleyArray.empty {El : Type} : ReplicaHoleyArray El :=
  { mem := none, filledIs := [], size := 0 }

/-- `allocate(ReplicaHoleyArray&, size)`: asserts that nothing is allocated
and that `filledIs` is empty, then allocates `size` buckets. -/
def ReplicaHoleyArray.allocate {El : Type} (arr : ReplicaHoleyArray El) (size : Nat) :
    Except Fault (ReplicaHoleyArray El) :=
  if arr.mem.isSome then .error .exit
  else if !arr.filledIs.isEmpty then .error .exit
  else .ok { arr with mem := some (List.replicate size none), size := size }

/-- `emplace(ReplicaHoleyArray&, i, args...)`: constructs the element in
bucket `i` (outside the allocation this is undefined) and inserts `i` into
`filledIs` at its lower bound. -/
def ReplicaHoleyArray.emplace {El : Type} (arr : ReplicaHoleyArray El) (i : Nat) (el : El) :
    Except Fault (ReplicaHoleyArray El) :=
  match arr.mem with
  | none => .error .undefined
  | some mem =>
    if i < mem.length then
      .ok { arr with
            mem := some (mem.set i (some el))
            filledIs := vectorInsert arr.filledIs (lowerBound arr.filledIs i) i }
    else .error .undefined

/-- `destroy(ReplicaHoleyArray&, i)`: `it = lower_bound(filledIs, i)`,
`ASSERT(*it == i)`, `filledIs.erase(it)`.  Dereferencing `it` when it is the
end iterator is undefined. -/
def ReplicaHoleyArray.destroy {El : Type} (arr : ReplicaHoleyArray El) (i : Nat) :
    Except Fault (ReplicaHoleyArray El) :=
  let it := lowerBound arr.filledIs i
  match arr.filledIs[it]? with
  | none => .error .undefined
  | some x =>
    if x = i then
      .ok { arr with
            mem := arr.mem.map (fun mem => mem.set i none)
            filledIs := vectorErase arr.filledIs it }
    else .error .exit

/-- `size(ReplicaHoleyArray const&)`: `filledIs.size()`. -/
def ReplicaHoleyArray.count {El : Type} (arr : ReplicaHoleyArray El) : Nat :=
  arr.filledIs.length

/-- `ReplicaHoleyArray::operator[]`: the object in bucket `i`; `none` stands
for a bucket without a constructed object. -/
def ReplicaHoleyArray.index {El : Type} (arr : ReplicaHoleyArray El) (i : Nat) : Option El :=
  match arr.mem with
  | none => none
  | some mem => (mem[i]?).join

/-- One operation of the client on its `ReplicaHoleyArray`. -/
inductive ReplicaOp (El : Type) where
  | emplace (i : Nat) (el : El)
  | destroy (i : Nat)

/-- A sequence of `emplace` and `destroy` calls run on a `ReplicaHoleyArray`. -/
def replicaOps {El : Type} (arr : ReplicaHoleyArray El) :
    List (ReplicaOp El) → Except Fault (ReplicaHoleyArray El)
  | [] => .ok arr
  | .emplace i el :: ops =>
    match arr.emplace i el with
    | .error f => .error f
    | .ok arr1 => replicaOps arr1 ops
  | .destroy i :: ops =>
    match arr.destroy i with
    | .error f => .error f
    | .ok arr1 => replicaOps arr1 ops

/-- The ids of a sequence of operations are distinct: every `emplace` names an
id inside the allocation that is not populated when the call is reached, every
`destroy` names an id that is populated then. -/
def replicaOpsDistinct {El : Type} (arr : ReplicaHoleyArray El) : List (ReplicaOp El) → Bool
  | [] => true
  | .emplace i el :: ops =>
    decide (i < arr.size) && decide (i ∉ arr.filledIs) &&
      (match arr.emplace i el with
       | .error _ => false
       | .ok arr1 => replicaOpsDistinct arr1 ops)
  | .destroy i :: ops =>
    decide (i ∈ arr.filledIs) &&
      (match arr.destroy i with
       | .error _ => false
       | .ok arr1 => replicaOpsDistinct arr1 ops)

/-- The state of a `ReplicaHoleyArray` that has been allocated: `filledIs` is
strictly ascending with entries below `size`, there is one bucket per index
and a bucket holds an object exactly when its index is in `filledIs`. -/
structure ReplicaHoleyArray.Inv {El : Type} (arr : ReplicaHoleyArray El) : Prop where
  sorted : arr.filledIs.Pairwise (fun a b => a < b)
  bound : ∀ i ∈ arr.filledIs, i < arr.size
  allocated : ∃ mem, arr.mem = some mem ∧ mem.length = arr.size
  populated : ∀ i, i ∈ arr.filledIs ↔ (arr.index i).isSome = true

/-- `OtherPlayer` (client-networking.hpp). -/
structure OtherPlayer where
  position : Position
deriving Repr, DecidableEq

/-- What a message handler returns to `handleMessageStreamReadable`:
`incomplete` is the return value `-1`, `consumed n s` is the message length
`n` with the handler's effect `s` on the state it captured. -/
inductive HandlerRet (σ : Type) where
  | incomplete
  | consumed (n : Nat) (s : σ)
  | fault (f : Fault)

/-- The `emplace` loop of case 0 of the client's `handleMessage`. -/
def emplaceAll (arr : ReplicaHoleyArray OtherPlayer) :
    List Nat → Except Fault (ReplicaHoleyArray OtherPlayer)
  | [] => .ok arr
  | playerI :: playerIs =>
    match arr.emplace playerI { position := { x := 0, y := 0, z := 0 } } with
    | .error f => .error f
    | .ok arr1 => emplaceAll arr1 playerIs

/-- The `foreach` of case 3 of the client's `handleMessage`: the `i`-th
populated peer gets the `i`-th triple at `scan`. -/
def updatePositions (scan : List Nat) (mem : List (Option OtherPlayer)) :
    (filledI : Nat) → (filledIs : List Nat) → List (Option OtherPlayer)
  | _, [] => mem
  | filledI, i :: rest =>
    let pos : Position :=
      { x := s32OfBytes ((scan.drop ((0 + 3 * filledI) * 4)).take 4)
        y := s32OfBytes ((scan.drop ((1 + 3 * filledI) * 4)).take 4)
        z := s32OfBytes ((scan.drop ((2 + 3 * filledI) * 4)).take 4) }
    updatePositions scan (mem.set i (some { position := pos })) (filledI + 1) rest

/-- The client's `handleMessage(ns, messageType, scanPos, remainingByteC)`;
`scan` holds the `remainingByteC` bytes at `scanPos`, `otherPlayers` is
`ns.otherPlayers`. -/
def clientHandleMessage (messageType : Nat) (scan : List Nat)
    (otherPlayers : ReplicaHoleyArray OtherPlayer) :
    HandlerRet (ReplicaHoleyArray OtherPlayer) :=
  if messageType = 0 then
    if scan.length < 4 then .incomplete
    else
      let playerC := u32OfBytes (scan.take 4)
      if scan.length < 4 + playerC * 4 then .incomplete
      else
        let playerIs := (List.range playerC).map (fun k => u32OfBytes ((scan.drop (4 + k * 4)).take 4))
        match otherPlayers.allocate 5 with
        | .error f => .fault f
        | .ok arr =>
          match emplaceAll arr playerIs with
          | .error f => .fault f
          | .ok arr1 => .consumed (4 + playerC * 4) arr1
  else if messageType = 1 then
    if scan.length < 4 then .incomplete
    else
      match otherPlayers.emplace (u32OfBytes (scan.take 4)) { position := { x := 0, y := 0, z := 0 } } with
      | .error f => .fault f
      | .ok arr => .consumed 4 arr
  else if messageType = 2 then
    if scan.length < 4 then .incomplete
    else
      match otherPlayers.destroy (u32OfBytes (scan.take 4)) with
      | .error f => .fault f
      | .ok arr => .consumed 4 arr
  else if messageType = 3 then
    let msgLen := 3 * 4 * otherPlayers.count
    if scan.length < msgLen then .incomplete
    else
      .consumed msgLen
        { otherPlayers with
          mem := otherPlayers.mem.map (fun mem => updatePositions scan mem 0 otherPlayers.filledIs) }
  else .fault .exit

/-- The client's handler run on a list of whole messages (each the type byte
followed by its payload), as the reader delivers them one after the other. -/
def clientReceive (otherPlayers : ReplicaHoleyArray OtherPlayer) :
    List (List Nat) → Except Fault (ReplicaHoleyArray OtherPlayer)
  | [] => .ok otherPlayers
  | [] :: _ => .error .undefined
  | (messageType :: payload) :: rest =>
    match clientHandleMessage messageType payload otherPlayers with
    | .incomplete => .error .undefined
    | .fault f => .error f
    | .consumed _ arr => clientReceive arr rest

/-- The `i`-th `(x, y, z)` triple of a payload of little-endian `S32` values. -/
def tripleAt (scan : List Nat) (i : Nat) : Position :=
  { x := s32OfBytes ((scan.drop (12 * i)).take 4)
    y := s32OfBytes ((scan.drop (12 * i + 4)).take 4)
    z := s32OfBytes ((scan.drop (12 * i + 8)).take 4) }

/-- The buffer that the client's position timer (the `TimerReaction` added in
`NetworkingState::NetworkingState`) passes to `scheduleSocketWrite`:
`char buf[sizeof(MessageType) + sizeof update]` with `MessageType{0}` copied to
offset 0 and `UpdatePos update{x, y, z}` (three `S32`) copied to offset 1. -/
def positionTimerMessage (x y z : Int) : List Nat :=
  memcpyInspect (memcpyInspect (List.replicate (1 + 12) 0) 0 [0]) 1
    (leS32 x ++ leS32 y ++ leS32 z)

/-! ## networking.hpp, networking-impl.hpp: the read side -/

/-- `maxMessageLength = sizeof(MessageType) + UpdatePosMessageLength`. -/
def maxMessageLength : Nat := 1 + 12

/-- `maxMessagesToReceiveAtOnce`. -/
def maxMessagesToReceiveAtOnce : Nat := 10

/-- `struct AsyncRead`: `incompleteMessage` is the array
`char incompleteMessage[maxMessageLength-1]`. -/
structure AsyncRead where
  incompleteMessageLength : Nat
  incompleteMessage : List Nat
deriving Repr, DecidableEq

/-- `AsyncRead asyncRead{}` in `AsyncSocket`: value-initialised. -/
def AsyncRead.initial : AsyncRead :=
  { incompleteMessageLength := 0, incompleteMessage := List.replicate (maxMessageLength - 1) 0 }

/-- What the kernel has for one `read()` call on the socket: `ready n` - `n`
bytes of the peer's stream have arrived; `closed` - the peer has closed the
connection; `reset` - the connection was reset; `failure` - any other error. -/
inductive ReadEvent where
  | ready (n : Nat)
  | closed
  | reset
  | failure
deriving Repr, DecidableEq

/-- The receiving end of a socket: the bytes the peer has sent that `read()`
has not returned yet, and what the kernel will have for the coming `read()`
calls (nothing more once the list is used up). -/
structure Inbound where
  stream : List Nat
  events : List ReadEvent
deriving Repr, DecidableEq

/-- The result of `read(fd, buf, count)`. -/
inductive ReadRet where
  | data (bytes : List Nat)
  | wouldBlock
  | zero
  | connReset
  | error
deriving Repr, DecidableEq

/-- `read(fd, buf, count)` on a non-blocking socket: `count == 0` gives 0;
otherwise up to `count` of the bytes that have arrived, `EAGAIN` when there
are none, 0 after the peer closed, `ECONNRESET` after a reset. -/
def read (e : Option ReadEvent) (stream : List Nat) (count : Nat) : ReadRet :=
  if count = 0 then .zero
  else
    match e with
    | none => .wouldBlock
    | some (.ready n) =>
      if min n (min count stream.length) = 0 then .wouldBlock
      else .data (stream.take (min n (min count stream.length)))
    | some .closed => .zero
    | some .reset => .connReset
    | some .failure => .error

/-- What the message loop of `handleMessageStreamReadable` leaves: the bytes
from `scanPos` on that `handleIncompleteMessage` recorded, the handler's state
and the handler calls that returned a length, each as the message type with
the payload bytes it consumed. -/
structure ScanResult (σ : Type) where
  incomplete : List Nat
  state : σ
  handled : List (Nat × List Nat)

/-- The loop `for(U32F scanI= 0;;)` of `handleMessageStreamReadable` over the
filled part of `messages` from `scanPos` on.  `skip` counts the payload bytes
of the message just handled that `scanI += sizeof messageType +
handleMessageRet` still has to pass; running out of bytes while skipping means
the handler returned more than `remainingByteC` (the source then reads outside
the filled part). -/
def scanMessages {σ : Type} (handleMessage : Nat → List Nat → σ → HandlerRet σ) :
    (skip : Nat) → (bytes : List Nat) → σ → List (Nat × List Nat) →
      Except Fault (ScanResult σ)
  | 0, [], s, handled => .ok { incomplete := [], state := s, handled := handled }
  | _ + 1, [], _, _ => .error .undefined
  | skip + 1, _ :: rest, s, handled => scanMessages handleMessage skip rest s handled
  | 0, messageType :: rest, s, handled =>
    match handleMessage messageType rest s with
    | .incomplete =>
      .ok { incomplete := messageType :: rest, state := s, handled := handled }
    | .fault f => .error f
    | .consumed n s1 =>
      scanMessages handleMessage n rest s1 (handled ++ [(messageType, rest.take n)])

/-- How a call of `handleMessageStreamReadable` ended. -/
inductive ReadableEnd where
  | wouldBlock
  | endOfStream
  | fault (f : Fault)
deriving Repr, DecidableEq

/-- The state after a call of `handleMessageStreamReadable`. -/
structure ReadableResult (σ : Type) where
  asyncRead : AsyncRead
  state : σ
  handled : List (Nat × List Nat)
  inbound : Inbound
  ending : ReadableEnd

/-- The branch `EAGAIN == errno || EWOULDBLOCK == errno`: the length is stored
and `incompleteMessageLength` bytes are copied from `messages` into
`asyncRead.incompleteMessage` (writing past the array is undefined). -/
def storeIncomplete (asyncRead : AsyncRead) (incomplete : List Nat) : Except Fault AsyncRead :=
  if incomplete.length ≤ asyncRead.incompleteMessage.length then
    .ok { incompleteMessageLength := incomplete.length
          incompleteMessage := memcpyInspect asyncRead.incompleteMessage 0 incomplete }
  else .error .undefined

/-- The loop `for(;;)` of `handleMessageStreamReadable`; `incomplete` holds the
`incompleteMessageLength` bytes at `incompleteMessage`, which `memmove` puts at
the head of `messages` (`sizeof messages = 13 * 10`).  Every iteration makes
one `read()` call. -/
def readLoop {σ : Type} (handleMessage : Nat → List Nat → σ → HandlerRet σ)
    (handleEndOfStream : σ → σ) (asyncRead : AsyncRead) :
    (events : List ReadEvent) → (stream incomplete : List Nat) → σ →
      List (Nat × List Nat) → ReadableResult σ
  | events, stream, incomplete, s, handled =>
    let count := maxMessageLength * maxMessagesToReceiveAtOnce - incomplete.length
    let finish (readRet : ReadRet) (rest : List ReadEvent) : ReadableResult σ :=
      match readRet with
      | .wouldBlock =>
        match storeIncomplete asyncRead incomplete with
        | .ok asyncRead1 =>
          { asyncRead := asyncRead1, state := s, handled := handled
            inbound := { stream := stream, events := rest }, ending := .wouldBlock }
        | .error f =>
          { asyncRead := asyncRead, state := s, handled := handled
            inbound := { stream := stream, events := rest }, ending := .fault f }
      | .zero | .connReset =>
        { asyncRead := asyncRead, state := handleEndOfStream s, handled := handled
          inbound := { stream := stream, events := rest }, ending := .endOfStream }
      | _ =>
        { asyncRead := asyncRead, state := s, handled := handled
          inbound := { stream := stream, events := rest }, ending := .fault .exit }
    match events with
    | [] => finish (read none stream count) []
    | e :: rest =>
      match read (some e) stream count with
      | .data bytes =>
        match scanMessages handleMessage 0 (incomplete ++ bytes) s handled with
        | .error f =>
          { asyncRead := asyncRead, state := s, handled := handled
            inbound := { stream := stream.drop bytes.length, events := rest }
            ending := .fault f }
        | .ok r =>
          readLoop handleMessage handleEndOfStream asyncRead rest (stream.drop bytes.length)
            r.incomplete r.state r.handled
      | readRet => finish readRet rest

/-- `handleMessageStreamReadable(fd, asyncRead, handleMessage,
handleEndOfStream)`. -/
def handleMessageStreamReadable {σ : Type} (handleMessage : Nat → List Nat → σ → HandlerRet σ)
    (handleEndOfStream : σ → σ) (asyncRead : AsyncRead) (inbound : Inbound) (s : σ) :
    ReadableResult σ :=
  readLoop handleMessage handleEndOfStream asyncRead inbound.events inbound.stream
    (asyncRead.incompleteMessage.take asyncRead.incompleteMessageLength) s []

/-- `calls` successive calls of `handleMessageStreamReadable` on the same
`AsyncRead` (one per `EPOLLIN` notification), as long as each returns on
would-block; the handler calls of all of them are collected in order. -/
def readableCalls {σ : Type} (handleMessage : Nat → List Nat → σ → HandlerRet σ)
    (handleEndOfStream : σ → σ) :
    (calls : Nat) → AsyncRead → Inbound → σ → List (Nat × List Nat) → ReadableResult σ
  | 0, asyncRead, inbound, s, handled =>
    { asyncRead := asyncRead, state := s, handled := handled, inbound := inbound
      ending := .wouldBlock }
  | calls + 1, asyncRead, inbound, s, handled =>
    let r := handleMessageStreamReadable handleMessage handleEndOfStream asyncRead inbound s
    match r.ending with
    | .wouldBlock =>
      readableCalls handleMessage handleEndOfStream calls r.asyncRead r.inbound r.state
        (handled ++ r.handled)
    | _ => { r with handled := handled ++ r.handled }

/-- The three `memcpyInit` calls of the server's message handler: the
coordinates at `scanPos + 0`, `+ 4` and `+ 8` become the position of the
player in slot `playerI`. -/
def copyPosition (players : HoleyArray Player) (playerI : Nat) (scan : List Nat) :
    HoleyArray Player :=
  { players with
    mem := players.mem.set playerI (some
      { position :=
          { x := s32OfBytes ((scan.drop (0 * 4)).take 4)
            y := s32OfBytes ((scan.drop (1 * 4)).take 4)
            z := s32OfBytes ((scan.drop (2 * 4)).take 4) } }) }

/-- The message handler that `handlePlayerSocketReady` passes to
`handleMessageStreamReadable` for the player in slot `playerI`:
`ASSERT(messageType == 0)`, `-1` when fewer than `sizeof(UpdatePos) = 12`
bytes remain, otherwise the three coordinates are copied into
`player.position` and 12 is returned.  `player` is the object in slot
`playerI`. -/
def serverHandleMessage (playerI : Nat) (messageType : Nat) (scan : List Nat)
    (players : HoleyArray Player) : HandlerRet (HoleyArray Player) :=
  if messageType ≠ 0 then .fault .exit
  else if scan.length < 12 then .incomplete
  else
    match players.index playerI with
    | none => .fault .undefined
    | some _ => .consumed 12 (copyPosition players playerI scan)

/-- The bytes of a stream of `UPDATE_POS` messages with the given payloads. -/
def updatePosStream (payloads : List (List Nat)) : List Nat :=
  payloads.flatMap (fun payload => 0 :: payload)

/-- The state in which a call of the frame reader on a stream of `UPDATE_POS`
messages ends: it returned on would-block, the handler was called for the next
`j` messages of the stream, and the stored incomplete message followed by the
unread bytes is the rest of the stream. -/
structure UpdatePosProgress (playerI : Nat) (payloads : List (List Nat))
    (handled : List (Nat × List Nat)) (r : ReadableResult (HoleyArray Player)) (j : Nat) :
    Prop where
  ending : r.ending = .wouldBlock
  handled : r.handled = handled ++ (payloads.take j).map (fun p => (0, p))
  length : r.asyncRead.incompleteMessage.length = 12
  rest : r.asyncRead.incompleteMessage.take r.asyncRead.incompleteMessageLength
      ++ r.inbound.stream = updatePosStream (payloads.drop j)
  short : r.asyncRead.incompleteMessageLength < 13
  live : (r.state.index playerI).isSome = true
  ready : ∀ e ∈ r.inbound.events, ∃ n, e = .ready n

/-! ## networking.cpp: the write side -/

/-- `struct AsyncWrite` (without the mutex). -/
structure AsyncWrite where
  buf : List Nat
  willNotifyOnWritable : Bool
deriving Repr, DecidableEq

/-- What the kernel answers to one `write()` call: `accept n` - it takes up to
`n` of the bytes offered (`n = 0`: it returns 0); `wouldBlock` - `-1` with
`EAGAIN`; `failure` - `-1` with another error. -/
inductive WriteEvent where
  | accept (n : Nat)
  | wouldBlock
  | failure
deriving Repr, DecidableEq

/-- The sending end of a socket as the kernel sees it: the bytes `write()` has
accepted so far, the answers to the coming `write()` calls (would-block once
the list is used up), and whether `EPOLLOUT` is in the event mask registered
for the fd. -/
structure Outbound where
  accepted : List Nat
  events : List WriteEvent
  epollOut : Bool
deriving Repr, DecidableEq

/-- The write side of an `AsyncSocket` together with its fd. -/
structure SocketOut where
  asyncWrite : AsyncWrite
  outbound : Outbound
deriving Repr, DecidableEq

/-- A socket on which nothing has been written: empty buffer,
`defaultSocketEvents` registered.  The constructor of `AsyncSocket` gives
`asyncWrite.willNotifyOnWritable` no initial value, so the flag is a
parameter. -/
def SocketOut.initial (events : List WriteEvent) (willNotifyOnWritable : Bool) : SocketOut :=
  { asyncWrite := { buf := [], willNotifyOnWritable := willNotifyOnWritable }
    outbound := { accepted := [], events := events, epollOut := false } }

/-- `writeAsMuchAsPossible(fd, src)` from position `pos` on: returns the count
of written bytes with the kernel's state, `none` when it reaches
`UNIMPLEMENTED` (`std::exit(1)`), which is where `EAGAIN` leads.  Byte counts
are message buffer sizes (`MessageBufSize`), which the `U32` result holds. -/
def writeAsMuchAsPossible : (events : List WriteEvent) → (src : List Nat) → (pos : Nat) →
    (accepted : List Nat) → Option (Nat × List Nat × List WriteEvent)
  | events, src, pos, accepted =>
    if src.length - pos = 0 then some (src.length, accepted, events)
    else
      match events with
      | [] => none
      | .accept n :: rest =>
        if 0 < min n (src.length - pos) then
          writeAsMuchAsPossible rest src (pos + min n (src.length - pos))
            (accepted ++ (src.drop pos).take (min n (src.length - pos)))
        else some (pos, accepted, rest)
      | .wouldBlock :: _ => none
      | .failure :: rest => some (pos, accepted, rest)

/-- `scheduleSocketWrite(socket, src, reactor)`; `none`: the process exited in
`writeAsMuchAsPossible`. -/
def scheduleSocketWrite (socket : SocketOut) (src : List Nat) : Option SocketOut :=
  let written : Option (Nat × List Nat × List WriteEvent) :=
    if socket.asyncWrite.buf.isEmpty then
      writeAsMuchAsPossible socket.outbound.events src 0 socket.outbound.accepted
    else some (0, socket.outbound.accepted, socket.outbound.events)
  match written with
  | none => none
  | some (writtenByteC, accepted, events) =>
    if writtenByteC = src.length then
      some { socket with outbound := { socket.outbound with accepted := accepted, events := events } }
    else
      some
        { asyncWrite :=
            { buf := socket.asyncWrite.buf ++ src.drop writtenByteC
              willNotifyOnWritable := true }
          outbound :=
            { accepted := accepted
              events := events
              epollOut := if socket.asyncWrite.willNotifyOnWritable then socket.outbound.epollOut
                          else true } }

/-- `handleMessageStreamWritable(socket, execInfo)`; `none`: the process exited
in `writeAsMuchAsPossible`. -/
def handleMessageStreamWritable (socket : SocketOut) : Option SocketOut :=
  match writeAsMuchAsPossible socket.outbound.events socket.asyncWrite.buf 0
      socket.outbound.accepted with
  | none => none
  | some (writtenByteC, accepted, events) =>
    let leftByteC := socket.asyncWrite.buf.length - writtenByteC
    some
      { asyncWrite :=
          { socket.asyncWrite with
            buf := (socket.asyncWrite.buf.drop writtenByteC).take leftByteC }
        outbound := { accepted := accepted, events := events, epollOut := false } }

/-- A call made on a socket's write side. -/
inductive WriteOp where
  | schedule (src : List Nat)
  | writable
deriving Repr, DecidableEq

/-- A sequence of calls on one socket; `none` when the process exited. -/
def runWriteOps (socket : SocketOut) : List WriteOp → Option SocketOut
  | [] => some socket
  | .schedule src :: ops =>
    match scheduleSocketWrite socket src with
    | none => none
    | some socket1 => runWriteOps socket1 ops
  | .writable :: ops =>
    match handleMessageStreamWritable socket with
    | none => none
    | some socket1 => runWriteOps socket1 ops

/-- The concatenation of the payloads scheduled by a sequence of calls. -/
def scheduledBytes : List WriteOp → List Nat
  | [] => []
  | .schedule src :: ops => src ++ scheduledBytes ops
  | .writable :: ops => scheduledBytes ops

/-! ## concurrency.hpp, concurrency.cpp: the reactor -/

/-- The functions that the repository registers as fd reactions
(`FdReactionFunc&`). -/
inductive FdReactionFunc where
  | wakeupForNewTimer
  | handleNewConnection
  | handlePlayerSocketReady
  | clientSocketReady
  | noopFdReaction
deriving Repr, DecidableEq

/-- `struct FdReaction`: the function and the object that `data` points to,
named by a number. -/
structure FdReaction where
  func : FdReactionFunc
  data : Nat
deriving Repr, DecidableEq

/-- The functions that the repository registers as timer reactions
(`TimerReactionFunc&`). -/
inductive TimerReactionFunc where
  | broadcastPlayerPositions
  | sendPositionUpdate
deriving Repr, DecidableEq

/-- `struct TimerReaction`. -/
structure TimerReaction where
  func : TimerReactionFunc
  data : Nat
deriving Repr, DecidableEq

/-- `struct PendingTimer`: `time` and `interval` are counts of ticks of
`std::chrono::steady_clock`. -/
structure PendingTimer where
  time : Int
  interval : Int
  indexInTable : Nat
deriving Repr, DecidableEq

/-- `PendingTimerCmp::operator()(a, b)`: `return a.time < b.time`. -/
def PendingTimerCmp (a b : PendingTimer) : Bool :=
  decide (a.time < b.time)

/-- `std::priority_queue<PendingTimer, std::vector<PendingTimer>,
PendingTimerCmp>::top()`.  The queue keeps its vector a heap with respect to
the comparison, so `top()` is an element `t` with `cmp(t, x)` false for every
element `x`; the standard does not say which one among equivalent elements.
The queue is embedded as the list of its elements in insertion order and
`top` takes the first such element; `none` stands for the empty queue. -/
def PriorityQueue.top (q : List PendingTimer) : Option PendingTimer :=
  match q with
  | [] => none
  | x :: xs => some (xs.foldl (fun best y => if PendingTimerCmp best y then y else best) x)

/-- `std::priority_queue::pop()`: removes the element that `top()` names. -/
def PriorityQueue.pop (q : List PendingTimer) : List PendingTimer :=
  match PriorityQueue.top q with
  | none => q
  | some t => q.erase t

/-- `std::priority_queue::push(x)`. -/
def PriorityQueue.push (q : List PendingTimer) (x : PendingTimer) : List PendingTimer :=
  q ++ [x]

/-- One entry of the interest list of an epoll instance: the fd with the
`epoll_event` registered for it (`events` and `data.u32`). -/
structure EpollEntry where
  fd : Nat
  events : Nat
  data : Nat
deriving Repr, DecidableEq

/-- `EPOLLIN`. -/
def EPOLLIN : Nat := 1

/-- `epoll_ctl(epollFd, EPOLL_CTL_ADD, fd, &event)` on the interest list of
`epollFd`: the entry is added; when `fd` is registered already the call fails
with `EEXIST` and changes nothing (the callers do not look at the result). -/
def epollCtlAdd (interest : List EpollEntry) (fd events data : Nat) : List EpollEntry :=
  if interest.any (fun e => decide (e.fd = fd)) then interest
  else interest ++ [{ fd := fd, events := events, data := data }]

/-- `struct EpollThread`: `epollSet` is the interest list of `epollFd`,
`wakeupCounter` the counter of the eventfd `wakeupForNewTimerFd`; the mutex
and the thread `o` are left out. -/
structure EpollThread where
  i : Nat
  epollSet : List EpollEntry
  wakeupForNewTimerFd : Nat
  wakeupCounter : Nat
  fdReactionTable : HoleyArray FdReaction
  timerReactionTable : HoleyArray TimerReaction
  pendingTimers : List PendingTimer
deriving Repr, DecidableEq

/-- `struct EpollReactor`: `size` is `reactorThreads.size` (set before the
elements are constructed) and `reactorThreads` lists the elements constructed
so far.  Thread counts are `U8F` values. -/
structure EpollReactor where
  nextRoundRobinI : Nat
  size : Nat
  reactorThreads : List EpollThread
deriving Repr, DecidableEq

/-- `struct ReactionHandle`. -/
structure ReactionHandle where
  epollReactionI : Nat
  reactionThreadI : Nat
deriving Repr, DecidableEq

/-- `lockForAddReaction(reactor)` run by one thread at a time: the cursor is
loaded, `(1 + nextRoundRobinI) % reactorThreads.size` is stored by the
compare-exchange, and the loaded value is the target thread.  `none`: the
remainder by a size of 0 is undefined. -/
def lockForAddReaction (reactor : EpollReactor) : Option (Nat × EpollReactor) :=
  if reactor.size = 0 then none
  else
    some (reactor.nextRoundRobinI,
      { reactor with nextRoundRobinI := (1 + reactor.nextRoundRobinI) % reactor.size })

/-- `addFdReaction(reactor, fd, events, reaction)`: the reaction is created in
the slot `allocI` that `emplace` hands out in the target's `fdReactionTable`,
`fd` is added to the target's epoll instance with `event.data.u32 = allocI`,
and the handle `{allocI, targetThreadI}` is returned.  `none`: the target is
not an element of `reactorThreads`, or `emplace` is undefined. -/
def addFdReaction (reactor : EpollReactor) (fd events : Nat) (reaction : FdReaction) :
    Option (ReactionHandle × EpollReactor) :=
  match lockForAddReaction reactor with
  | none => none
  | some (targetThreadI, reactor1) =>
    match reactor1.reactorThreads[targetThreadI]? with
    | none => none
    | some target =>
      match emplace target.fdReactionTable (fun _ => reaction) with
      | none => none
      | some (allocI, table1) =>
        some ({ epollReactionI := allocI, reactionThreadI := targetThreadI },
          { reactor1 with
            reactorThreads := reactor1.reactorThreads.set targetThreadI
              { target with
                fdReactionTable := table1
                epollSet := epollCtlAdd target.epollSet fd events allocI } })

/-- `removeReactionFromThisThread(thread, reactionI)`:
`destroy(thread.fdReactionTable, reactionI)`. -/
def removeReactionFromThisThread (thread : EpollThread) (reactionI : Nat) : EpollThread :=
  { thread with fdReactionTable := destroy thread.fdReactionTable reactionI }

/-- `addTimerReaction(reactor, interval, reaction)` with `now` the value of
`steady_clock::now()`: the reaction is created in the slot `i` that `emplace`
hands out in the target's `timerReactionTable`,
`{now + interval, interval, static_cast<SmallReactionI>(i)}` is pushed onto the
target's `pendingTimers` (`SmallReactionI` has 16 bits) and 1 is written to the
target's `wakeupForNewTimerFd`. -/
def addTimerReaction (reactor : EpollReactor) (now interval : Int) (reaction : TimerReaction) :
    Option EpollReactor :=
  match lockForAddReaction reactor with
  | none => none
  | some (targetThreadI, reactor1) =>
    match reactor1.reactorThreads[targetThreadI]? with
    | none => none
    | some targetThread =>
      match emplace targetThread.timerReactionTable (fun _ => reaction) with
      | none => none
      | some (i, table1) =>
        some
          { reactor1 with
            reactorThreads := reactor1.reactorThreads.set targetThreadI
              { targetThread with
                timerReactionTable := table1
                pendingTimers := PriorityQueue.push targetThread.pendingTimers
                  { time := now + interval, interval := interval, indexInTable := i % 65536 }
                wakeupCounter := targetThread.wakeupCounter + 1 } }

/-- `EpollThread::EpollThread(reactor, i)` constructing element `i` of
`reactor.reactorThreads`: the members are initialised (`eventFd` is the fd that
`eventfd(0, EFD_NONBLOCK)` returned, both tables have capacity 5), then the
constructor body registers `wakeupForNewTimerFd` with `addFdReaction`. -/
def EpollThread.construct (reactor : EpollReactor) (i eventFd : Nat) : Option EpollReactor :=
  match
    addFdReaction
      { reactor with
        reactorThreads := reactor.reactorThreads ++
          [{ i := i, epollSet := [], wakeupForNewTimerFd := eventFd, wakeupCounter := 0
             fdReactionTable := HoleyArray.construct 5
             timerReactionTable := HoleyArray.construct 5
             pendingTimers := [] }] }
      eventFd EPOLLIN { func := .wakeupForNewTimer, data := eventFd } with
  | none => none
  | some (_, reactor1) => some reactor1

/-- The loop of `constructArrayGeneric` that constructs the elements
`i, i + 1, ...` of `reactorThreads`, `k` of them. -/
def constructThreads (eventFd : Nat → Nat) : (k i : Nat) → EpollReactor → Option EpollReactor
  | 0, _, reactor => some reactor
  | k + 1, i, reactor =>
    match EpollThread.construct reactor i (eventFd i) with
    | none => none
    | some reactor1 => constructThreads eventFd k (i + 1) reactor1

/-- `EpollReactor::EpollReactor(threadC)`: `nextRoundRobinI = 0`, then
`reactorThreads` is constructed element by element in index order; `eventFd i`
is the eventfd that the constructor of thread `i` obtains. -/
def EpollReactor.construct (threadC : Nat) (eventFd : Nat → Nat) : Option EpollReactor :=
  constructThreads eventFd threadC 0 { nextRoundRobinI := 0, size := threadC, reactorThreads := [] }

/-- The number of `steady_clock` ticks in a millisecond (the clock counts
nanoseconds). -/
def ticksPerMillisecond : Int := 1000000

/-- `std::chrono::floor<std::chrono::milliseconds>` of a time point. -/
def floorMs (t : Int) : Int :=
  t / ticksPerMillisecond

/-- `std::chrono::ceil<std::chrono::milliseconds>` of a time point. -/
def ceilMs (t : Int) : Int :=
  -((-t) / ticksPerMillisecond)

/-- `std::chrono::duration_cast<std::chrono::milliseconds>(d).count()`: the
integer division of the tick count, which truncates toward zero. -/
def durationCastMs (d : Int) : Int :=
  Int.tdiv d ticksPerMillisecond

/-- The `timeout` lambda of `executeEpollEvents` with `now` the value of
`steady_clock::now()`:
`timers.empty() ? -1 : duration_cast<milliseconds>(timers.top().time - now).count()`. -/
def epollTimeout (timers : List PendingTimer) (now : Int) : Int :=
  match PriorityQueue.top timers with
  | none => -1
  | some timer => durationCastMs (timer.time - now)

/-- The loop of `checkTimers` in `executeEpollEvents`, with `now` already
`ceil<milliseconds>(steady_clock::now())`: while the queue is not empty and
`floor<milliseconds>(timers.top().time) <= now`, the top timer is popped, its
reaction is invoked, `timer.time += timer.interval` and the timer is pushed.
The invocations are recorded as `(indexInTable, time)` with the `time` the
timer had when popped; the reactions do not touch the queue.  `fuel` bounds
the number of iterations; `none`: the bound was reached. -/
def checkTimersLoop : (fuel : Nat) → (now : Int) → (timers : List PendingTimer) →
    (fired : List (Nat × Int)) → Option (List PendingTimer × List (Nat × Int))
  | 0, _, _, _ => none
  | fuel + 1, now, timers, fired =>
    match PriorityQueue.top timers with
    | none => some (timers, fired)
    | some timer =>
      if floorMs timer.time ≤ now then
        checkTimersLoop fuel now
          (PriorityQueue.push (PriorityQueue.pop timers)
            { timer with time := timer.time + timer.interval })
          (fired ++ [(timer.indexInTable, timer.time)])
      else some (timers, fired)

/-- `checkTimers()` with `now` the value of `steady_clock::now()`. -/
def checkTimers (fuel : Nat) (now : Int) (timers : List PendingTimer) :
    Option (List PendingTimer × List (Nat × Int)) :=
  checkTimersLoop fuel (ceilMs now) timers []

/-- How often the reaction of the timer in slot `i` was invoked in a record of
invocations. -/
def firedCount (i : Nat) (fired : List (Nat × Int)) : Nat :=
  (fired.filter (fun f => decide (f.1 = i))).length

/-- The `time` values with which the reaction of the timer in slot `i` was
invoked, in order. -/
def firedTimes (i : Nat) (fired : List (Nat × Int)) : List Int :=
  (fired.filter (fun f => decide (f.1 = i))).map Prod.snd

/-- A pending timer after the invocations recorded in `fired`: its `time`
advanced by its interval once for each invocation of its reaction. -/
def advanceTimer (fired : List (Nat × Int)) (t : PendingTimer) : PendingTimer :=
  { t with time := t.time + firedCount t.indexInTable fired * t.interval }

/-- The state of reactor thread `i` when its constructor has returned: its
eventfd is the only fd in its epoll set, registered for `EPOLLIN` with user
data 4, and the wake-up reaction is in slot 4 of its fd table. -/
def constructedThread (eventFd : Nat → Nat) (i : Nat) : EpollThread :=
  { i := i
    epollSet := [{ fd := eventFd i, events := EPOLLIN, data := 4 }]
    wakeupForNewTimerFd := eventFd i
    wakeupCounter := 0
    fdReactionTable :=
      { mem := [none, none, none, none, some { func := .wakeupForNewTimer, data := eventFd i }]
        capacity := 5
        holeIs := [0, 1, 2, 3] }
    timerReactionTable := HoleyArray.construct 5
    pendingTimers := [] }

/-! ## server.cpp: the mutex of `MutexedPlayers` -/

/-- What a statement of server.cpp does to `MutexedPlayers`: it takes or
releases `mutex` (a `std::lock_guard` is constructed or goes out of scope), or
it uses the table `o` or the position of a player in it. -/
inductive PlayersStep where
  | lock
  | unlock
  | index (i : Nat)
  | emplace
  | destroy (i : Nat)
  | foreach
  | size
  | readPosition (i : Nat)
  | writePosition (i : Nat)
deriving Repr, DecidableEq

/-- The lambda that initialises `player` in `handlePlayerSocketReady`:
`std::lock_guard g{ctx.players.mutex}; return
assertExists(ctx.players.o[ctx.playerI].get());`. -/
def playerLookupSteps (playerI : Nat) : List PlayersStep :=
  [.lock, .index playerI, .unlock]

/-- The lambda `handleClientDisconnected` of `handlePlayerSocketReady`, in
statement order: `destroy(players.o, playerI);`, then
`std::lock_guard g{players.mutex};` and the `foreach(players.o, ...)` that
sends the messages of type 2. -/
def handleClientDisconnectedSteps (playerI : Nat) : List PlayersStep :=
  [.destroy playerI, .lock, .foreach, .unlock]

/-- The message handler of `handlePlayerSocketReady` when it copies a
position: `std::lock_guard g{ctx.players.mutex};` and the three `memcpyInit`
calls into `player.position`. -/
def updatePositionSteps (playerI : Nat) : List PlayersStep :=
  [.lock, .writePosition playerI, .writePosition playerI, .writePosition playerI, .unlock]

/-- `handleNewConnection` from `std::lock_guard g{ctx.players.mutex};` to the
end of the function: `emplace`, `size`, the `foreach` that gathers `playerIs`
and `ctx.players.o[playerI]` for every gathered index. -/
def handleNewConnectionSteps (playerIs : List Nat) : List PlayersStep :=
  [.lock, .emplace, .size, .foreach] ++ playerIs.map .index ++ [.unlock]

/-- `broadcastPlayerPositions` for the table `players`:
`std::lock_guard g0{players.mutex};`, `size`, and unless the table is empty
`size` again, the outer `foreach` and for every recipient the inner `foreach`
reading the positions of the others and `players.o[oI0]`. -/
def broadcastPlayerPositionsSteps (players : HoleyArray Player) : List PlayersStep :=
  if size players < 1 then [.lock, .size, .unlock]
  else
    [.lock, .size, .size, .foreach] ++
      (liveSlots players).flatMap (fun oI0 =>
        .foreach ::
          (((liveSlots players).filter (fun oI1 => decide (oI1 ≠ oI0))).flatMap (fun oI1 =>
            [PlayersStep.readPosition oI1, .readPosition oI1, .readPosition oI1])
            ++ [.index oI0])) ++
      [.unlock]

/-- Whether every use of the table or of a position in a sequence of steps
happens while the mutex is held; `held` says whether it is held at the
start. -/
def usesUnderMutex : (held : Bool) → List PlayersStep → Bool
  | _, [] => true
  | _, .lock :: steps => usesUnderMutex true steps
  | _, .unlock :: steps => usesUnderMutex false steps
  | held, _ :: steps => held && usesUnderMutex held steps

/-! ## Lemmas: iteration over a holey array -/

theorem foreachNoMoreHoles_eq (k oI filledI : Nat) :
    foreachNoMoreHoles k oI filledI = (List.range' oI k).enumFrom filledI := by
  induction k generalizing oI filledI with
  | zero => rfl
  | succ k ih => simp [foreachNoMoreHoles, List.range'_succ, ih]

theorem foreachHoles_eq (k : Nat) : ∀ (oI filledI : Nat) (holes : List Nat),
    holes.Pairwise (fun a b => a < b) → (∀ h ∈ holes, oI ≤ h) →
    foreachHoles k oI filledI holes
      = ((List.range' oI k).filter (fun i => decide (i ∉ holes))).enumFrom filledI := by
  induction k with
  | zero =>
    intro oI filledI holes _ _
    cases holes <;> simp [foreachHoles, foreachNoMoreHoles]
  | succ k ih =>
    intro oI filledI holes hs hlow
    cases holes with
    | nil => simp [foreachHoles, foreachNoMoreHoles_eq]
    | cons h hs' =>
      have hs2 := List.pairwise_cons.mp hs
      by_cases hh : h = oI
      · subst hh
        have hrec := ih (h + 1) filledI hs' hs2.2 (fun x hx => hs2.1 x hx)
        simp only [foreachHoles, if_true, hrec, List.range'_succ]
        rw [List.filter_cons_of_neg (by simp)]
        congr 1
        apply List.filter_congr
        intro x hx
        have : h + 1 ≤ x := (List.mem_range'_1.mp hx).1
        have hne : x ≠ h := by omega
        simp [hne]
      · have hlt : oI < h := lt_of_le_of_ne (hlow h (List.mem_cons_self _ _)) (Ne.symm hh)
        have hrec := ih (oI + 1) (filledI + 1) (h :: hs') hs (by
          intro x hx
          rcases List.mem_cons.mp hx with rfl | hx
          · exact hlt
          · exact Nat.lt_of_lt_of_le hlt (Nat.le_of_lt (hs2.1 x hx)))
        have hnot : oI ∉ h :: hs' := by
          intro hmem
          have := hlow oI hmem
          rcases List.mem_cons.mp hmem with rfl | hx
          · exact hh rfl
          · have := hs2.1 oI hx; omega
        simp only [foreachHoles, if_neg hh, hrec, List.range'_succ]
        rw [List.filter_cons_of_pos (by simpa using hnot)]
        simp

theorem holeyArrayForeachImpl_eq {El : Type} (arr : HoleyArray El)
    (hs : arr.holeIs.Pairwise (fun a b => a < b)) :
    holeyArrayForeachImpl arr = (liveSlots arr).enum := by
  unfold holeyArrayForeachImpl liveSlots
  rw [foreachHoles_eq _ _ _ _ hs (fun _ _ => Nat.zero_le _), List.range_eq_range']
  rfl

/-! ## Lemmas: the hole list -/

theorem mem_liveSlots {El : Type} (arr : HoleyArray El) (i : Nat) :
    i ∈ liveSlots arr ↔ i < arr.capacity ∧ i ∉ arr.holeIs := by
  simp [liveSlots]

theorem liveSlots_pairwise {El : Type} (arr : HoleyArray El) :
    (liveSlots arr).Pairwise (fun a b => a < b) :=
  List.Pairwise.filter _ (List.pairwise_lt_range _)

theorem liveSlots_nodup {El : Type} (arr : HoleyArray El) : (liveSlots arr).Nodup :=
  List.Nodup.filter _ (List.nodup_range _)

theorem pairwise_lt_nodup {l : List Nat} (h : l.Pairwise (fun a b => a < b)) : l.Nodup :=
  h.imp (fun hab => Nat.ne_of_lt hab)

theorem filter_mem_length (cap : Nat) (holes : List Nat) (hnd : holes.Nodup)
    (hb : ∀ h ∈ holes, h < cap) :
    ((List.range cap).filter (fun i => decide (i ∈ holes))).length = holes.length := by
  apply List.Perm.length_eq
  rw [List.perm_ext_iff_of_nodup (List.Nodup.filter _ (List.nodup_range _)) hnd]
  intro a
  simp only [List.mem_filter, List.mem_range, decide_eq_true_eq]
  exact ⟨fun h => h.2, fun h => ⟨hb a h, h⟩⟩

theorem liveSlots_length {El : Type} (arr : HoleyArray El) (hinv : arr.Inv) :
    (liveSlots arr).length = size arr := by
  have h1 := List.length_eq_countP_add_countP (p := fun i => decide (i ∈ arr.holeIs))
    (List.range arr.capacity)
  have h2 := filter_mem_length arr.capacity arr.holeIs (pairwise_lt_nodup hinv.sorted) hinv.bound
  rw [List.countP_eq_length_filter, List.countP_eq_length_filter, h2, List.length_range] at h1
  unfold liveSlots size
  have h3 : (List.filter (fun i => decide (i ∉ arr.holeIs)) (List.range arr.capacity))
      = (List.filter (fun a => decide ¬(decide (a ∈ arr.holeIs)) = true) (List.range arr.capacity)) := by
    apply List.filter_congr
    intro x _
    simp
  rw [h3]
  omega

theorem countP_isSome_eq {El : Type} (holes : List Nat) :
    ∀ (l : List (Option El)) (off : Nat),
      (∀ i, i < l.length → (l[i]?.join = none ↔ off + i ∈ holes)) →
      l.countP (fun e => e.isSome)
        = ((List.range' off l.length).filter (fun i => decide (i ∉ holes))).length := by
  intro l
  induction l with
  | nil => intro off _; simp
  | cons a t ih =>
    intro off h
    have h0 := h 0 (by simp)
    have ht := ih (off + 1) (fun i hi => by
      have := h (i + 1) (by simpa using hi)
      simpa [Nat.add_assoc, Nat.add_comm 1 i] using this)
    simp only [List.length_cons, List.range'_succ, List.countP_cons, ht]
    simp only [List.getElem?_cons_zero, Option.join, Nat.add_zero] at h0
    cases a with
    | none =>
      have hmem : off ∈ holes := h0.mp rfl
      simp [List.filter_cons, hmem]
    | some v =>
      have hmem : off ∉ holes := fun hm => by
        have := h0.mpr hm
        simp at this
      simp [List.filter_cons, hmem]

theorem liveCount_eq_size {El : Type} (arr : HoleyArray El) (hinv : arr.Inv) :
    liveCount arr = size arr := by
  have h := countP_isSome_eq arr.holeIs arr.mem 0 (fun i hi => by
    have := hinv.live i (by rw [← hinv.memLength]; exact hi)
    simpa [HoleyArray.index] using this)
  rw [← liveSlots_length arr hinv]
  unfold liveCount liveSlots
  rw [h, hinv.memLength, List.range_eq_range']

/-! ## Lemmas: construction, destroy and emplace keep the invariant -/

theorem index_eq_none_of_le {El : Type} (arr : HoleyArray El) (i : Nat)
    (h : arr.mem.length ≤ i) : arr.index i = none := by
  simp [HoleyArray.index, List.getElem?_eq_none h]

theorem construct_inv {El : Type} (c : Nat) : (HoleyArray.construct c : HoleyArray El).Inv where
  sorted := List.pairwise_lt_range c
  bound := fun h hh => List.mem_range.mp hh
  memLength := by simp [HoleyArray.construct]
  live := fun i hi => by
    have hi2 : i < c := hi
    simp [HoleyArray.construct, HoleyArray.index, List.getElem?_replicate, hi2]

theorem vectorInsert_lowerBound_nil (i : Nat) : vectorInsert [] (lowerBound [] i) i = [i] := rfl

theorem vectorInsert_lowerBound_cons (x : Nat) (v : List Nat) (i : Nat) :
    vectorInsert (x :: v) (lowerBound (x :: v) i) i
      = if x < i then x :: vectorInsert v (lowerBound v i) i else i :: x :: v := by
  by_cases h : x < i
  · simp [vectorInsert, lowerBound, List.takeWhile_cons, h]
  · simp [vectorInsert, lowerBound, List.takeWhile_cons, h]

theorem mem_vectorInsert_lowerBound (v : List Nat) (i x : Nat) :
    x ∈ vectorInsert v (lowerBound v i) i ↔ x = i ∨ x ∈ v := by
  induction v with
  | nil => simp [vectorInsert_lowerBound_nil]
  | cons y v ih =>
    rw [vectorInsert_lowerBound_cons]
    split
    · simp only [List.mem_cons, ih]; tauto
    · simp

theorem length_vectorInsert (v : List Nat) (pos i : Nat) :
    (vectorInsert v pos i).length = v.length + 1 := by
  simp only [vectorInsert, List.length_append, List.length_cons, List.length_take,
    List.length_drop]
  omega

theorem pairwise_vectorInsert_lowerBound (v : List Nat) (i : Nat)
    (hs : v.Pairwise (fun a b => a < b)) (hi : i ∉ v) :
    (vectorInsert v (lowerBound v i) i).Pairwise (fun a b => a < b) := by
  induction v with
  | nil => simp [vectorInsert_lowerBound_nil]
  | cons y v ih =>
    have hs2 := List.pairwise_cons.mp hs
    have hne : i ≠ y := fun h => hi (h ▸ List.mem_cons_self _ _)
    have hi2 : i ∉ v := fun h => hi (List.mem_cons_of_mem _ h)
    rw [vectorInsert_lowerBound_cons]
    split
    · rename_i hlt
      refine List.pairwise_cons.mpr ⟨?_, ih hs2.2 hi2⟩
      intro a ha
      rcases (mem_vectorInsert_lowerBound v i a).mp ha with rfl | ha
      · exact hlt
      · exact hs2.1 a ha
    · rename_i hnlt
      have hlt : i < y := by omega
      refine List.pairwise_cons.mpr ⟨?_, hs⟩
      intro a ha
      rcases List.mem_cons.mp ha with rfl | ha
      · exact hlt
      · exact Nat.lt_trans hlt (hs2.1 a ha)

theorem index_set {El : Type} (arr : HoleyArray El) (mem' : List (Option El)) (i j : Nat)
    (e : Option El) (hmem : mem' = arr.mem.set i e) (hi : i < arr.mem.length) :
    (mem'[j]?).join = if i = j then e else arr.index j := by
  subst hmem
  by_cases h : i = j
  · subst h; simp [List.getElem?_set, hi]
  · simp [List.getElem?_set, h, HoleyArray.index]

theorem destroy_index {El : Type} (arr : HoleyArray El) (i j : Nat) (hi : i < arr.mem.length) :
    (destroy arr i).index j = if i = j then none else arr.index j := by
  unfold HoleyArray.index destroy
  exact index_set arr _ i j none rfl hi

theorem destroy_inv {El : Type} (arr : HoleyArray El) (i : Nat) (hinv : arr.Inv)
    (hi : i < arr.capacity) (hlive : i ∉ arr.holeIs) : (destroy arr i).Inv where
  sorted := pairwise_vectorInsert_lowerBound _ _ hinv.sorted hlive
  bound := fun h hh => by
    rcases (mem_vectorInsert_lowerBound _ _ _).mp hh with rfl | hh
    · exact hi
    · exact hinv.bound h hh
  memLength := by simp [destroy, hinv.memLength]
  live := fun j hj => by
    have hj2 : j < arr.capacity := hj
    rw [destroy_index arr i j (by rw [hinv.memLength]; exact hi)]
    show _ ↔ j ∈ vectorInsert arr.holeIs (lowerBound arr.holeIs i) i
    rw [mem_vectorInsert_lowerBound]
    by_cases h : i = j
    · subst h; simp
    · simp only [if_neg h, hinv.live j hj2]
      constructor
      · exact fun hm => Or.inr hm
      · rintro (rfl | hm)
        · exact absurd rfl h
        · exact hm

theorem destroy_capacity {El : Type} (arr : HoleyArray El) (i : Nat) :
    (destroy arr i).capacity = arr.capacity := rfl

theorem mem_liveSlots_destroy {El : Type} (arr : HoleyArray El) (i j : Nat) :
    j ∈ liveSlots (destroy arr i) ↔ j ∈ liveSlots arr ∧ j ≠ i := by
  rw [mem_liveSlots, mem_liveSlots]
  show j < arr.capacity ∧ j ∉ vectorInsert arr.holeIs (lowerBound arr.holeIs i) i ↔ _
  rw [mem_vectorInsert_lowerBound]
  tauto

theorem growth_le (c : Nat) : c ≤ growthMultiplierNum * c / growthMultiplierDen := by
  unfold growthMultiplierNum growthMultiplierDen
  omega

theorem growth_lt (c : Nat) (hc : 2 ≤ c) : c < growthMultiplierNum * c / growthMultiplierDen := by
  unfold growthMultiplierNum growthMultiplierDen
  omega

theorem emplaceGrow_index {El : Type} (arr : HoleyArray El) (hinv : arr.Inv) (i : Nat) :
    (emplaceGrow arr).index i = arr.index i := by
  unfold emplaceGrow
  split
  · simp only [HoleyArray.index, growArray]
    rw [List.take_of_length_le (by rw [hinv.memLength])]
    by_cases hi : i < arr.mem.length
    · rw [List.getElem?_append_left hi]
    · have hi2 : arr.mem.length ≤ i := by omega
      rw [List.getElem?_append_right hi2, List.getElem?_eq_none hi2, List.getElem?_replicate]
      split <;> rfl
  · rfl

theorem emplaceGrow_capacity_le {El : Type} (arr : HoleyArray El) :
    arr.capacity ≤ (emplaceGrow arr).capacity := by
  unfold emplaceGrow
  split
  · exact growth_le _
  · exact Nat.le_refl _

theorem emplaceGrow_of_nil {El : Type} (arr : HoleyArray El) (hnil : arr.holeIs = []) :
    emplaceGrow arr =
      { mem := arr.mem.take arr.capacity ++ List.replicate
          (growthMultiplierNum * arr.capacity / growthMultiplierDen - arr.capacity) none
        capacity := growthMultiplierNum * arr.capacity / growthMultiplierDen
        holeIs := List.range' arr.capacity
          (growthMultiplierNum * arr.capacity / growthMultiplierDen - arr.capacity) } := by
  simp [emplaceGrow, hnil, growArray]

theorem emplaceGrow_of_ne_nil {El : Type} (arr : HoleyArray El) (hne : arr.holeIs ≠ []) :
    emplaceGrow arr = arr := by
  simp [emplaceGrow, hne]

theorem emplaceGrow_inv {El : Type} (arr : HoleyArray El) (hinv : arr.Inv) :
    (emplaceGrow arr).Inv := by
  by_cases hnil : arr.holeIs = []
  · have hle := growth_le arr.capacity
    have hidx := emplaceGrow_index arr hinv
    rw [emplaceGrow_of_nil arr hnil] at hidx ⊢
    refine ⟨?_, ?_, ?_, ?_⟩
    · exact List.pairwise_lt_range' _ _
    · intro h hh
      have := (List.mem_range'_1.mp hh).2
      show h < growthMultiplierNum * arr.capacity / growthMultiplierDen
      omega
    · simp only [List.length_append, List.length_take, List.length_replicate, hinv.memLength]
      omega
    · intro i hi
      have hi2 : i < growthMultiplierNum * arr.capacity / growthMultiplierDen := hi
      rw [hidx i]
      show _ ↔ i ∈ List.range' arr.capacity _
      rw [List.mem_range'_1]
      by_cases hic : i < arr.capacity
      · have := hinv.live i hic
        rw [hnil] at this
        simp only [List.not_mem_nil, iff_false] at this
        constructor
        · intro h; exact absurd h this
        · intro h; omega
      · constructor
        · intro _; omega
        · intro _; exact index_eq_none_of_le arr i (by rw [hinv.memLength]; omega)
  · rw [emplaceGrow_of_ne_nil arr hnil]
    exact hinv

theorem emplaceGrow_holeIs_ne_nil {El : Type} (arr : HoleyArray El)
    (h : arr.holeIs ≠ [] ∨ 2 ≤ arr.capacity) : (emplaceGrow arr).holeIs ≠ [] := by
  by_cases hnil : arr.holeIs = []
  · rcases h with h | h
    · exact absurd hnil h
    · have hlt := growth_lt arr.capacity h
      rw [emplaceGrow_of_nil arr hnil]
      intro hr
      have := congrArg List.length hr
      simp only [List.length_range', List.length_nil] at this
      omega
  · rw [emplaceGrow_of_ne_nil arr hnil]
    exact hnil

theorem mem_liveSlots_emplaceGrow {El : Type} (arr : HoleyArray El) (hinv : arr.Inv) (i : Nat) :
    i ∈ liveSlots (emplaceGrow arr) ↔ i ∈ liveSlots arr := by
  have hg := emplaceGrow_inv arr hinv
  rw [mem_liveSlots, mem_liveSlots]
  constructor
  · rintro ⟨h1, h2⟩
    have hne : (emplaceGrow arr).index i ≠ none := fun h => h2 ((hg.live i h1).mp h)
    rw [emplaceGrow_index arr hinv] at hne
    have hlt : i < arr.capacity := by
      by_contra hc
      exact hne (index_eq_none_of_le arr i (by rw [hinv.memLength]; omega))
    exact ⟨hlt, fun hm => hne ((hinv.live i hlt).mpr hm)⟩
  · rintro ⟨h1, h2⟩
    have h1g : i < (emplaceGrow arr).capacity :=
      Nat.lt_of_lt_of_le h1 (emplaceGrow_capacity_le arr)
    refine ⟨h1g, fun hm => ?_⟩
    have := (hg.live i h1g).mpr hm
    rw [emplaceGrow_index arr hinv] at this
    exact h2 ((hinv.live i h1).mp this)

theorem emplace_spec {El : Type} (arr : HoleyArray El) (create : Nat → El) (hinv : arr.Inv)
    (h : arr.holeIs ≠ [] ∨ 2 ≤ arr.capacity) :
    ∃ holeI arr', emplace arr create = some (holeI, arr') ∧ EmplaceSpec arr create holeI arr' := by
  have hg := emplaceGrow_inv arr hinv
  have hne := emplaceGrow_holeIs_ne_nil arr h
  obtain ⟨holeI, hlast⟩ : ∃ holeI, (emplaceGrow arr).holeIs.getLast? = some holeI := by
    cases hl : (emplaceGrow arr).holeIs.getLast? with
    | none => exact absurd (List.getLast?_eq_none_iff.mp hl) hne
    | some x => exact ⟨x, rfl⟩
  have hsplit : (emplaceGrow arr).holeIs.dropLast ++ [holeI] = (emplaceGrow arr).holeIs :=
    List.dropLast_append_getLast? holeI (by simp [hlast])
  have hmemH : holeI ∈ (emplaceGrow arr).holeIs := by rw [← hsplit]; simp
  have hnd : ((emplaceGrow arr).holeIs.dropLast ++ [holeI]).Nodup := by
    rw [hsplit]; exact pairwise_lt_nodup hg.sorted
  have hnotin : holeI ∉ (emplaceGrow arr).holeIs.dropLast := by
    intro hm
    have := (List.nodup_append.mp hnd).2.2
    exact this hm (List.mem_singleton_self _) 
  have hHcap : holeI < (emplaceGrow arr).capacity := hg.bound holeI hmemH
  have hHlen : holeI < (emplaceGrow arr).mem.length := by rw [hg.memLength]; exact hHcap
  have hmemdrop : ∀ i, i ≠ holeI →
      (i ∈ (emplaceGrow arr).holeIs.dropLast ↔ i ∈ (emplaceGrow arr).holeIs) := by
    intro i hi
    constructor
    · exact fun hm => (List.dropLast_sublist _).subset hm
    · intro hm
      rw [← hsplit] at hm
      rcases List.mem_append.mp hm with hm | hm
      · exact hm
      · exact absurd (List.mem_singleton.mp hm) hi
  have hidx : ∀ j, (({ emplaceGrow arr with
        mem := (emplaceGrow arr).mem.set holeI (some (create holeI))
        holeIs := (emplaceGrow arr).holeIs.dropLast } : HoleyArray El).index j)
      = if holeI = j then some (create holeI) else arr.index j := by
    intro j
    have := index_set (emplaceGrow arr) ((emplaceGrow arr).mem.set holeI (some (create holeI)))
      holeI j (some (create holeI)) rfl hHlen
    rw [emplaceGrow_index arr hinv] at this
    exact this
  refine ⟨holeI, { emplaceGrow arr with
        mem := (emplaceGrow arr).mem.set holeI (some (create holeI))
        holeIs := (emplaceGrow arr).holeIs.dropLast }, ?_, ?_⟩
  · simp only [emplace, hlast]
  have hnotLive : holeI ∉ liveSlots arr := by
    rw [← mem_liveSlots_emplaceGrow arr hinv, mem_liveSlots]
    exact fun hh => hh.2 hmemH
  have hslots : ∀ i, i ∈ liveSlots ({ emplaceGrow arr with
        mem := (emplaceGrow arr).mem.set holeI (some (create holeI))
        holeIs := (emplaceGrow arr).holeIs.dropLast } : HoleyArray El)
      ↔ i = holeI ∨ i ∈ liveSlots arr := by
    intro i
    rw [← mem_liveSlots_emplaceGrow arr hinv, mem_liveSlots, mem_liveSlots]
    show i < (emplaceGrow arr).capacity ∧ i ∉ (emplaceGrow arr).holeIs.dropLast ↔ _
    by_cases hi : i = holeI
    · subst hi
      simp [hHcap, hnotin]
    · rw [hmemdrop i hi]
      simp [hi]
  refine ⟨⟨?_, ?_, ?_, ?_⟩, hnotLive, (hslots holeI).mpr (Or.inl rfl), ?_, ?_, hslots,
    emplaceGrow_capacity_le arr, hsplit.symm, rfl⟩
  · exact List.Pairwise.sublist (List.dropLast_sublist _) hg.sorted
  · exact fun x hx => hg.bound x ((List.dropLast_sublist _).subset hx)
  · simp [hg.memLength]
  · intro i hi
    rw [hidx i]
    show _ ↔ i ∈ (emplaceGrow arr).holeIs.dropLast
    by_cases hj : holeI = i
    · subst hj
      simp [hnotin]
    · rw [if_neg hj, hmemdrop i (Ne.symm hj), ← emplaceGrow_index arr hinv]
      exact hg.live i hi
  · rw [hidx holeI]; simp
  · intro i hi
    rw [hidx i, if_neg (Ne.symm hi)]

theorem index_ne_none_of_mem_liveSlots {El : Type} (arr : HoleyArray El) (hinv : arr.Inv)
    (i : Nat) (hi : i ∈ liveSlots arr) : ∃ v, arr.index i = some v := by
  have h := (mem_liveSlots arr i).mp hi
  cases hv : arr.index i with
  | none => exact absurd ((hinv.live i h.1).mp hv) h.2
  | some v => exact ⟨v, rfl⟩

theorem mem_liveSlots_of_index {El : Type} (arr : HoleyArray El) (hinv : arr.Inv)
    (i : Nat) (v : El) (hv : arr.index i = some v) : i ∈ liveSlots arr := by
  have hlt : i < arr.capacity := by
    by_contra hc
    rw [index_eq_none_of_le arr i (by rw [hinv.memLength]; omega)] at hv
    exact Option.noConfusion hv
  refine (mem_liveSlots arr i).mpr ⟨hlt, fun hm => ?_⟩
  rw [(hinv.live i hlt).mpr hm] at hv
  exact Option.noConfusion hv

theorem applyOps_inv {El : Type} (ops : List (HoleyOp El)) :
    ∀ (arr : HoleyArray El), arr.Inv → 2 ≤ arr.capacity → destroysLive arr ops = true →
      ∃ arr', applyOps arr ops = some arr' ∧ arr'.Inv ∧ 2 ≤ arr'.capacity := by
  induction ops with
  | nil => intro arr hinv hc _; exact ⟨arr, rfl, hinv, hc⟩
  | cons op ops ih =>
    intro arr hinv hc hl
    cases op with
    | emplace create =>
      obtain ⟨holeI, arr1, he, hs⟩ := emplace_spec arr create hinv (Or.inr hc)
      simp only [destroysLive, he] at hl
      obtain ⟨arr', h1, h2, h3⟩ := ih arr1 hs.inv (Nat.le_trans hc hs.capacity) hl
      exact ⟨arr', by simp only [applyOps, he, h1], h2, h3⟩
    | destroy i =>
      simp only [destroysLive, Bool.and_eq_true, decide_eq_true_eq] at hl
      have hi := (mem_liveSlots arr i).mp hl.1
      obtain ⟨arr', h1, h2, h3⟩ := ih (destroy arr i) (destroy_inv arr i hinv hi.1 hi.2) hc hl.2
      exact ⟨arr', by simp only [applyOps, h1], h2, h3⟩

/-- C9. A `HoleyArray` constructed with initial capacity `c >= 2` and then
subjected to any finite sequence of `emplace` and `destroy`-of-a-live-slot
operations is left in a state (`emplace` is never undefined on the way) in
which `holeIs` is strictly ascending, every entry of it is below `capacity`,
no slot holding an object occurs in it, and `size() = capacity - |holeIs|` is
the number of slots holding an object. -/
theorem holeyArray_invariant {El : Type} (c : Nat) (hc : 2 ≤ c) (ops : List (HoleyOp El))
    (hlive : destroysLive (HoleyArray.construct c : HoleyArray El) ops = true) :
    ∃ arr, applyOps (HoleyArray.construct c) ops = some arr ∧
      arr.holeIs.Pairwise (fun a b => a < b) ∧
      (∀ h ∈ arr.holeIs, h < arr.capacity) ∧
      (∀ i v, arr.index i = some v → i ∉ arr.holeIs) ∧
      size arr = arr.capacity - arr.holeIs.length ∧
      size arr = liveCount arr := by
  obtain ⟨arr, h1, h2, _⟩ := applyOps_inv ops (HoleyArray.construct c) (construct_inv c) hc hlive
  refine ⟨arr, h1, h2.sorted, h2.bound, ?_, rfl, (liveCount_eq_size arr h2).symm⟩
  intro i v hv
  exact ((mem_liveSlots arr i).mp (mem_liveSlots_of_index arr h2 i v hv)).2

/-- Witness for C9: capacity 2, three insertions (the third grows the storage
to capacity 3), the removal of slot 1 and one more insertion. -/
theorem holeyArray_invariant_witness :
    ∃ arr, applyOps (HoleyArray.construct 2 : HoleyArray Nat)
        [.emplace (fun i => i + 10), .emplace (fun i => i + 10), .emplace (fun i => i + 10),
          .destroy 1, .emplace (fun i => i + 20)] = some arr ∧
      arr.holeIs.Pairwise (fun a b => a < b) ∧
      (∀ h ∈ arr.holeIs, h < arr.capacity) ∧
      (∀ i v, arr.index i = some v → i ∉ arr.holeIs) ∧
      size arr = arr.capacity - arr.holeIs.length ∧
      size arr = liveCount arr :=
  holeyArray_invariant 2 (by decide) _ (by decide)

theorem applyOps_keeps_slot {El : Type} (i : Nat) (v : El) (ops : List (HoleyOp El)) :
    ∀ (arr : HoleyArray El), arr.Inv → 2 ≤ arr.capacity → arr.index i = some v →
      destroysLive arr ops = true →
      ops.all (fun op => !op.isDestroyOf i) = true →
      ∃ arr', applyOps arr ops = some arr' ∧ arr'.index i = some v ∧ i ∈ liveSlots arr' := by
  induction ops with
  | nil =>
    intro arr hinv _ hv _ _
    exact ⟨arr, rfl, hv, mem_liveSlots_of_index arr hinv i v hv⟩
  | cons op ops ih =>
    intro arr hinv hc hv hl hno
    rw [List.all_cons, Bool.and_eq_true] at hno
    cases op with
    | emplace create =>
      obtain ⟨holeI, arr1, he, hs⟩ := emplace_spec arr create hinv (Or.inr hc)
      simp only [destroysLive, he] at hl
      have hne : i ≠ holeI := fun h =>
        hs.notLive (h ▸ mem_liveSlots_of_index arr hinv i v hv)
      obtain ⟨arr', h1, h2⟩ := ih arr1 hs.inv (Nat.le_trans hc hs.capacity)
        (by rw [hs.frame i hne]; exact hv) hl hno.2
      exact ⟨arr', by simp only [applyOps, he, h1], h2⟩
    | destroy j =>
      simp only [destroysLive, Bool.and_eq_true, decide_eq_true_eq] at hl
      have hj := (mem_liveSlots arr j).mp hl.1
      have hji : j ≠ i := by
        have := hno.1
        simpa [HoleyOp.isDestroyOf] using this
      obtain ⟨arr', h1, h2⟩ := ih (destroy arr j) (destroy_inv arr j hinv hj.1 hj.2) hc
        (by rw [destroy_index arr j i (by rw [hinv.memLength]; exact hj.1), if_neg hji]
            exact hv) hl.2 hno.2
      exact ⟨arr', by simp only [applyOps, h1], h2⟩

/-- C10. In a `HoleyArray` satisfying its invariant, a live slot `i` holding
`v` is untouched by `emplace` and by `destroy` of another live slot: whenever
`emplace` returns (it does whenever a hole exists or the capacity is at least
2, growth included) the new element went to a slot other than `i`, slot `i` is
still live and `operator[](i)` still yields `v`; the same holds after
`destroy(j)` for a live `j != i`.  Hence, in a table of capacity at least 2,
slot `i` stays live with value `v` through every sequence of `emplace` and
`destroy`-of-a-live-slot operations that does not destroy `i` itself. -/
theorem holeyArray_slot_stable {El : Type} (arr : HoleyArray El) (hinv : arr.Inv)
    (i : Nat) (v : El) (hv : arr.index i = some v) :
    (∀ create holeI arr', emplace arr create = some (holeI, arr') →
        holeI ≠ i ∧ arr'.index i = some v ∧ i ∈ liveSlots arr' ∧ i ∉ arr'.holeIs) ∧
    (arr.holeIs ≠ [] ∨ 2 ≤ arr.capacity → ∀ create, (emplace arr create).isSome = true) ∧
    (∀ j, j ≠ i → j ∈ liveSlots arr →
        (destroy arr j).index i = some v ∧ i ∈ liveSlots (destroy arr j) ∧
          i ∉ (destroy arr j).holeIs) ∧
    (2 ≤ arr.capacity → ∀ ops : List (HoleyOp El), destroysLive arr ops = true →
        ops.all (fun op => !op.isDestroyOf i) = true →
        ∃ arr', applyOps arr ops = some arr' ∧ arr'.index i = some v ∧ i ∈ liveSlots arr') := by
  have hil := mem_liveSlots_of_index arr hinv i v hv
  refine ⟨?_, ?_, ?_, ?_⟩
  · intro create holeI arr' he
    have hh : arr.holeIs ≠ [] ∨ 2 ≤ arr.capacity := by
      by_contra hc
      push_neg at hc
      have hnil := hc.1
      have hcap : arr.capacity < 2 := hc.2
      have hg := emplaceGrow_of_nil arr hnil
      have hz : growthMultiplierNum * arr.capacity / growthMultiplierDen - arr.capacity = 0 := by
        unfold growthMultiplierNum growthMultiplierDen
        omega
      rw [hz] at hg
      simp [emplace, hg] at he
    obtain ⟨holeI2, arr2, he2, hs⟩ := emplace_spec arr create hinv hh
    rw [he] at he2
    obtain ⟨rfl, rfl⟩ : holeI = holeI2 ∧ arr' = arr2 := by
      simpa using he2
    have hne : i ≠ holeI := fun h => hs.notLive (h ▸ hil)
    have hlive' := (hs.slots i).mpr (Or.inr hil)
    exact ⟨Ne.symm hne, by rw [hs.frame i hne]; exact hv, hlive',
      ((mem_liveSlots _ i).mp hlive').2⟩
  · intro hh create
    obtain ⟨holeI2, arr2, he2, _⟩ := emplace_spec arr create hinv hh
    simp [he2]
  · intro j hj hjl
    have hjc := (mem_liveSlots arr j).mp hjl
    have hlive' := (mem_liveSlots_destroy arr j i).mpr ⟨hil, Ne.symm hj⟩
    refine ⟨?_, hlive', ((mem_liveSlots _ i).mp hlive').2⟩
    rw [destroy_index arr j i (by rw [hinv.memLength]; exact hjc.1), if_neg hj]
    exact hv
  · intro hc ops hl hno
    exact applyOps_keeps_slot i v ops arr hinv hc hv hl hno

/-- Witness for C10: the full table of capacity 2 holding 10 and 11.  Slot 0
keeps its value 10 through a growing `emplace`, through `destroy` of slot 1,
and through the sequence emplace, destroy 1, emplace, destroy 2. -/
theorem holeyArray_slot_stable_witness :
    ({ mem := [some 10, some 11], capacity := 2, holeIs := [] } : HoleyArray Nat).Inv ∧
    ({ mem := [some 10, some 11], capacity := 2, holeIs := [] } : HoleyArray Nat).index 0
      = some 10 ∧
    (∃ holeI arr',
      emplace ({ mem := [some 10, some 11], capacity := 2, holeIs := [] } : HoleyArray Nat)
        (fun k => k + 20) = some (holeI, arr') ∧ holeI ≠ 0 ∧ arr'.index 0 = some 10) ∧
    (destroy ({ mem := [some 10, some 11], capacity := 2, holeIs := [] } : HoleyArray Nat)
      1).index 0 = some 10 ∧
    (∃ arr', applyOps ({ mem := [some 10, some 11], capacity := 2, holeIs := [] } : HoleyArray Nat)
        [.emplace (fun k => k + 20), .destroy 1, .emplace (fun k => k + 30), .destroy 2]
        = some arr' ∧ arr'.index 0 = some 10 ∧ 0 ∈ liveSlots arr') :=
  have h := holeyArray_slot_stable
    ({ mem := [some 10, some 11], capacity := 2, holeIs := [] } : HoleyArray Nat)
    ⟨by decide, by decide, by decide, by decide⟩ 0 10 (by decide)
  ⟨⟨by decide, by decide, by decide, by decide⟩, by decide,
    ⟨2, _, rfl, (h.1 (fun k => k + 20) 2 _ rfl).1, (h.1 (fun k => k + 20) 2 _ rfl).2.1⟩,
    (h.2.2.1 1 (by decide) (by decide)).1,
    h.2.2.2 (by decide) _ (by decide) (by decide)⟩

/-! ## Lemmas: buffers -/

theorem le32_length (v : Nat) : (le32 v).length = 4 := rfl

theorem leS32_length (v : Int) : (leS32 v).length = 4 := rfl

theorem positionBytes_length (pos : Position) : (positionBytes pos).length = 12 := by
  simp [positionBytes, leS32_length]

theorem le32_mod (v : Nat) : le32 (v % 4294967296) = le32 v := by
  simp only [le32]
  refine congrArg₂ _ (by omega) (congrArg₂ _ (by omega) (congrArg₂ _ (by omega)
    (congrArg₂ _ (by omega) rfl)))

theorem u32Sub_of_le (a b : Nat) (hb : b ≤ a) (ha : a < 4294967296) : u32Sub a b = a - b := by
  unfold u32Sub
  omega

theorem le32_u32Sub (a b : Nat) (hb : b ≤ a) : le32 (u32Sub a b) = le32 (a - b) := by
  rw [← le32_mod (a - b), ← le32_mod (u32Sub a b)]
  congr 1
  unfold u32Sub
  omega

theorem memcpyInspect_append (pre mid post src : List Nat) (h : mid.length = src.length) :
    memcpyInspect (pre ++ mid ++ post) pre.length src = pre ++ src ++ post := by
  have h1 : (pre ++ mid ++ post).take pre.length = pre := by
    rw [List.append_assoc, List.take_left]
  have h2 : (pre ++ mid ++ post).drop (pre.length + src.length) = post := by
    rw [← h, ← List.length_append]
    exact List.drop_left _ _
  unfold memcpyInspect
  rw [h1, h2]

theorem foldl_memcpyInspect_chunks (w base : Nat) :
    ∀ (chunks : List (List Nat)) (start : Nat) (pre mid post : List Nat),
      (∀ c ∈ chunks, c.length = w) → pre.length = base + w * start →
      mid.length = w * chunks.length →
      (chunks.enumFrom start).foldl (fun b c => memcpyInspect b (base + w * c.1) c.2)
          (pre ++ mid ++ post)
        = pre ++ chunks.flatten ++ post := by
  intro chunks
  induction chunks with
  | nil =>
    intro start pre mid post _ _ hmid
    have : mid = [] := List.length_eq_zero.mp (by simpa using hmid)
    simp [this]
  | cons c cs ih =>
    intro start pre mid post hw hpre hmid
    have hc : c.length = w := hw c (List.mem_cons_self _ _)
    have hmid2 : mid.length = w + w * cs.length := by
      rw [hmid, List.length_cons, Nat.mul_succ, Nat.add_comm]
    have hsplit : mid = mid.take w ++ mid.drop w := (List.take_append_drop w mid).symm
    have htake : (mid.take w).length = c.length := by
      rw [List.length_take, hc]; omega
    have hstep : memcpyInspect (pre ++ mid ++ post) (base + w * start) c
        = (pre ++ c) ++ mid.drop w ++ post := by
      rw [← hpre]
      conv_lhs => rw [hsplit]
      have := memcpyInspect_append pre (mid.take w) (mid.drop w ++ post) c htake
      simp only [List.append_assoc] at this ⊢
      exact this
    simp only [List.enumFrom_cons, List.foldl_cons, hstep]
    rw [ih (start + 1) (pre ++ c) (mid.drop w) post
      (fun x hx => hw x (List.mem_cons_of_mem _ hx))
      (by rw [List.length_append, hpre, hc, Nat.mul_succ]; omega)
      (by rw [List.length_drop, hmid2]; omega)]
    simp

theorem foldl_enumFrom_map {α β γ : Type} (g : α → β) (F : γ → Nat × β → γ) :
    ∀ (l : List α) (k : Nat) (init : γ),
      ((l.map g).enumFrom k).foldl F init
        = (l.enumFrom k).foldl (fun s c => F s (c.1, g c.2)) init := by
  intro l
  induction l with
  | nil => intro k init; rfl
  | cons a l ih => intro k init; simp [ih]

theorem foldl_range_getD {β : Type} (f : β → Nat → Nat → β) (l : List Nat) (init : β) :
    (List.range l.length).foldl (fun s i => f s i (l.getD i 0)) init
      = l.enum.foldl (fun s c => f s c.1 c.2) init := by
  induction l using List.reverseRecOn with
  | nil => rfl
  | append_singleton l a ih =>
    rw [List.length_append, List.length_singleton, List.range_succ, List.foldl_append,
      List.enum_append, List.foldl_append]
    have h1 : (List.range l.length).foldl (fun s i => f s i ((l ++ [a]).getD i 0)) init
        = (List.range l.length).foldl (fun s i => f s i (l.getD i 0)) init := by
      apply List.foldl_ext
      intro s i hi
      rw [List.getD_append _ _ _ _ (List.mem_range.mp hi)]
    rw [h1, ih]
    simp [List.getD_append_right]

theorem foldl_filter_append (n : Nat) : ∀ (l : List (Nat × Nat)) (init : List Nat),
    l.foldl (fun playerIs c => if c.2 = n then playerIs else playerIs ++ [c.2]) init
      = init ++ (l.map Prod.snd).filter (fun o => decide (o ≠ n)) := by
  intro l
  induction l with
  | nil => intro init; simp
  | cons c l ih =>
    intro init
    by_cases h : c.2 = n
    · simp [ih, h]
    · simp [ih, h]

theorem foreach_eq {El σ : Type} (arr : HoleyArray El) (hinv : arr.Inv)
    (f : Nat → Nat → Option El → σ → σ) (init : σ) :
    foreach arr f init
      = (liveSlots arr).enum.foldl (fun s c => f c.1 c.2 (arr.index c.2) s) init := by
  unfold foreach
  rw [holeyArrayForeachImpl_eq arr hinv.sorted]

/-! ## Lemmas: the server's membership messages -/

theorem serialise_eq (messageType v : Nat) : serialise messageType v = messageType :: le32 v := rfl

theorem foldl_append_singleton {α β : Type} (g : α → β) : ∀ (l : List α) (init : List β),
    l.foldl (fun acc c => acc ++ [g c]) init = init ++ l.map g := by
  intro l
  induction l with
  | nil => intro init; simp
  | cons a l ih => intro init; simp [ih]

theorem enum_map_snd {α : Type} (l : List α) : l.enum.map Prod.snd = l :=
  List.enumFrom_map_snd 0 l

theorem filter_ne_length (l : List Nat) (n : Nat) (hnd : l.Nodup) (hn : n ∈ l) :
    (l.filter (fun o => decide (o ≠ n))).length = l.length - 1 := by
  have h : l.filter (fun o => decide (o ≠ n)) = l.filter (fun o => o != n) := by
    apply List.filter_congr
    intro x _
    by_cases hx : x = n <;> simp [hx]
  rw [h, ← List.Nodup.erase_eq_filter hnd n, List.length_erase_of_mem hn]

theorem filter_eq_singleton (l : List Nat) (r : Nat) (hnd : l.Nodup) (hr : r ∈ l) :
    l.filter (fun x => decide (x = r)) = [r] := by
  induction l with
  | nil => exact absurd hr (List.not_mem_nil _)
  | cons a l ih =>
    have hnd2 := List.nodup_cons.mp hnd
    by_cases ha : a = r
    · subst ha
      rw [List.filter_cons_of_pos (by simp)]
      congr 1
      apply List.filter_eq_nil_iff.mpr
      intro x hx
      have : x ≠ a := fun h => hnd2.1 (h ▸ hx)
      simpa using this
    · rw [List.filter_cons_of_neg (by simpa using ha)]
      rcases List.mem_cons.mp hr with h | h
      · exact absurd h.symm ha
      · exact ih hnd2.2 h

theorem writesTo_map (l : List Nat) (g : Nat → List Nat) (r : Nat) :
    writesTo r (l.map (fun x => ({ recipient := x, bytes := g x } : Write)))
      = (l.filter (fun x => decide (x = r))).map g := by
  unfold writesTo
  induction l with
  | nil => rfl
  | cons a l ih =>
    by_cases ha : a = r
    · simp [List.filter_cons, ha] at ih ⊢
      exact ih
    · simp [List.filter_cons, ha] at ih ⊢
      exact ih

theorem writesTo_map_of_mem (l : List Nat) (g : Nat → List Nat) (r : Nat) (hnd : l.Nodup)
    (hr : r ∈ l) :
    writesTo r (l.map (fun x => ({ recipient := x, bytes := g x } : Write))) = [g r] := by
  rw [writesTo_map, filter_eq_singleton l r hnd hr]
  rfl

theorem writesTo_map_of_not_mem (l : List Nat) (g : Nat → List Nat) (r : Nat) (hr : r ∉ l) :
    writesTo r (l.map (fun x => ({ recipient := x, bytes := g x } : Write))) = [] := by
  rw [writesTo_map]
  have : l.filter (fun x => decide (x = r)) = [] := by
    apply List.filter_eq_nil_iff.mpr
    intro x hx
    have : x ≠ r := fun h => hr (h ▸ hx)
    simpa using this
  rw [this]
  rfl

theorem snapshot_bytes (playerC : Nat) (playerIs : List Nat) :
    ((List.range playerIs.length).foldl
        (fun mem i => memcpyInspect mem (1 + 4 + i * 4) (le32 (playerIs.getD i 0)))
        (memcpyInspect (memcpyInspect (List.replicate (1 + 4 + 4 * playerIs.length) 0) 0 [0]) 1
          (le32 playerC))).take (1 + 4 + 4 * playerIs.length)
      = 0 :: le32 playerC ++ playerIs.flatMap le32 := by
  have hrep : List.replicate (1 + 4 + 4 * playerIs.length) 0
      = ([] ++ [0] ++ (List.replicate 4 0 ++ List.replicate (4 * playerIs.length) 0)) := by
    rw [List.replicate_add, List.replicate_add]
    rfl
  have h1 : memcpyInspect (List.replicate (1 + 4 + 4 * playerIs.length) 0) 0 [0]
      = [0] ++ List.replicate 4 0 ++ List.replicate (4 * playerIs.length) 0 := by
    rw [hrep]
    have := memcpyInspect_append [] [0]
      (List.replicate 4 0 ++ List.replicate (4 * playerIs.length) 0) [0] rfl
    simpa using this
  have h2 : memcpyInspect ([0] ++ List.replicate 4 0 ++ List.replicate (4 * playerIs.length) 0) 1
      (le32 playerC) = ([0] ++ le32 playerC) ++ List.replicate (4 * playerIs.length) 0 ++ [] := by
    have := memcpyInspect_append [0] (List.replicate 4 0)
      (List.replicate (4 * playerIs.length) 0) (le32 playerC) rfl
    simpa using this
  rw [h1, h2, foldl_range_getD (fun mem i v => memcpyInspect mem (1 + 4 + i * 4) (le32 v))]
  have h3 : (playerIs.enum.foldl (fun s c => memcpyInspect s (1 + 4 + c.1 * 4) (le32 c.2))
        (([0] ++ le32 playerC) ++ List.replicate (4 * playerIs.length) 0 ++ []))
      = ([0] ++ le32 playerC) ++ (playerIs.map le32).flatten ++ [] := by
    rw [← foldl_memcpyInspect_chunks 4 5 (playerIs.map le32) 0 ([0] ++ le32 playerC)
      (List.replicate (4 * playerIs.length) 0) []
      (by intro c hc; obtain ⟨v, _, rfl⟩ := List.mem_map.mp hc; rfl)
      (by rfl) (by simp)]
    rw [foldl_enumFrom_map]
    apply List.foldl_ext
    intro s c _
    have : 1 + 4 + c.1 * 4 = 5 + 4 * c.1 := by omega
    rw [this]
  rw [List.enum] at h3 ⊢
  rw [h3, List.flatMap_def]
  have hlen : (([0] ++ le32 playerC) ++ (playerIs.map le32).flatten ++ []).length
      = 1 + 4 + 4 * playerIs.length := by
    have : ∀ l : List Nat, (l.map le32).flatten.length = 4 * l.length := by
      intro l
      induction l with
      | nil => rfl
      | cons a l ih => simp only [List.map_cons, List.flatten_cons, List.length_append, ih,
          le32_length, List.length_cons]; omega
    simp only [List.length_append, List.length_singleton, le32_length, this, List.length_nil,
      Nat.add_zero]
  rw [← hlen, List.take_length]
  simp

theorem size_pos_of_mem {El : Type} (arr : HoleyArray El) (hinv : arr.Inv) (i : Nat)
    (hi : i ∈ liveSlots arr) : 1 ≤ size arr := by
  rw [← liveSlots_length arr hinv]
  exact List.length_pos_of_mem hi

theorem map_enum_snd {β : Type} (g : Nat → β) (l : List Nat) :
    l.enum.map (fun c => g c.2) = l.map g := by
  have h := congrArg (List.map g) (enum_map_snd l)
  rw [List.map_map] at h
  exact h

theorem handleNewConnection_of_emplace (players players1 : HoleyArray Player) (holeI : Nat)
    (readPlayerI : Nat → Nat)
    (he : emplace players (fun _ => Player.construct) = some (holeI, players1))
    (hinv : players1.Inv) (hlive : holeI ∈ liveSlots players1) :
    handleNewConnection players readPlayerI = some (players1, holeI,
      { recipient := holeI
        bytes := 0 :: le32 (size players1 - 1) ++
          ((liveSlots players1).filter (fun o => decide (o ≠ readPlayerI holeI))).flatMap le32 } ::
      ((liveSlots players1).filter (fun o => decide (o ≠ readPlayerI holeI))).map (fun r =>
        ({ recipient := r
           bytes := 1 :: le32 (u32Sub (readPlayerI holeI)
             (boolToNat (decide (r ≤ readPlayerI holeI)))) } : Write))) := by
  have hsize : 1 ≤ size players1 := size_pos_of_mem players1 hinv holeI hlive
  have hIs : foreach players1
      (fun _ oI _ (playerIs : List Nat) =>
        if oI = readPlayerI holeI then playerIs else playerIs ++ [oI]) []
      = (liveSlots players1).filter (fun o => decide (o ≠ readPlayerI holeI)) := by
    rw [foreach_eq players1 hinv, foldl_filter_append (readPlayerI holeI), enum_map_snd]
    rfl
  simp only [handleNewConnection, he, hIs, snapshot_bytes, le32_u32Sub _ _ hsize, serialise_eq]

theorem handleNewConnection_spec (players : HoleyArray Player) (hinv : players.Inv)
    (hfree : players.holeIs ≠ [] ∨ 2 ≤ players.capacity) :
    ∃ newPlayerI players1,
      EmplaceSpec players (fun _ => Player.construct) newPlayerI players1 ∧
      handleNewConnection players id = some (players1, newPlayerI,
        { recipient := newPlayerI
          bytes := 0 :: le32 (size players1 - 1) ++
            ((liveSlots players1).filter (fun o => decide (o ≠ newPlayerI))).flatMap le32 } ::
        ((liveSlots players1).filter (fun o => decide (o ≠ newPlayerI))).map (fun r =>
          ({ recipient := r
             bytes := 1 :: le32 (newPlayerI - boolToNat (decide (r ≤ newPlayerI))) } : Write))) := by
  obtain ⟨n, players1, he, hs⟩ := emplace_spec players (fun _ => Player.construct) hinv hfree
  refine ⟨n, players1, hs, ?_⟩
  rw [handleNewConnection_of_emplace players players1 n id he hs.inv hs.isLive]
  simp only [id]
  congr 4
  apply List.map_congr_left
  intro r hr
  have hrn : r ≠ n := by simpa using (List.mem_filter.mp hr).2
  have hb : boolToNat (decide (r ≤ n)) ≤ n := by
    unfold boolToNat
    by_cases hle : r ≤ n
    · have : 1 ≤ n := by omega
      simpa [hle] using this
    · simp [hle]
  rw [le32_u32Sub _ _ hb]

/-- The first connection to the server's table: the new player gets slot 4. -/
theorem handleNewConnection_first (readPlayerI : Nat → Nat) :
    handleNewConnection MutexedPlayers.initial readPlayerI
      = some ({ mem := [none, none, none, none, some Player.construct]
                capacity := 5
                holeIs := [0, 1, 2, 3] }, 4,
          { recipient := 4
            bytes := 0 :: le32 0 ++
              ([4].filter (fun o => decide (o ≠ readPlayerI 4))).flatMap le32 } ::
          ([4].filter (fun o => decide (o ≠ readPlayerI 4))).map (fun r =>
            ({ recipient := r
               bytes := 1 :: le32 (u32Sub (readPlayerI 4)
                 (boolToNat (decide (r ≤ readPlayerI 4)))) } : Write))) :=
  handleNewConnection_of_emplace MutexedPlayers.initial _ 4 readPlayerI rfl
    ⟨by decide, by decide, by decide, by decide⟩ (by decide)

/-- The second connection: the new player gets slot 3. -/
theorem handleNewConnection_second (readPlayerI : Nat → Nat) :
    handleNewConnection
        ({ mem := [none, none, none, none, some Player.construct]
           capacity := 5
           holeIs := [0, 1, 2, 3] } : HoleyArray Player) readPlayerI
      = some ({ mem := [none, none, none, some Player.construct, some Player.construct]
                capacity := 5
                holeIs := [0, 1, 2] }, 3,
          { recipient := 3
            bytes := 0 :: le32 1 ++
              ([3, 4].filter (fun o => decide (o ≠ readPlayerI 3))).flatMap le32 } ::
          ([3, 4].filter (fun o => decide (o ≠ readPlayerI 3))).map (fun r =>
            ({ recipient := r
               bytes := 1 :: le32 (u32Sub (readPlayerI 3)
                 (boolToNat (decide (r ≤ readPlayerI 3)))) } : Write))) :=
  handleNewConnection_of_emplace _ _ 3 readPlayerI rfl
    ⟨by decide, by decide, by decide, by decide⟩ (by decide)

theorem le32_injOn (a b : Nat) (ha : a < 4294967296) (hb : b < 4294967296)
    (h : le32 a = le32 b) : a = b := by
  unfold le32 at h
  injection h with h0 h
  injection h with h1 h
  injection h with h2 h
  injection h with h3 _
  omega

theorem handleClientDisconnected_spec (players : HoleyArray Player) (hinv : players.Inv)
    (playerI : Nat) (hlive : playerI ∈ liveSlots players) :
    (destroy players playerI).Inv ∧
    handleClientDisconnected players playerI = (destroy players playerI,
      (liveSlots (destroy players playerI)).map (fun r =>
        ({ recipient := r
           bytes := 2 :: le32 (playerI - boolToNat (decide (r ≤ playerI))) } : Write))) := by
  have hl := (mem_liveSlots players playerI).mp hlive
  have hinv1 := destroy_inv players playerI hinv hl.1 hl.2
  refine ⟨hinv1, ?_⟩
  simp only [handleClientDisconnected, foreach_eq _ hinv1]
  rw [foldl_append_singleton (fun c : Nat × Nat =>
    (⟨c.2, serialise 2 (u32Sub playerI (boolToNat (decide (c.2 ≤ playerI))))⟩ : Write))]
  simp only [List.nil_append, serialise_eq]
  congr 1
  rw [map_enum_snd (fun r =>
    (⟨r, 2 :: le32 (u32Sub playerI (boolToNat (decide (r ≤ playerI))))⟩ : Write))]
  apply List.map_congr_left
  intro r hr
  have hrn : r ≠ playerI := ((mem_liveSlots_destroy players playerI r).mp hr).2
  have hb : boolToNat (decide (r ≤ playerI)) ≤ playerI := by
    unfold boolToNat
    by_cases hle : r ≤ playerI
    · have : 1 ≤ playerI := by omega
      simpa [hle] using this
    · simp [hle]
  rw [le32_u32Sub _ _ hb]

theorem boolToNat_le_of_ne (r n : Nat) (h : r ≠ n) :
    boolToNat (decide (r ≤ n)) = boolToNat (decide (r < n)) ∧
    boolToNat (decide (r ≤ n)) ≤ n ∧
    (n < 4294967296 → u32Sub n (boolToNat (decide (r ≤ n))) = n - boolToNat (decide (r < n))) := by
  have h1 : boolToNat (decide (r ≤ n)) = boolToNat (decide (r < n)) := by
    unfold boolToNat
    by_cases hle : r ≤ n
    · have hlt : r < n := by omega
      simp [hle, hlt]
    · have hlt : ¬ r < n := by omega
      simp [hle, hlt]
  have h2 : boolToNat (decide (r ≤ n)) ≤ n := by
    unfold boolToNat
    by_cases hle : r ≤ n
    · have : 1 ≤ n := by omega
      simpa [hle] using this
    · simp [hle]
  refine ⟨h1, h2, fun hn => ?_⟩
  rw [u32Sub_of_le _ _ h2 hn, h1]

theorem size_emplace (players players1 : HoleyArray Player) (n : Nat) (hinv : players.Inv)
    (hs : EmplaceSpec players (fun _ => Player.construct) n players1) :
    size players1 = size players + 1 := by
  rw [← liveSlots_length players1 hs.inv, ← liveSlots_length players hinv]
  have hperm : (liveSlots players1).Perm (n :: liveSlots players) := by
    rw [List.perm_ext_iff_of_nodup (liveSlots_nodup _)
      (List.nodup_cons.mpr ⟨hs.notLive, liveSlots_nodup _⟩)]
    intro a
    rw [hs.slots a, List.mem_cons]
  rw [hperm.length_eq, List.length_cons]

/-- C5 fails on the first connection to the server.  `newPlayerI` is read
through a reference to a local of the `create` lambda that is dead by then.
Whenever that read yields anything but the new player's slot 4, the new
player is not skipped when the ids are gathered, and the message sent to it
is the nine bytes `00 00 00 00 00 04 00 00 00`: the count 0 followed by its
own id, not the five bytes `00 00 00 00 00`.  The message is longer than
`5 + 4 * (N - 1)` and its count field is not the number of ids listed. -/
theorem snapshot_lists_new_player (readPlayerI : Nat → Nat) (hread : readPlayerI 4 ≠ 4) :
    ∃ players1 snapshot joined,
      handleNewConnection MutexedPlayers.initial readPlayerI
        = some (players1, 4, snapshot :: joined) ∧
      liveSlots players1 = [4] ∧
      size players1 = 1 ∧
      snapshot = { recipient := 4, bytes := 0 :: le32 0 ++ le32 4 } ∧
      snapshot.bytes = [0, 0, 0, 0, 0, 4, 0, 0, 0] ∧
      snapshot.bytes ≠ [0, 0, 0, 0, 0] ∧
      snapshot.bytes.length ≠ 5 + 4 * (size players1 - 1) := by
  have hne : ¬ (4 = readPlayerI 4) := fun h => hread h.symm
  have hfilter : [4].filter (fun o => decide (o ≠ readPlayerI 4)) = [4] := by
    simp [List.filter, hne]
  have h := handleNewConnection_first readPlayerI
  rw [hfilter] at h
  exact ⟨_, _, _, h, rfl, rfl, rfl, rfl, by decide, by decide⟩

/-- Failing input for C5: the first connection, the read of `newPlayerI`
yielding 0.  The new player is sent `00 00 00 00 00 04 00 00 00` and then a
message of type 1. -/
theorem snapshot_lists_new_player_witness :
    (fun _ : Nat => 0) 4 ≠ 4 ∧
    (∃ players1 snapshot joined,
      handleNewConnection MutexedPlayers.initial (fun _ => 0)
        = some (players1, 4, snapshot :: joined) ∧
      liveSlots players1 = [4] ∧
      size players1 = 1 ∧
      snapshot = { recipient := 4, bytes := 0 :: le32 0 ++ le32 4 } ∧
      snapshot.bytes = [0, 0, 0, 0, 0, 4, 0, 0, 0] ∧
      snapshot.bytes ≠ [0, 0, 0, 0, 0] ∧
      snapshot.bytes.length ≠ 5 + 4 * (size players1 - 1)) ∧
    handleNewConnection MutexedPlayers.initial (fun _ => 0)
      = some ({ mem := [none, none, none, none, some Player.construct]
                capacity := 5
                holeIs := [0, 1, 2, 3] }, 4,
          [{ recipient := 4, bytes := [0, 0, 0, 0, 0, 4, 0, 0, 0] },
           { recipient := 4, bytes := [1, 0, 0, 0, 0] }]) :=
  ⟨by decide, snapshot_lists_new_player (fun _ => 0) (by decide), rfl⟩

/-- C2 fails when a second player connects.  Player A holds slot 4 and the
new player B gets slot `n = 3`, so A should be sent `01` followed by
`3 - [4 <= 3] = 3` and nobody else anything.  `newPlayerI` is read through a
reference to a dead local.  Whenever that read yields a value `v` other than
3, the new player B itself is sent a message of type 1 (carrying
`v - [3 <= v]`), and A is sent either nothing (`v = 4`, A is taken for the
new player) or a message of type 1 carrying `v - [4 <= v]`, which for a `U32`
`v` is never the id 3. -/
theorem joined_sent_to_new_player (readA readB : Nat → Nat) (hread : readB 3 ≠ 3) :
    ∃ playersA writesA playersB snapshot joined,
      handleNewConnection MutexedPlayers.initial readA = some (playersA, 4, writesA) ∧
      liveSlots playersA = [4] ∧
      handleNewConnection playersA readB = some (playersB, 3, snapshot :: joined) ∧
      liveSlots playersB = [3, 4] ∧
      snapshot.recipient = 3 ∧
      writesTo 3 joined
        = [1 :: le32 (u32Sub (readB 3) (boolToNat (decide (3 ≤ readB 3))))] ∧
      (readB 3 = 4 → writesTo 4 joined = []) ∧
      (readB 3 ≠ 4 → writesTo 4 joined
        = [1 :: le32 (u32Sub (readB 3) (boolToNat (decide (4 ≤ readB 3))))]) ∧
      (readB 3 < 4294967296 → writesTo 4 joined ≠ [1 :: le32 3]) := by
  have h3 : ¬ (3 = readB 3) := fun h => hread h.symm
  refine ⟨_, _, _, _, _, handleNewConnection_first readA, rfl,
    handleNewConnection_second readB, rfl, rfl, ?_⟩
  by_cases h4 : 4 = readB 3
  · have hfilter : [3, 4].filter (fun o => decide (o ≠ readB 3)) = [3] := by
      simp [List.filter, h3, h4]
    rw [hfilter]
    refine ⟨rfl, fun _ => rfl, fun h => absurd h4.symm h, fun _ => by simp [writesTo]⟩
  · have hfilter : [3, 4].filter (fun o => decide (o ≠ readB 3)) = [3, 4] := by
      simp [List.filter, h3, h4]
    rw [hfilter]
    refine ⟨rfl, fun h => absurd h.symm h4, fun _ => rfl, fun hlt => ?_⟩
    show [1 :: le32 (u32Sub (readB 3) (boolToNat (decide (4 ≤ readB 3))))] ≠ [1 :: le32 3]
    intro heq
    have hle : le32 (u32Sub (readB 3) (boolToNat (decide (4 ≤ readB 3)))) = le32 3 := by
      injection heq with heq _
      injection heq
    have hv := le32_injOn _ 3 (by unfold u32Sub; omega) (by decide) hle
    unfold u32Sub boolToNat at hv
    by_cases hge : 4 ≤ readB 3
    · simp only [hge, decide_True, if_true] at hv
      omega
    · simp only [hge, decide_False] at hv
      have : (if false = true then 1 else 0) = 0 := rfl
      rw [this] at hv
      omega

/-- Failing input for C2: A holds slot 4, B connects and the read of
`newPlayerI` yields 0.  B is sent the message of type 0 listing both slots and
a message of type 1; A is sent a message of type 1 carrying 0. -/
theorem joined_sent_to_new_player_witness :
    (fun _ : Nat => 0) 3 ≠ 3 ∧
    (∃ playersA writesA playersB snapshot joined,
      handleNewConnection MutexedPlayers.initial id = some (playersA, 4, writesA) ∧
      liveSlots playersA = [4] ∧
      handleNewConnection playersA (fun _ => 0) = some (playersB, 3, snapshot :: joined) ∧
      liveSlots playersB = [3, 4] ∧
      snapshot.recipient = 3 ∧
      writesTo 3 joined
        = [1 :: le32 (u32Sub ((fun _ : Nat => 0) 3)
            (boolToNat (decide (3 ≤ (fun _ : Nat => 0) 3))))] ∧
      ((fun _ : Nat => 0) 3 = 4 → writesTo 4 joined = []) ∧
      ((fun _ : Nat => 0) 3 ≠ 4 → writesTo 4 joined
        = [1 :: le32 (u32Sub ((fun _ : Nat => 0) 3)
            (boolToNat (decide (4 ≤ (fun _ : Nat => 0) 3))))]) ∧
      ((fun _ : Nat => 0) 3 < 4294967296 → writesTo 4 joined ≠ [1 :: le32 3])) ∧
    handleNewConnection
        ({ mem := [none, none, none, none, some Player.construct]
           capacity := 5
           holeIs := [0, 1, 2, 3] } : HoleyArray Player) (fun _ => 0)
      = some ({ mem := [none, none, none, some Player.construct, some Player.construct]
                capacity := 5
                holeIs := [0, 1, 2] }, 3,
          [{ recipient := 3, bytes := [0, 1, 0, 0, 0, 3, 0, 0, 0, 4, 0, 0, 0] },
           { recipient := 3, bytes := [1, 0, 0, 0, 0] },
           { recipient := 4, bytes := [1, 0, 0, 0, 0] }]) :=
  ⟨by decide, joined_sent_to_new_player id (fun _ => 0) (by decide), rfl⟩

/-- C3. When the player in the live slot `d` disconnects, the player is removed
from the table and then every remaining live player `R` is sent exactly one
5-byte message: `0x02` followed by the little-endian 32-bit value
`d - [R < d]`.  The code computes `d - [R <= d]`, which is the same because no
survivor has `R = d`; the subtraction does not wrap (`[R <= d] <= d`), and
nothing is sent to the departed player or to a free slot. -/
theorem handleClientDisconnected_left (players : HoleyArray Player) (hinv : players.Inv)
    (d : Nat) (hd : d ∈ liveSlots players) :
    (handleClientDisconnected players d).1 = destroy players d ∧
    (∀ r, r ∈ liveSlots (destroy players d) ↔ r ∈ liveSlots players ∧ r ≠ d) ∧
    (handleClientDisconnected players d).2
      = (liveSlots (destroy players d)).map (fun r =>
          ({ recipient := r
             bytes := 2 :: le32 (d - boolToNat (decide (r ≤ d))) } : Write)) ∧
    (∀ r, r ∈ liveSlots players → r ≠ d →
      writesTo r (handleClientDisconnected players d).2
        = [2 :: le32 (d - boolToNat (decide (r < d)))] ∧
      (2 :: le32 (d - boolToNat (decide (r < d)))).length = 5 ∧
      boolToNat (decide (r ≤ d)) = boolToNat (decide (r < d)) ∧
      boolToNat (decide (r ≤ d)) ≤ d ∧
      (d < 4294967296 →
        u32Sub d (boolToNat (decide (r ≤ d))) = d - boolToNat (decide (r < d)))) ∧
    writesTo d (handleClientDisconnected players d).2 = [] ∧
    (∀ r, r ∉ liveSlots players → writesTo r (handleClientDisconnected players d).2 = []) := by
  obtain ⟨_, heq⟩ := handleClientDisconnected_spec players hinv d hd
  rw [heq]
  refine ⟨rfl, fun r => mem_liveSlots_destroy players d r, rfl, ?_, ?_, ?_⟩
  · intro r hr hrd
    have hb := boolToNat_le_of_ne r d hrd
    refine ⟨?_, rfl, hb.1, hb.2.1, hb.2.2⟩
    rw [writesTo_map_of_mem _ (fun r => 2 :: le32 (d - boolToNat (decide (r ≤ d)))) r
      (liveSlots_nodup _) ((mem_liveSlots_destroy players d r).mpr ⟨hr, hrd⟩), hb.1]
  · exact writesTo_map_of_not_mem _ _ d
      (fun h => ((mem_liveSlots_destroy players d d).mp h).2 rfl)
  · intro r hr
    exact writesTo_map_of_not_mem _ _ r
      (fun h => hr ((mem_liveSlots_destroy players d r).mp h).1)

/-- Witness for C3: players in slots 1, 3 and 4 of a table of capacity 5; the
player in slot 3 disconnects. -/
theorem handleClientDisconnected_left_witness :
    (3 ∈ liveSlots ({ mem := [none, some Player.construct, none, some Player.construct,
                              some Player.construct]
                      capacity := 5
                      holeIs := [0, 2] } : HoleyArray Player)) ∧
    writesTo 1 (handleClientDisconnected
        ({ mem := [none, some Player.construct, none, some Player.construct,
                   some Player.construct]
           capacity := 5
           holeIs := [0, 2] } : HoleyArray Player) 3).2 = [[2, 2, 0, 0, 0]] ∧
    writesTo 4 (handleClientDisconnected
        ({ mem := [none, some Player.construct, none, some Player.construct,
                   some Player.construct]
           capacity := 5
           holeIs := [0, 2] } : HoleyArray Player) 3).2 = [[2, 3, 0, 0, 0]] ∧
    writesTo 3 (handleClientDisconnected
        ({ mem := [none, some Player.construct, none, some Player.construct,
                   some Player.construct]
           capacity := 5
           holeIs := [0, 2] } : HoleyArray Player) 3).2 = [] :=
  have h := handleClientDisconnected_left
    ({ mem := [none, some Player.construct, none, some Player.construct, some Player.construct]
       capacity := 5
       holeIs := [0, 2] } : HoleyArray Player)
    ⟨by decide, by decide, by decide, by decide⟩ 3 (by decide)
  ⟨by decide, (h.2.2.2.1 1 (by decide) (by decide)).1, (h.2.2.2.1 4 (by decide) (by decide)).1,
    h.2.2.2.2.1⟩

/-- C6 (as amended). Starting from the server's empty table, client A
connects and is given slot 4 (`emplace` takes the last hole of the capacity-5
table) and the count field of its SNAPSHOT is 0.  Client B connects and is
given slot 3, and the count field of its SNAPSHOT is 1.  This holds whatever
the reads of `newPlayerI` yield; and when the read in B's connection yields
B's slot 3, A is sent exactly one JOINED message, carrying
`3 - [4 <= 3] = 3` for B. -/
theorem two_player_join (readA readB : Nat → Nat) :
    ∃ playersA snapshotA joinedA playersB snapshotB joinedB,
      handleNewConnection MutexedPlayers.initial readA
        = some (playersA, 4, snapshotA :: joinedA) ∧
      liveSlots playersA = [4] ∧
      snapshotA.recipient = 4 ∧
      snapshotA.bytes.take 5 = 0 :: le32 0 ∧
      handleNewConnection playersA readB = some (playersB, 3, snapshotB :: joinedB) ∧
      liveSlots playersB = [3, 4] ∧
      snapshotB.recipient = 3 ∧
      snapshotB.bytes.take 5 = 0 :: le32 1 ∧
      (readB 3 = 3 → joinedB = [{ recipient := 4, bytes := 1 :: le32 3 }]) :=
  ⟨_, _, _, _, _, _, handleNewConnection_first readA, rfl, rfl, rfl,
    handleNewConnection_second readB, rfl, rfl, rfl, fun h => by
      have hfilter : [3, 4].filter (fun o => decide (o ≠ readB 3)) = [4] := by
        simp [List.filter, h]
      rw [hfilter, h]
      rfl⟩

/-- Witness for C6 (as amended): both reads of `newPlayerI` yield the slot of
the new player. -/
theorem two_player_join_witness :
    ∃ playersA snapshotA joinedA playersB snapshotB joinedB,
      handleNewConnection MutexedPlayers.initial id
        = some (playersA, 4, snapshotA :: joinedA) ∧
      liveSlots playersA = [4] ∧
      snapshotA.recipient = 4 ∧
      snapshotA.bytes.take 5 = 0 :: le32 0 ∧
      handleNewConnection playersA id = some (playersB, 3, snapshotB :: joinedB) ∧
      liveSlots playersB = [3, 4] ∧
      snapshotB.recipient = 3 ∧
      snapshotB.bytes.take 5 = 0 :: le32 1 ∧
      joinedB = [{ recipient := 4, bytes := [1, 3, 0, 0, 0] }] := by
  obtain ⟨playersA, snapshotA, joinedA, playersB, snapshotB, joinedB,
    h1, h2, h3, h4, h5, h6, h7, h8, h9⟩ := two_player_join id id
  exact ⟨playersA, snapshotA, joinedA, playersB, snapshotB, joinedB,
    h1, h2, h3, h4, h5, h6, h7, h8, h9 rfl⟩

/-- C6 as stated fails.  Whatever the reads of `newPlayerI` yield, after A
and B have connected to the empty server B's SNAPSHOT is not the count 1
followed by the single id 0; and when both reads yield the slot of the new
player, the one JOINED message sent to A carries id 3, not id 1. -/
theorem two_player_join_ids_not_0_1 :
    (¬ ∃ readA readB playersA writesA playersB snapshotB joinedB,
      handleNewConnection MutexedPlayers.initial readA = some (playersA, 4, writesA) ∧
      handleNewConnection playersA readB = some (playersB, 3, snapshotB :: joinedB) ∧
      snapshotB.bytes = 0 :: le32 1 ++ le32 0) ∧
    (∃ playersA writesA playersB snapshotB,
      handleNewConnection MutexedPlayers.initial id = some (playersA, 4, writesA) ∧
      handleNewConnection playersA id
        = some (playersB, 3, [snapshotB, { recipient := 4, bytes := 1 :: le32 3 }]) ∧
      1 :: le32 3 ≠ 1 :: le32 1) := by
  refine ⟨?_, _, _, _, _, rfl, rfl, by decide⟩
  rintro ⟨readA, readB, playersA, writesA, playersB, snapshotB, joinedB, hA, hB, hbytes⟩
  rw [handleNewConnection_first readA, Option.some.injEq, Prod.mk.injEq] at hA
  rw [← hA.1, handleNewConnection_second readB, Option.some.injEq, Prod.mk.injEq,
    Prod.mk.injEq, List.cons.injEq] at hB
  rw [← hB.2.2.1] at hbytes
  by_cases h3 : 3 = readB 3
  · have hfilter : [3, 4].filter (fun o => decide (o ≠ readB 3)) = [4] := by
      simp [List.filter, ← h3]
    rw [hfilter] at hbytes
    exact absurd hbytes (by decide)
  · by_cases h4 : 4 = readB 3
    · have hfilter : [3, 4].filter (fun o => decide (o ≠ readB 3)) = [3] := by
        simp [List.filter, ← h4]
      rw [hfilter] at hbytes
      exact absurd hbytes (by decide)
    · have hfilter : [3, 4].filter (fun o => decide (o ≠ readB 3)) = [3, 4] := by
        simp [List.filter, h3, h4]
      rw [hfilter] at hbytes
      exact absurd hbytes (by decide)

theorem serverStep_preserves (t t1 : HoleyArray Player) (e : ServerEvent) (ws : List Write)
    (hinv : t.Inv) (hcap : 2 ≤ t.capacity) (hstep : serverStep t e = some (t1, ws)) :
    t1.Inv ∧ 2 ≤ t1.capacity ∧
      ∀ r, r ∈ liveSlots t → e ≠ .clientDisconnected r → r ∈ liveSlots t1 := by
  cases e with
  | newConnection =>
    obtain ⟨n, players1, hs, heq⟩ := handleNewConnection_spec t hinv (Or.inr hcap)
    simp only [serverStep, heq, Option.some.injEq, Prod.mk.injEq] at hstep
    obtain ⟨rfl, _⟩ := hstep
    exact ⟨hs.inv, Nat.le_trans hcap hs.capacity, fun r hr _ => (hs.slots r).mpr (Or.inr hr)⟩
  | clientDisconnected d =>
    by_cases hd : d ∈ liveSlots t
    · simp only [serverStep, hd, if_true, Option.some.injEq] at hstep
      have h1 : t1 = destroy t d := by
        rw [(handleClientDisconnected_spec t hinv d hd).2] at hstep
        exact (Prod.mk.inj hstep).1.symm
      subst h1
      refine ⟨(handleClientDisconnected_spec t hinv d hd).1, hcap, fun r hr hne => ?_⟩
      exact (mem_liveSlots_destroy t d r).mpr ⟨hr, fun h => hne (by rw [h])⟩
    · simp [serverStep, hd] at hstep

theorem serverRun_preserves (evs : List ServerEvent) :
    ∀ (t t1 : HoleyArray Player) (ws : List Write), t.Inv → 2 ≤ t.capacity →
      serverRun t evs = some (t1, ws) →
      t1.Inv ∧ 2 ≤ t1.capacity ∧
        ∀ r, r ∈ liveSlots t → .clientDisconnected r ∉ evs → r ∈ liveSlots t1 := by
  induction evs with
  | nil =>
    intro t t1 ws hinv hcap hrun
    simp only [serverRun, Option.some.injEq, Prod.mk.injEq] at hrun
    obtain ⟨rfl, _⟩ := hrun
    exact ⟨hinv, hcap, fun r hr _ => hr⟩
  | cons e es ih =>
    intro t t1 ws hinv hcap hrun
    simp only [serverRun] at hrun
    cases hstep : serverStep t e with
    | none => simp [hstep] at hrun
    | some r1 =>
      obtain ⟨ta, wa⟩ := r1
      simp only [hstep] at hrun
      cases hrest : serverRun ta es with
      | none => simp [hrest] at hrun
      | some r2 =>
        obtain ⟨tb, wb⟩ := r2
        simp only [hrest, Option.some.injEq, Prod.mk.injEq] at hrun
        obtain ⟨rfl, _⟩ := hrun
        obtain ⟨h1, h2, h3⟩ := serverStep_preserves t ta e wa hinv hcap hstep
        obtain ⟨h4, h5, h6⟩ := ih ta tb wb h1 h2 hrest
        refine ⟨h4, h5, fun r hr hne => ?_⟩
        exact h6 r (h3 r hr (fun h => hne (h ▸ List.mem_cons_self _ _)))
          (fun h => hne (List.mem_cons_of_mem _ h))

theorem serverRun_initial_inv (evs : List ServerEvent) (t : HoleyArray Player)
    (ws : List Write) (hrun : serverRun MutexedPlayers.initial evs = some (t, ws)) :
    t.Inv ∧ 2 ≤ t.capacity :=
  have h := serverRun_preserves evs MutexedPlayers.initial t ws (construct_inv 5) (by decide) hrun
  ⟨h.1, h.2.1⟩

/-- C4 fails for a peer that the recipient learnt of from its SNAPSHOT, also
when every read of `newPlayerI` yields the slot of the new player.  The
SNAPSHOT lists slot ids as they are, the LEFT message carries the id rebased
for the recipient.

Two players: A connects (slot 4), B connects (slot 3), A closes.  B is sent
the SNAPSHOT naming A by id 4 and then LEFT carrying id 3: not the id under
which A was announced and not the id 0.  B's handler put A at id 4 of its
mirror and fails `ASSERT(*it == i)` in `destroy` on the LEFT message.

Three players: A (slot 4), B (slot 3) and C (slot 2) connect, A closes.  C
is sent the SNAPSHOT listing ids 3 and 4 and then LEFT carrying id 3.  The
server's table keeps B and C, but C's mirror removes the entry of B (id 3)
and keeps that of A (id 4). -/
theorem left_id_not_announced_id :
    (∃ playersA writesA playersB writesB,
      handleNewConnection MutexedPlayers.initial id = some (playersA, 4, writesA) ∧
      handleNewConnection playersA id = some (playersB, 3, writesB) ∧
      writesTo 3 (writesA ++ writesB ++ (handleClientDisconnected playersB 4).2)
        = [0 :: le32 1 ++ le32 4, 2 :: le32 3] ∧
      2 :: le32 3 ≠ 2 :: le32 4 ∧
      2 :: le32 3 ≠ 2 :: le32 0 ∧
      (∃ mirror, clientReceive ReplicaHoleyArray.empty [0 :: le32 1 ++ le32 4] = .ok mirror ∧
        mirror.filledIs = [4]) ∧
      clientReceive ReplicaHoleyArray.empty [0 :: le32 1 ++ le32 4, 2 :: le32 3]
        = .error .exit) ∧
    (∃ playersA writesA playersB writesB playersC writesC,
      handleNewConnection MutexedPlayers.initial id = some (playersA, 4, writesA) ∧
      handleNewConnection playersA id = some (playersB, 3, writesB) ∧
      handleNewConnection playersB id = some (playersC, 2, writesC) ∧
      writesTo 2 (writesA ++ writesB ++ writesC ++ (handleClientDisconnected playersC 4).2)
        = [0 :: le32 2 ++ le32 3 ++ le32 4, 2 :: le32 3] ∧
      liveSlots (handleClientDisconnected playersC 4).1 = [2, 3] ∧
      (∃ mirror, clientReceive ReplicaHoleyArray.empty [0 :: le32 2 ++ le32 3 ++ le32 4]
          = .ok mirror ∧
        mirror.filledIs = [3, 4]) ∧
      (∃ mirror, clientReceive ReplicaHoleyArray.empty
          [0 :: le32 2 ++ le32 3 ++ le32 4, 2 :: le32 3] = .ok mirror ∧
        mirror.filledIs = [4])) :=
  ⟨⟨_, _, _, _, rfl, rfl, rfl, by decide, by decide, ⟨_, rfl, rfl⟩, rfl⟩,
    ⟨_, _, _, _, _, _, rfl, rfl, rfl, rfl, rfl, ⟨_, rfl, rfl⟩, ⟨_, rfl, rfl⟩⟩⟩

/-! ## Lemmas: the position broadcast -/

theorem broadcastScan_eq (players : HoleyArray Player) (oI0 filledI oI1 : Nat)
    (s : BroadcastScan) :
    broadcastScan oI0 filledI oI1 (players.index oI1) s
      = if oI0 = oI1 then { s with haveReachedSamePlayer := true }
        else { s with
               buf := writeTriple players s.buf (filledI - boolToNat s.haveReachedSamePlayer) oI1 } := by
  unfold broadcastScan writeTriple
  split
  · rfl
  · cases players.index oI1 <;> rfl

theorem scan_fold_not_mem (players : HoleyArray Player) (r : Nat) :
    ∀ (l : List Nat) (start : Nat) (reached : Bool) (buf : List Nat), r ∉ l →
      (reached = true → 1 ≤ start) →
      (l.enumFrom start).foldl
          (fun s c => broadcastScan r c.1 c.2 (players.index c.2) s)
          { buf := buf, haveReachedSamePlayer := reached }
        = { buf := (l.enumFrom (start - boolToNat reached)).foldl
              (fun b c => writeTriple players b c.1 c.2) buf
            haveReachedSamePlayer := reached } := by
  intro l
  induction l with
  | nil => intro start reached buf _ _; rfl
  | cons a l ih =>
    intro start reached buf hr hstart
    have hra : r ≠ a := fun h => hr (h ▸ List.mem_cons_self _ _)
    have hrl : r ∉ l := fun h => hr (List.mem_cons_of_mem _ h)
    have hstep : broadcastScan r start a (players.index a)
        { buf := buf, haveReachedSamePlayer := reached }
        = { buf := writeTriple players buf (start - boolToNat reached) a
            haveReachedSamePlayer := reached } := by
      rw [broadcastScan_eq, if_neg hra]
    simp only [List.enumFrom_cons, List.foldl_cons, hstep]
    rw [ih (start + 1) reached _ hrl (fun _ => by omega)]
    have hidx : start + 1 - boolToNat reached = start - boolToNat reached + 1 := by
      cases reached with
      | false => simp [boolToNat]
      | true =>
        have := hstart rfl
        simp only [boolToNat, if_true]
        omega
    rw [hidx]

theorem scan_fold_mem (players : HoleyArray Player) (r : Nat) :
    ∀ (l : List Nat) (start : Nat) (buf : List Nat), l.Nodup → r ∈ l →
      ((l.enumFrom start).foldl
          (fun s c => broadcastScan r c.1 c.2 (players.index c.2) s)
          { buf := buf, haveReachedSamePlayer := false }).buf
        = ((l.filter (fun o => decide (o ≠ r))).enumFrom start).foldl
            (fun b c => writeTriple players b c.1 c.2) buf := by
  intro l
  induction l with
  | nil => intro start buf _ hr; exact absurd hr (List.not_mem_nil _)
  | cons a l ih =>
    intro start buf hnd hr
    have hnd2 := List.nodup_cons.mp hnd
    by_cases hra : r = a
    · subst hra
      have hstep : broadcastScan r start r (players.index r)
          { buf := buf, haveReachedSamePlayer := false }
          = { buf := buf, haveReachedSamePlayer := true } := by
        rw [broadcastScan_eq, if_pos rfl]
      simp only [List.enumFrom_cons, List.foldl_cons, hstep]
      rw [scan_fold_not_mem players r l (start + 1) true buf hnd2.1 (fun _ => by omega)]
      rw [List.filter_cons_of_neg (by simp)]
      have hfil : l.filter (fun o => decide (o ≠ r)) = l := by
        apply List.filter_eq_self.mpr
        intro x hx
        have : x ≠ r := fun h => hnd2.1 (h ▸ hx)
        simpa using this
      rw [hfil]
      simp [boolToNat]
    · have hrl : r ∈ l := by
        rcases List.mem_cons.mp hr with h | h
        · exact absurd h hra
        · exact h
      have hstep : broadcastScan r start a (players.index a)
          { buf := buf, haveReachedSamePlayer := false }
          = { buf := writeTriple players buf start a, haveReachedSamePlayer := false } := by
        rw [broadcastScan_eq, if_neg hra]
        rfl
      simp only [List.enumFrom_cons, List.foldl_cons, hstep]
      rw [ih (start + 1) _ hnd2.2 hrl]
      rw [List.filter_cons_of_pos (by simpa using Ne.symm hra)]
      simp [boolToNat]

theorem writeTriple_append (players : HoleyArray Player) (pre mid post : List Nat) (i o : Nat)
    (p : Player) (hp : players.index o = some p) (hpre : pre.length = 1 + 12 * i)
    (hmid : mid.length = 12) :
    writeTriple players (pre ++ mid ++ post) i o = pre ++ slotPositionBytes players o ++ post := by
  unfold writeTriple slotPositionBytes positionBytes
  rw [hp]
  simp only
  have hsplit : mid = mid.take 4 ++ ((mid.drop 4).take 4 ++ (mid.drop 8)) := by
    conv_lhs => rw [← List.take_append_drop 4 mid, ← List.take_append_drop 4 (mid.drop 4)]
    simp
  have h1 : (mid.take 4).length = 4 := by rw [List.length_take]; omega
  have h2 : ((mid.drop 4).take 4).length = 4 := by
    rw [List.length_take, List.length_drop]; omega
  have h3 : (mid.drop 8).length = 4 := by rw [List.length_drop]; omega
  have o1 : 1 + (0 + i * 3) * 4 = pre.length := by omega
  have o2 : 1 + (1 + i * 3) * 4 = (pre ++ leS32 p.position.x).length := by
    rw [List.length_append, leS32_length]; omega
  have o3 : 1 + (2 + i * 3) * 4
      = (pre ++ leS32 p.position.x ++ leS32 p.position.y).length := by
    rw [List.length_append, List.length_append, leS32_length, leS32_length]; omega
  have s1 : memcpyInspect (pre ++ mid ++ post) (1 + (0 + i * 3) * 4) (leS32 p.position.x)
      = (pre ++ leS32 p.position.x) ++ (mid.drop 4).take 4 ++ (mid.drop 8 ++ post) := by
    rw [o1]
    conv_lhs => rw [hsplit]
    have := memcpyInspect_append pre (mid.take 4)
      ((mid.drop 4).take 4 ++ (mid.drop 8) ++ post) (leS32 p.position.x)
      (by rw [h1, leS32_length])
    simp only [List.append_assoc] at this ⊢
    exact this
  have s2 : memcpyInspect ((pre ++ leS32 p.position.x) ++ (mid.drop 4).take 4
        ++ (mid.drop 8 ++ post)) (1 + (1 + i * 3) * 4) (leS32 p.position.y)
      = (pre ++ leS32 p.position.x ++ leS32 p.position.y) ++ mid.drop 8 ++ post := by
    rw [o2]
    have := memcpyInspect_append (pre ++ leS32 p.position.x) ((mid.drop 4).take 4)
      (mid.drop 8 ++ post) (leS32 p.position.y) (by rw [h2, leS32_length])
    simp only [List.append_assoc] at this ⊢
    exact this
  have s3 : memcpyInspect ((pre ++ leS32 p.position.x ++ leS32 p.position.y) ++ mid.drop 8
        ++ post) (1 + (2 + i * 3) * 4) (leS32 p.position.z)
      = (pre ++ leS32 p.position.x ++ leS32 p.position.y) ++ leS32 p.position.z ++ post := by
    rw [o3]
    exact memcpyInspect_append (pre ++ leS32 p.position.x ++ leS32 p.position.y) (mid.drop 8)
      post (leS32 p.position.z) (by rw [h3, leS32_length])
  rw [s1, s2, s3]
  simp only [List.append_assoc]

theorem slotPositionBytes_length (players : HoleyArray Player) (o : Nat) (p : Player)
    (hp : players.index o = some p) : (slotPositionBytes players o).length = 12 := by
  unfold slotPositionBytes
  rw [hp]
  exact positionBytes_length _

theorem foldl_writeTriple (players : HoleyArray Player) :
    ∀ (l : List Nat) (start : Nat) (pre mid post : List Nat),
      (∀ o ∈ l, ∃ p, players.index o = some p) → pre.length = 1 + 12 * start →
      mid.length = 12 * l.length →
      (l.enumFrom start).foldl (fun b c => writeTriple players b c.1 c.2) (pre ++ mid ++ post)
        = pre ++ l.flatMap (slotPositionBytes players) ++ post := by
  intro l
  induction l with
  | nil =>
    intro start pre mid post _ _ hmid
    have : mid = [] := List.length_eq_zero.mp (by simpa using hmid)
    simp [this]
  | cons o l ih =>
    intro start pre mid post hlive hpre hmid
    obtain ⟨p, hp⟩ := hlive o (List.mem_cons_self _ _)
    have hmid2 : mid.length = 12 + 12 * l.length := by
      rw [hmid, List.length_cons, Nat.mul_succ, Nat.add_comm]
    have hstep : writeTriple players (pre ++ mid ++ post) start o
        = (pre ++ slotPositionBytes players o) ++ mid.drop 12 ++ post := by
      have hsplit : mid = mid.take 12 ++ mid.drop 12 := (List.take_append_drop 12 mid).symm
      conv_lhs => rw [hsplit]
      have := writeTriple_append players pre (mid.take 12) (mid.drop 12 ++ post) start o p hp
        hpre (by rw [List.length_take]; omega)
      simp only [List.append_assoc] at this ⊢
      exact this
    simp only [List.enumFrom_cons, List.foldl_cons, hstep]
    rw [ih (start + 1) (pre ++ slotPositionBytes players o) (mid.drop 12) post
      (fun x hx => hlive x (List.mem_cons_of_mem _ hx))
      (by rw [List.length_append, hpre, slotPositionBytes_length players o p hp]; omega)
      (by rw [List.length_drop, hmid2]; omega)]
    simp

theorem flatMap_slotPositionBytes_length (players : HoleyArray Player) :
    ∀ (l : List Nat), (∀ o ∈ l, ∃ p, players.index o = some p) →
      (l.flatMap (slotPositionBytes players)).length = 12 * l.length := by
  intro l
  induction l with
  | nil => intro _; rfl
  | cons o l ih =>
    intro hlive
    obtain ⟨p, hp⟩ := hlive o (List.mem_cons_self _ _)
    rw [List.flatMap_cons, List.length_append, slotPositionBytes_length players o p hp,
      ih (fun x hx => hlive x (List.mem_cons_of_mem _ hx)), List.length_cons]
    omega

theorem othersPositions_length (players : HoleyArray Player) (hinv : players.Inv) (r : Nat)
    (hr : r ∈ liveSlots players) :
    (othersPositions players r).length = 12 * (size players - 1) := by
  unfold othersPositions
  rw [flatMap_slotPositionBytes_length players _ (fun o ho =>
      index_ne_none_of_mem_liveSlots players hinv o (List.mem_filter.mp ho).1),
    filter_ne_length _ r (liveSlots_nodup _) hr, liveSlots_length players hinv]

theorem broadcast_inner (players : HoleyArray Player) (hinv : players.Inv) (r : Nat)
    (hr : r ∈ liveSlots players) (mid : List Nat) (hmid : mid.length = 12 * (size players - 1)) :
    (foreach players (broadcastScan r)
        { buf := [3] ++ mid ++ [], haveReachedSamePlayer := false }).buf
      = [3] ++ othersPositions players r ++ [] := by
  rw [foreach_eq players hinv, List.enum,
    scan_fold_mem players r (liveSlots players) 0 _ (liveSlots_nodup _) hr]
  exact foldl_writeTriple players _ 0 [3] mid []
    (fun o ho => index_ne_none_of_mem_liveSlots players hinv o (List.mem_filter.mp ho).1)
    rfl
    (by rw [hmid, filter_ne_length _ r (liveSlots_nodup _) hr, liveSlots_length players hinv])

theorem broadcast_outer (players : HoleyArray Player) (hinv : players.Inv) (bufSize : Nat)
    (hsize : bufSize = 1 + 12 * (size players - 1)) :
    ∀ (rs : List (Nat × Nat)) (mid : List Nat) (writes : List Write),
      (∀ c ∈ rs, c.2 ∈ liveSlots players) → mid.length = 12 * (size players - 1) →
      (rs.foldl (fun (s : List Nat × List Write) c =>
          ((foreach players (broadcastScan c.2)
              { buf := s.1, haveReachedSamePlayer := false }).buf,
            s.2 ++ [{ recipient := c.2
                      bytes := ((foreach players (broadcastScan c.2)
                        { buf := s.1, haveReachedSamePlayer := false }).buf).take bufSize }]))
        ([3] ++ mid ++ [], writes)).2
        = writes ++ rs.map (fun c =>
            ({ recipient := c.2, bytes := 3 :: othersPositions players c.2 } : Write)) := by
  intro rs
  induction rs with
  | nil => intro mid writes _ _; simp
  | cons c rs ih =>
    intro mid writes hlive hmid
    have hc := hlive c (List.mem_cons_self _ _)
    have hinner := broadcast_inner players hinv c.2 hc mid hmid
    have hlen := othersPositions_length players hinv c.2 hc
    have htake : ([3] ++ othersPositions players c.2 ++ []).take bufSize
        = 3 :: othersPositions players c.2 := by
      have : ([3] ++ othersPositions players c.2 ++ []).length = bufSize := by
        simp only [List.length_append, List.length_singleton, List.length_nil, hlen, hsize,
          Nat.add_zero]
      rw [← this, List.take_length]
      simp
    simp only [List.foldl_cons, hinner, htake]
    rw [ih (othersPositions players c.2) _ (fun x hx => hlive x (List.mem_cons_of_mem _ hx)) hlen]
    simp

theorem broadcastPlayerPositions_eq (players : HoleyArray Player) (hinv : players.Inv) :
    broadcastPlayerPositions players
      = (liveSlots players).map (fun r =>
          ({ recipient := r, bytes := 3 :: othersPositions players r } : Write)) := by
  unfold broadcastPlayerPositions
  by_cases h0 : size players < 1
  · have hnil : liveSlots players = [] :=
      List.length_eq_zero.mp (by rw [liveSlots_length players hinv]; omega)
    rw [if_pos h0, hnil]
    rfl
  · rw [if_neg h0]
    have hbuf : memcpyInspect (List.replicate (1 + 3 * 4 * (size players - 1)) 0) 0 [3]
        = [3] ++ List.replicate (12 * (size players - 1)) 0 ++ [] := by
      have hrep : List.replicate (1 + 3 * 4 * (size players - 1)) 0
          = [] ++ [0] ++ List.replicate (12 * (size players - 1)) 0 := by
        rw [List.replicate_add]
        rfl
      rw [hrep]
      have := memcpyInspect_append [] [0] (List.replicate (12 * (size players - 1)) 0) [3] rfl
      simpa using this
    simp only [hbuf]
    rw [foreach_eq players hinv]
    have := broadcast_outer players hinv (1 + 3 * 4 * (size players - 1)) (by omega)
      (liveSlots players).enum (List.replicate (12 * (size players - 1)) 0) []
      (fun c hc => by
        have : c.2 ∈ (liveSlots players).enum.map Prod.snd := List.mem_map.mpr ⟨c, hc, rfl⟩
        rwa [enum_map_snd] at this)
      (by simp)
    rw [this, List.nil_append]
    exact map_enum_snd (fun r =>
      ({ recipient := r, bytes := 3 :: othersPositions players r } : Write)) _

/-- C1. For a player table satisfying the invariant, `broadcastPlayerPositions`
schedules exactly one write per live player `R` and none for any other slot.
The bytes written for `R` are `0x03` followed by `12 * (N - 1)` bytes
(`N = size`): the little-endian 32-bit `x`, `y`, `z` of every live player other
than `R`, in ascending slot order.  With `N = 1` the message is the single byte
`0x03`; with `N = 0` nothing is written. -/
theorem broadcast_positions (players : HoleyArray Player) (hinv : players.Inv) :
    broadcastPlayerPositions players
      = (liveSlots players).map (fun r =>
          ({ recipient := r
             bytes := 3 :: ((liveSlots players).filter (fun o => decide (o ≠ r))).flatMap
               (slotPositionBytes players) } : Write)) ∧
    (liveSlots players).length = size players ∧
    (∀ o ∈ liveSlots players, ∃ p, players.index o = some p ∧
      slotPositionBytes players o
        = leS32 p.position.x ++ leS32 p.position.y ++ leS32 p.position.z) ∧
    (∀ r ∈ liveSlots players,
      writesTo r (broadcastPlayerPositions players) = [3 :: othersPositions players r] ∧
      (othersPositions players r).length = 12 * (size players - 1)) ∧
    (∀ r, r ∉ liveSlots players → writesTo r (broadcastPlayerPositions players) = []) ∧
    (size players = 1 → ∀ w ∈ broadcastPlayerPositions players, w.bytes = [3]) ∧
    (size players = 0 → broadcastPlayerPositions players = []) := by
  have heq := broadcastPlayerPositions_eq players hinv
  refine ⟨heq, liveSlots_length players hinv, ?_, ?_, ?_, ?_, ?_⟩
  · intro o ho
    obtain ⟨p, hp⟩ := index_ne_none_of_mem_liveSlots players hinv o ho
    refine ⟨p, hp, ?_⟩
    unfold slotPositionBytes
    rw [hp]
    rfl
  · intro r hr
    rw [heq]
    exact ⟨writesTo_map_of_mem _ (fun r => 3 :: othersPositions players r) r
      (liveSlots_nodup _) hr, othersPositions_length players hinv r hr⟩
  · intro r hr
    rw [heq]
    exact writesTo_map_of_not_mem _ (fun r => 3 :: othersPositions players r) r hr
  · intro h1 w hw
    rw [heq] at hw
    obtain ⟨r, hr, rfl⟩ := List.mem_map.mp hw
    have hlen := othersPositions_length players hinv r hr
    rw [h1] at hlen
    have : othersPositions players r = [] := List.length_eq_zero.mp (by simpa using hlen)
    show 3 :: othersPositions players r = [3]
    rw [this]
  · intro h0
    rw [heq]
    have hnil : liveSlots players = [] :=
      List.length_eq_zero.mp (by rw [liveSlots_length players hinv]; omega)
    rw [hnil]
    rfl

/-- Witness for C1: players in slots 1, 3 and 4 at positions `(1, 2, 3)`,
`(-1, 0, 256)` and `(7, 8, 9)`. -/
theorem broadcast_positions_witness :
    broadcastPlayerPositions
        ({ mem := [none, some { position := { x := 1, y := 2, z := 3 } }, none,
                   some { position := { x := -1, y := 0, z := 256 } },
                   some { position := { x := 7, y := 8, z := 9 } }]
           capacity := 5
           holeIs := [0, 2] } : HoleyArray Player)
      = [{ recipient := 1
           bytes := [3, 255, 255, 255, 255, 0, 0, 0, 0, 0, 1, 0, 0,
                     7, 0, 0, 0, 8, 0, 0, 0, 9, 0, 0, 0] },
         { recipient := 3
           bytes := [3, 1, 0, 0, 0, 2, 0, 0, 0, 3, 0, 0, 0,
                     7, 0, 0, 0, 8, 0, 0, 0, 9, 0, 0, 0] },
         { recipient := 4
           bytes := [3, 1, 0, 0, 0, 2, 0, 0, 0, 3, 0, 0, 0,
                     255, 255, 255, 255, 0, 0, 0, 0, 0, 1, 0, 0] }] :=
  (broadcast_positions
    ({ mem := [none, some { position := { x := 1, y := 2, z := 3 } }, none,
               some { position := { x := -1, y := 0, z := 256 } },
               some { position := { x := 7, y := 8, z := 9 } }]
       capacity := 5
       holeIs := [0, 2] } : HoleyArray Player)
    ⟨by decide, by decide, by decide, by decide⟩).1.trans (by decide)

/-! ## Lemmas: the frame reader -/

theorem scanMessages_skip {σ : Type} (handleMessage : Nat → List Nat → σ → HandlerRet σ) :
    ∀ (a b : List Nat) (s : σ) (handled : List (Nat × List Nat)),
      scanMessages handleMessage a.length (a ++ b) s handled
        = scanMessages handleMessage 0 b s handled := by
  intro a
  induction a with
  | nil => intro b s handled; rfl
  | cons x a ih =>
    intro b s handled
    simp only [List.length_cons, List.cons_append, scanMessages]
    exact ih b s handled

theorem lt_length_of_index {El : Type} (arr : HoleyArray El) (i : Nat) (v : El)
    (h : arr.index i = some v) : i < arr.mem.length := by
  by_contra hc
  rw [index_eq_none_of_le arr i (by omega)] at h
  exact Option.noConfusion h

theorem serverHandleMessage_incomplete (playerI : Nat) (scan : List Nat)
    (players : HoleyArray Player) (h : scan.length < 12) :
    serverHandleMessage playerI 0 scan players = .incomplete := by
  simp [serverHandleMessage, h]

theorem serverHandleMessage_consumed (playerI : Nat) (scan : List Nat)
    (players : HoleyArray Player) (h : 12 ≤ scan.length)
    (hlive : (players.index playerI).isSome = true) :
    serverHandleMessage playerI 0 scan players
        = .consumed 12 (copyPosition players playerI scan) ∧
      ((copyPosition players playerI scan).index playerI).isSome = true := by
  obtain ⟨p, hp⟩ := Option.isSome_iff_exists.mp hlive
  have hlt := lt_length_of_index players playerI p hp
  have hnot : ¬ scan.length < 12 := by omega
  refine ⟨by simp only [serverHandleMessage, hnot, hp, if_false, ne_eq, not_true_eq_false], ?_⟩
  simp [copyPosition, HoleyArray.index, List.getElem?_set, hlt]

theorem updatePosStream_cons (p : List Nat) (ps : List (List Nat)) :
    updatePosStream (p :: ps) = (0 :: p) ++ updatePosStream ps := rfl

theorem scanMessages_updatePos (playerI : Nat) :
    ∀ (payloads : List (List Nat)), (∀ p ∈ payloads, p.length = 12) →
    ∀ (bytes rest : List Nat) (players : HoleyArray Player) (handled : List (Nat × List Nat)),
      bytes ++ rest = updatePosStream payloads → (players.index playerI).isSome = true →
      ∃ j incomplete players1,
        scanMessages (serverHandleMessage playerI) 0 bytes players handled
          = .ok { incomplete := incomplete, state := players1
                  handled := handled ++ (payloads.take j).map (fun p => (0, p)) } ∧
        incomplete ++ rest = updatePosStream (payloads.drop j) ∧
        incomplete.length < 13 ∧ (players1.index playerI).isSome = true := by
  intro payloads
  induction payloads with
  | nil =>
    intro _ bytes rest players handled hb hlive
    have hnil : bytes = [] := (List.append_eq_nil.mp hb).1
    subst hnil
    exact ⟨0, [], players, by simp [scanMessages], hb, by decide, hlive⟩
  | cons p ps ih =>
    intro hlen bytes rest players handled hb hlive
    have hp : p.length = 12 := hlen p (List.mem_cons_self _ _)
    rw [updatePosStream_cons] at hb
    by_cases hshort : bytes.length < 13
    · refine ⟨0, bytes, players, ?_, by simpa [updatePosStream_cons] using hb, hshort, hlive⟩
      cases bytes with
      | nil => simp [scanMessages]
      | cons b bs =>
        have hb0 : b = 0 := by
          have := congrArg List.head? hb
          simpa using this
        subst hb0
        have hbs : bs.length < 12 := by
          simp only [List.length_cons] at hshort
          omega
        simp [scanMessages, serverHandleMessage_incomplete playerI bs players hbs]
    · have hlong : 13 ≤ bytes.length := by omega
      have htake : bytes.take 13 = 0 :: p := by
        have h1 := congrArg (List.take 13) hb
        rw [List.take_append_of_le_length hlong,
          List.take_append_of_le_length (by simp [hp])] at h1
        rw [h1, List.take_of_length_le (by simp [hp])]
      have hdrop : bytes.drop 13 ++ rest = updatePosStream ps := by
        have h1 := congrArg (List.drop 13) hb
        rw [List.drop_append_of_le_length hlong,
          List.drop_append_of_le_length (by simp [hp])] at h1
        rw [h1, List.drop_of_length_le (by simp [hp])]
        rfl
      have hsplit : bytes = 0 :: (p ++ bytes.drop 13) := by
        conv_lhs => rw [← List.take_append_drop 13 bytes, htake]
        rfl
      obtain ⟨hcons, hlive1⟩ := serverHandleMessage_consumed playerI
        (p ++ bytes.drop 13) players (by rw [List.length_append, hp]; omega) hlive
      obtain ⟨j, incomplete, players2, hscan, hinc, hlt, hlive2⟩ :=
        ih (fun q hq => hlen q (List.mem_cons_of_mem _ hq)) (bytes.drop 13) rest
          (copyPosition players playerI (p ++ bytes.drop 13)) (handled ++ [(0, p)]) hdrop hlive1
      refine ⟨j + 1, incomplete, players2, ?_, by simpa using hinc, hlt, hlive2⟩
      rw [hsplit]
      simp only [scanMessages, hcons]
      have htp : (p ++ bytes.drop 13).take 12 = p := by
        rw [← hp, List.take_left]
      have hskip := scanMessages_skip (serverHandleMessage playerI) p (bytes.drop 13)
        (copyPosition players playerI (p ++ bytes.drop 13)) (handled ++ [(0, p)])
      rw [hp] at hskip
      rw [htp, hskip, hscan]
      simp

theorem storeIncomplete_ok (asyncRead : AsyncRead) (incomplete : List Nat)
    (hlen : asyncRead.incompleteMessage.length = 12) (hinc : incomplete.length < 13) :
    ∃ im, storeIncomplete asyncRead incomplete
        = .ok { incompleteMessageLength := incomplete.length, incompleteMessage := im } ∧
      im.take incomplete.length = incomplete ∧ im.length = 12 := by
  have hle : incomplete.length ≤ asyncRead.incompleteMessage.length := by omega
  refine ⟨memcpyInspect asyncRead.incompleteMessage 0 incomplete, ?_, ?_, ?_⟩
  · simp [storeIncomplete, hle]
  · simp [memcpyInspect]
  · simp only [memcpyInspect, List.take_zero, List.nil_append, List.length_append,
      List.length_drop, Nat.zero_add]
    omega

theorem readLoop_updatePos (playerI : Nat) (handleEndOfStream : HoleyArray Player → HoleyArray Player)
    (asyncRead : AsyncRead) (hlen : asyncRead.incompleteMessage.length = 12) :
    ∀ (events : List ReadEvent), (∀ e ∈ events, ∃ n, e = .ready n) →
    ∀ (payloads : List (List Nat)), (∀ p ∈ payloads, p.length = 12) →
    ∀ (stream incomplete : List Nat) (players : HoleyArray Player)
      (handled : List (Nat × List Nat)),
      incomplete ++ stream = updatePosStream payloads → incomplete.length < 13 →
      (players.index playerI).isSome = true →
      ∃ j, UpdatePosProgress playerI payloads handled
        (readLoop (serverHandleMessage playerI) handleEndOfStream asyncRead events stream
          incomplete players handled) j := by
  intro events
  induction events with
  | nil =>
    intro _ payloads _ stream incomplete players handled hstream hshort hlive
    obtain ⟨im, hstore, htake, himlen⟩ := storeIncomplete_ok asyncRead incomplete hlen hshort
    have hcount : maxMessageLength * maxMessagesToReceiveAtOnce - incomplete.length ≠ 0 := by
      simp only [maxMessageLength, maxMessagesToReceiveAtOnce]; omega
    refine ⟨0, ?_⟩
    simp only [readLoop, read, hcount, if_false, hstore]
    exact ⟨rfl, by simp, himlen, by simpa [htake] using hstream, hshort, hlive,
      fun e he => absurd he (List.not_mem_nil _)⟩
  | cons e rest ih =>
    intro hev payloads hpl stream incomplete players handled hstream hshort hlive
    obtain ⟨n, rfl⟩ := hev e (List.mem_cons_self _ _)
    have hrest : ∀ e ∈ rest, ∃ n, e = .ready n := fun e he => hev e (List.mem_cons_of_mem _ he)
    have hcount : maxMessageLength * maxMessagesToReceiveAtOnce - incomplete.length ≠ 0 := by
      simp only [maxMessageLength, maxMessagesToReceiveAtOnce]; omega
    by_cases hm : min n (min (maxMessageLength * maxMessagesToReceiveAtOnce - incomplete.length)
        stream.length) = 0
    · obtain ⟨im, hstore, htake, himlen⟩ := storeIncomplete_ok asyncRead incomplete hlen hshort
      refine ⟨0, ?_⟩
      simp only [readLoop, read, hcount, if_false, hm, if_true, hstore]
      exact ⟨rfl, by simp, himlen, by simpa [htake] using hstream, hshort, hlive, hrest⟩
    · obtain ⟨j1, inc1, players1, hscan, hinc1, hshort1, hlive1⟩ :=
        scanMessages_updatePos playerI payloads hpl
          (incomplete ++ stream.take (min n (min (maxMessageLength * maxMessagesToReceiveAtOnce
            - incomplete.length) stream.length)))
          (stream.drop (min n (min (maxMessageLength * maxMessagesToReceiveAtOnce
            - incomplete.length) stream.length)))
          players handled (by rw [List.append_assoc, List.take_append_drop]; exact hstream) hlive
      have hdl : (stream.take (min n (min (maxMessageLength * maxMessagesToReceiveAtOnce
            - incomplete.length) stream.length))).length
          = min n (min (maxMessageLength * maxMessagesToReceiveAtOnce - incomplete.length)
            stream.length) := by
        rw [List.length_take]; omega
      obtain ⟨j2, h2⟩ := ih hrest (payloads.drop j1)
        (fun p hp => hpl p (List.mem_of_mem_drop hp))
        (stream.drop (min n (min (maxMessageLength * maxMessagesToReceiveAtOnce
            - incomplete.length) stream.length))) inc1 players1
        (handled ++ (payloads.take j1).map (fun p => (0, p))) hinc1 hshort1 hlive1
      refine ⟨j1 + j2, ?_⟩
      simp only [readLoop, read, hcount, if_false, hm, hscan, hdl]
      refine ⟨h2.ending, ?_, h2.length, ?_, h2.short, h2.live, h2.ready⟩
      · rw [h2.handled, List.append_assoc, ← List.map_append, List.take_add]
      · rw [h2.rest, List.drop_drop, Nat.add_comm]

theorem updatePosStream_length (payloads : List (List Nat))
    (hlen : ∀ p ∈ payloads, p.length = 12) :
    (updatePosStream payloads).length = 13 * payloads.length := by
  induction payloads with
  | nil => rfl
  | cons p ps ih =>
    rw [updatePosStream_cons, List.length_append, List.length_cons,
      hlen p (List.mem_cons_self _ _), ih (fun q hq => hlen q (List.mem_cons_of_mem _ hq)),
      List.length_cons]
    omega

theorem readableCalls_updatePos (playerI : Nat)
    (handleEndOfStream : HoleyArray Player → HoleyArray Player) :
    ∀ (calls : Nat) (payloads : List (List Nat)), (∀ p ∈ payloads, p.length = 12) →
    ∀ (asyncRead : AsyncRead) (inbound : Inbound) (players : HoleyArray Player)
      (handled : List (Nat × List Nat)),
      asyncRead.incompleteMessage.length = 12 →
      asyncRead.incompleteMessage.take asyncRead.incompleteMessageLength ++ inbound.stream
        = updatePosStream payloads →
      asyncRead.incompleteMessageLength < 13 →
      (players.index playerI).isSome = true →
      (∀ e ∈ inbound.events, ∃ n, e = .ready n) →
      ∃ j, UpdatePosProgress playerI payloads handled
        (readableCalls (serverHandleMessage playerI) handleEndOfStream calls asyncRead inbound
          players handled) j := by
  intro calls
  induction calls with
  | zero =>
    intro payloads _ asyncRead inbound players handled hlen hrest hshort hlive hev
    exact ⟨0, rfl, by simp [readableCalls], hlen, by simpa using hrest, hshort, hlive, hev⟩
  | succ calls ih =>
    intro payloads hpl asyncRead inbound players handled hlen hrest hshort hlive hev
    obtain ⟨j1, h1⟩ := readLoop_updatePos playerI handleEndOfStream asyncRead hlen
      inbound.events hev payloads hpl inbound.stream
      (asyncRead.incompleteMessage.take asyncRead.incompleteMessageLength) players [] hrest
      (by rw [List.length_take]; omega) hlive
    obtain ⟨j2, h2⟩ := ih (payloads.drop j1) (fun p hp => hpl p (List.mem_of_mem_drop hp))
      _ _ _ (handled ++ (payloads.take j1).map (fun p => (0, p))) h1.length h1.rest h1.short
      h1.live h1.ready
    refine ⟨j1 + j2, ?_⟩
    have hend := h1.ending
    have hh := h1.handled
    unfold handleMessageStreamReadable at *
    simp only [readableCalls, handleMessageStreamReadable, hend, hh, List.nil_append] at h2 ⊢
    refine ⟨h2.ending, ?_, h2.length, ?_, h2.short, h2.live, h2.ready⟩
    · rw [h2.handled, List.append_assoc, ← List.map_append, List.take_add]
    · rw [h2.rest, List.drop_drop, Nat.add_comm]

/-- C7. Let the peer send the concatenation of `k` well-formed `UPDATE_POS`
messages (type byte 0 and 12 payload bytes each) and let the kernel deliver it
in any way: every `read()` returns a non-empty chunk no longer than the space
offered or would-block, over any number of calls of
`handleMessageStreamReadable` on the same `AsyncRead`.  Then every call
returns on would-block, the server handler's successful invocations so far are
exactly the first `j` messages with their own payloads in sent order, the
stored incomplete message (shorter than 13 bytes) followed by the unread bytes
is the rest of the stream, and once the whole stream has been read all `k`
messages have been handled and the stored incomplete-message length is 0. -/
theorem frame_reader_delivers_update_pos (playerI : Nat) (players : HoleyArray Player)
    (hlive : (players.index playerI).isSome = true) (payloads : List (List Nat))
    (hlen : ∀ p ∈ payloads, p.length = 12) (events : List ReadEvent)
    (hev : ∀ e ∈ events, ∃ n, e = .ready n) (calls : Nat) :
    (readableCalls (serverHandleMessage playerI)
        (fun s => (handleClientDisconnected s playerI).1) calls AsyncRead.initial
        { stream := updatePosStream payloads, events := events } players []).ending
      = .wouldBlock ∧
    (∃ j,
      (readableCalls (serverHandleMessage playerI)
          (fun s => (handleClientDisconnected s playerI).1) calls AsyncRead.initial
          { stream := updatePosStream payloads, events := events } players []).handled
        = (payloads.take j).map (fun p => (0, p)) ∧
      (readableCalls (serverHandleMessage playerI)
          (fun s => (handleClientDisconnected s playerI).1) calls AsyncRead.initial
          { stream := updatePosStream payloads, events := events } players []).asyncRead.incompleteMessage.take
          (readableCalls (serverHandleMessage playerI)
            (fun s => (handleClientDisconnected s playerI).1) calls AsyncRead.initial
            { stream := updatePosStream payloads, events := events }
            players []).asyncRead.incompleteMessageLength
        ++ (readableCalls (serverHandleMessage playerI)
            (fun s => (handleClientDisconnected s playerI).1) calls AsyncRead.initial
            { stream := updatePosStream payloads, events := events } players []).inbound.stream
        = updatePosStream (payloads.drop j) ∧
      (readableCalls (serverHandleMessage playerI)
          (fun s => (handleClientDisconnected s playerI).1) calls AsyncRead.initial
          { stream := updatePosStream payloads, events := events }
          players []).asyncRead.incompleteMessageLength < 13) ∧
    ((readableCalls (serverHandleMessage playerI)
        (fun s => (handleClientDisconnected s playerI).1) calls AsyncRead.initial
        { stream := updatePosStream payloads, events := events } players []).inbound.stream = [] →
      (readableCalls (serverHandleMessage playerI)
          (fun s => (handleClientDisconnected s playerI).1) calls AsyncRead.initial
          { stream := updatePosStream payloads, events := events } players []).handled
        = payloads.map (fun p => (0, p)) ∧
      (readableCalls (serverHandleMessage playerI)
          (fun s => (handleClientDisconnected s playerI).1) calls AsyncRead.initial
          { stream := updatePosStream payloads, events := events }
          players []).asyncRead.incompleteMessageLength = 0) := by
  obtain ⟨j, h⟩ := readableCalls_updatePos playerI
    (fun s => (handleClientDisconnected s playerI).1) calls payloads hlen AsyncRead.initial
    { stream := updatePosStream payloads, events := events } players [] rfl rfl (by decide)
    hlive hev
  have hhandled := h.handled
  rw [List.nil_append] at hhandled
  refine ⟨h.ending, ⟨j, hhandled, h.rest, h.short⟩, fun hempty => ?_⟩
  have hrest := h.rest
  rw [hempty, List.append_nil] at hrest
  have hl := congrArg List.length hrest
  rw [updatePosStream_length _ (fun p hp => hlen p (List.mem_of_mem_drop hp)),
    List.length_take] at hl
  have hshort := h.short
  have hdrop : (payloads.drop j).length = 0 := by omega
  have hj : payloads.length ≤ j := by
    rw [List.length_drop] at hdrop; omega
  refine ⟨by rw [hhandled, List.take_of_length_le hj], ?_⟩
  rw [hdrop, h.length] at hl
  omega

/-- Witness for C7: two messages for the player in slot 4, delivered as chunks
of 5 and 3 bytes, a would-block, then chunks of 7 and 11 bytes, over three
calls. -/
theorem frame_reader_delivers_update_pos_witness :
    (readableCalls (serverHandleMessage 4) (fun s => (handleClientDisconnected s 4).1) 3
        AsyncRead.initial
        { stream := updatePosStream [[1, 0, 0, 0, 2, 0, 0, 0, 3, 0, 0, 0],
            [255, 255, 255, 255, 5, 0, 0, 0, 6, 0, 0, 0]]
          events := [.ready 5, .ready 3, .ready 0, .ready 7, .ready 100] }
        { mem := [none, none, none, none, some Player.construct]
          capacity := 5
          holeIs := [0, 1, 2, 3] } []).handled
      = [(0, [1, 0, 0, 0, 2, 0, 0, 0, 3, 0, 0, 0]),
         (0, [255, 255, 255, 255, 5, 0, 0, 0, 6, 0, 0, 0])] ∧
    (readableCalls (serverHandleMessage 4) (fun s => (handleClientDisconnected s 4).1) 3
        AsyncRead.initial
        { stream := updatePosStream [[1, 0, 0, 0, 2, 0, 0, 0, 3, 0, 0, 0],
            [255, 255, 255, 255, 5, 0, 0, 0, 6, 0, 0, 0]]
          events := [.ready 5, .ready 3, .ready 0, .ready 7, .ready 100] }
        { mem := [none, none, none, none, some Player.construct]
          capacity := 5
          holeIs := [0, 1, 2, 3] } []).asyncRead.incompleteMessageLength = 0 :=
  (frame_reader_delivers_update_pos 4
    { mem := [none, none, none, none, some Player.construct]
      capacity := 5
      holeIs := [0, 1, 2, 3] } (by decide)
    [[1, 0, 0, 0, 2, 0, 0, 0, 3, 0, 0, 0], [255, 255, 255, 255, 5, 0, 0, 0, 6, 0, 0, 0]]
    (by decide) [.ready 5, .ready 3, .ready 0, .ready 7, .ready 100]
    (by simp) 3).2.2 (by decide)

/-! ## Lemmas: the write side -/

theorem writeAsMuchAsPossible_done (events : List WriteEvent) (src : List Nat) (pos : Nat)
    (accepted : List Nat) (hz : src.length - pos = 0) :
    writeAsMuchAsPossible events src pos accepted = some (src.length, accepted, events) := by
  cases events with
  | nil => simp only [writeAsMuchAsPossible, hz, if_true]
  | cons e rest => cases e <;> simp only [writeAsMuchAsPossible, hz, if_true]

theorem writeAsMuchAsPossible_spec :
    ∀ (events : List WriteEvent) (src : List Nat) (pos : Nat) (accepted : List Nat)
      (written : Nat) (accepted1 : List Nat) (events1 : List WriteEvent),
      pos ≤ src.length →
      writeAsMuchAsPossible events src pos accepted = some (written, accepted1, events1) →
      pos ≤ written ∧ written ≤ src.length ∧
        accepted1 = accepted ++ (src.drop pos).take (written - pos) := by
  intro events
  induction events with
  | nil =>
    intro src pos accepted written accepted1 events1 hpos h
    by_cases hz : src.length - pos = 0
    · rw [writeAsMuchAsPossible_done _ _ _ _ hz, Option.some.injEq, Prod.mk.injEq,
        Prod.mk.injEq] at h
      obtain ⟨rfl, rfl, _⟩ := h
      refine ⟨hpos, Nat.le_refl _, ?_⟩
      rw [hz]
      simp
    · simp only [writeAsMuchAsPossible, hz, if_false] at h
      exact Option.noConfusion h
  | cons e rest ih =>
    intro src pos accepted written accepted1 events1 hpos h
    by_cases hz : src.length - pos = 0
    · rw [writeAsMuchAsPossible_done _ _ _ _ hz, Option.some.injEq, Prod.mk.injEq,
        Prod.mk.injEq] at h
      obtain ⟨rfl, rfl, _⟩ := h
      refine ⟨hpos, Nat.le_refl _, ?_⟩
      rw [hz]
      simp
    · cases e with
      | wouldBlock =>
        simp only [writeAsMuchAsPossible, hz, if_false] at h
        exact Option.noConfusion h
      | failure =>
        simp only [writeAsMuchAsPossible, hz, if_false, Option.some.injEq, Prod.mk.injEq] at h
        obtain ⟨rfl, rfl, _⟩ := h
        exact ⟨Nat.le_refl _, hpos, by simp⟩
      | accept n =>
        by_cases hm : 0 < min n (src.length - pos)
        · simp only [writeAsMuchAsPossible, hz, if_false, hm, if_true] at h
          obtain ⟨h1, h2, h3⟩ := ih src (pos + min n (src.length - pos))
            (accepted ++ (src.drop pos).take (min n (src.length - pos))) written accepted1
            events1 (by omega) h
          refine ⟨by omega, h2, ?_⟩
          rw [h3, List.append_assoc]
          congr 1
          have hsum : written - pos
              = min n (src.length - pos) + (written - (pos + min n (src.length - pos))) := by
            omega
          rw [hsum, List.take_add, List.drop_drop]
        · simp only [writeAsMuchAsPossible, hz, if_false, hm, Option.some.injEq,
            Prod.mk.injEq] at h
          obtain ⟨rfl, rfl, _⟩ := h
          exact ⟨Nat.le_refl _, hpos, by simp⟩

theorem scheduleSocketWrite_buffered (socket : SocketOut) (src : List Nat)
    (hbuf : socket.asyncWrite.buf ≠ []) :
    ∃ socket2, scheduleSocketWrite socket src = some socket2 ∧
      socket2.outbound.accepted = socket.outbound.accepted ∧
      socket2.outbound.events = socket.outbound.events ∧
      socket2.asyncWrite.buf = socket.asyncWrite.buf ++ src := by
  have hb : socket.asyncWrite.buf.isEmpty = false := by
    cases hl : socket.asyncWrite.buf with
    | nil => exact absurd hl hbuf
    | cons a l => rfl
  by_cases hsrc : src = []
  · subst hsrc
    refine ⟨{ socket with outbound := { socket.outbound with
        accepted := socket.outbound.accepted, events := socket.outbound.events } }, ?_, rfl, rfl,
      by simp⟩
    simp [scheduleSocketWrite, hb]
  · have hall : ¬ (0 = src.length) := fun h0 => hsrc (List.length_eq_zero.mp h0.symm)
    refine ⟨{ asyncWrite := { buf := socket.asyncWrite.buf ++ src.drop 0
                              willNotifyOnWritable := true }
              outbound := { accepted := socket.outbound.accepted
                            events := socket.outbound.events
                            epollOut := if socket.asyncWrite.willNotifyOnWritable
                              then socket.outbound.epollOut else true } }, ?_, rfl, rfl, by simp⟩
    simp [scheduleSocketWrite, hb, hall]

theorem scheduleSocketWrite_stream (socket socket1 : SocketOut) (src : List Nat)
    (h : scheduleSocketWrite socket src = some socket1) :
    socket1.outbound.accepted ++ socket1.asyncWrite.buf
      = socket.outbound.accepted ++ socket.asyncWrite.buf ++ src := by
  by_cases hbuf : socket.asyncWrite.buf = []
  · have hb : socket.asyncWrite.buf.isEmpty = true := List.isEmpty_iff.mpr hbuf
    unfold scheduleSocketWrite at h
    rw [hb] at h
    cases hw : writeAsMuchAsPossible socket.outbound.events src 0 socket.outbound.accepted with
    | none =>
      rw [if_pos rfl, hw] at h
      exact Option.noConfusion h
    | some r =>
      obtain ⟨written, accepted1, events1⟩ := r
      obtain ⟨_, hle, hacc⟩ := writeAsMuchAsPossible_spec _ _ _ _ _ _ _ (Nat.zero_le _) hw
      rw [if_pos rfl, hw] at h
      by_cases hall : written = src.length
      · simp only [hall, if_true, Option.some.injEq] at h
        subst h
        simp only [hbuf, List.append_nil, hacc, hall, Nat.sub_zero, List.drop_zero,
          List.take_length]
      · simp only [hall, if_false, Option.some.injEq] at h
        subst h
        simp only [hbuf, List.append_nil, List.nil_append, hacc, Nat.sub_zero, List.drop_zero,
          List.append_assoc, List.take_append_drop]
  · obtain ⟨socket2, h2, ha, _, hb2⟩ := scheduleSocketWrite_buffered socket src hbuf
    rw [h2, Option.some.injEq] at h
    subst h
    rw [ha, hb2, List.append_assoc]

theorem handleMessageStreamWritable_stream (socket socket1 : SocketOut)
    (h : handleMessageStreamWritable socket = some socket1) :
    socket1.outbound.accepted ++ socket1.asyncWrite.buf
      = socket.outbound.accepted ++ socket.asyncWrite.buf := by
  unfold handleMessageStreamWritable at h
  cases hw : writeAsMuchAsPossible socket.outbound.events socket.asyncWrite.buf 0
      socket.outbound.accepted with
  | none => simp [hw] at h
  | some r =>
    obtain ⟨written, accepted1, events1⟩ := r
    obtain ⟨_, hle, hacc⟩ := writeAsMuchAsPossible_spec _ _ _ _ _ _ _ (Nat.zero_le _) hw
    simp only [hw, Option.some.injEq] at h
    subst h
    have htake : (socket.asyncWrite.buf.drop written).take (socket.asyncWrite.buf.length - written)
        = socket.asyncWrite.buf.drop written := by
      apply List.take_of_length_le
      rw [List.length_drop]
    simp only [hacc, Nat.sub_zero, List.drop_zero, htake, List.append_assoc,
      List.take_append_drop]

theorem runWriteOps_stream (ops : List WriteOp) :
    ∀ (socket socket1 : SocketOut), runWriteOps socket ops = some socket1 →
      socket1.outbound.accepted ++ socket1.asyncWrite.buf
        = socket.outbound.accepted ++ socket.asyncWrite.buf ++ scheduledBytes ops := by
  induction ops with
  | nil =>
    intro socket socket1 h
    simp only [runWriteOps, Option.some.injEq] at h
    subst h
    simp [scheduledBytes]
  | cons op ops ih =>
    intro socket socket1 h
    cases op with
    | schedule src =>
      cases hs : scheduleSocketWrite socket src with
      | none => simp [runWriteOps, hs] at h
      | some socket2 =>
        simp only [runWriteOps, hs] at h
        rw [ih socket2 socket1 h, scheduleSocketWrite_stream socket socket2 src hs]
        simp [scheduledBytes]
    | writable =>
      cases hs : handleMessageStreamWritable socket with
      | none => simp [runWriteOps, hs] at h
      | some socket2 =>
        simp only [runWriteOps, hs] at h
        rw [ih socket2 socket1 h, handleMessageStreamWritable_stream socket socket2 hs]
        simp [scheduledBytes]

/-- C8. For every socket, every sequence of `scheduleSocketWrite` and
`handleMessageStreamWritable` calls and every behaviour of `write()` (each call
accepting any prefix of what it is offered, or failing), whenever the calls
have returned, the bytes accepted by `write()` so far followed by the contents
of `asyncWrite.buf` are the concatenation of all scheduled payloads in call
order.  In particular `scheduleSocketWrite` called while earlier bytes are
still buffered returns without calling `write()` and appends the whole payload
to the buffer. -/
theorem write_stream_order (events : List WriteEvent) (flag : Bool) (ops : List WriteOp)
    (socket1 : SocketOut)
    (hrun : runWriteOps (SocketOut.initial events flag) ops = some socket1) :
    socket1.outbound.accepted ++ socket1.asyncWrite.buf = scheduledBytes ops ∧
    (∀ (socket : SocketOut) (src : List Nat), socket.asyncWrite.buf ≠ [] →
      ∃ socket2, scheduleSocketWrite socket src = some socket2 ∧
        socket2.outbound.accepted = socket.outbound.accepted ∧
        socket2.outbound.events = socket.outbound.events ∧
        socket2.asyncWrite.buf = socket.asyncWrite.buf ++ src) := by
  refine ⟨?_, ?_⟩
  · have h := runWriteOps_stream ops (SocketOut.initial events flag) socket1 hrun
    simpa [SocketOut.initial] using h
  · intro socket src hbuf
    exact scheduleSocketWrite_buffered socket src hbuf

/-- Witness for C8: `write()` accepts 3 of 5 bytes and then fails, a second
payload is scheduled behind the buffered rest, the writable notification
drains the buffer and a third payload is written inline. -/
theorem write_stream_order_witness :
    ∃ socket1,
      runWriteOps (SocketOut.initial [.accept 3, .failure, .accept 100, .accept 100] false)
        [.schedule [1, 2, 3, 4, 5], .schedule [6, 7], .writable, .schedule [8]]
        = some socket1 ∧
      socket1.outbound.accepted ++ socket1.asyncWrite.buf = [1, 2, 3, 4, 5, 6, 7, 8] :=
  ⟨_, rfl, (write_stream_order [.accept 3, .failure, .accept 100, .accept 100] false
    [.schedule [1, 2, 3, 4, 5], .schedule [6, 7], .writable, .schedule [8]] _ rfl).1⟩

/-! ## The iteration order of `foreach` -/

theorem liveSlots_length_of_sorted {El : Type} (arr : HoleyArray El)
    (hs : arr.holeIs.Pairwise (fun a b => a < b)) (hb : ∀ h ∈ arr.holeIs, h < arr.capacity) :
    (liveSlots arr).length = size arr := by
  have h1 := List.length_eq_countP_add_countP (p := fun i => decide (i ∈ arr.holeIs))
    (List.range arr.capacity)
  have h2 := filter_mem_length arr.capacity arr.holeIs (pairwise_lt_nodup hs) hb
  rw [← List.countP_eq_length_filter] at h2
  rw [List.length_range, h2] at h1
  unfold liveSlots size
  rw [← List.countP_eq_length_filter]
  have h3 : List.countP (fun i => decide (i ∉ arr.holeIs)) (List.range arr.capacity)
      = List.countP (fun a => decide ¬(decide (a ∈ arr.holeIs)) = true)
          (List.range arr.capacity) := by
    congr 1
    funext i
    simp
  omega

/-- C11. For every `HoleyArray` whose `holeIs` is strictly ascending with
entries below `capacity`, the calls `f(filledI, oI, arr[oI])` made by `foreach`
are, in order, the slots below `capacity` that are not in `holeIs` in strictly
ascending order, each exactly once and no hole among them; the `filledI` of
the `n`-th call is `n` (the number of live slots visited before it), and the
number of calls is `size(arr)`. -/
theorem foreach_visits_live_slots_ascending {El : Type} (arr : HoleyArray El)
    (hs : arr.holeIs.Pairwise (fun a b => a < b)) (hb : ∀ h ∈ arr.holeIs, h < arr.capacity) :
    holeyArrayForeachImpl arr = (liveSlots arr).enum ∧
    (holeyArrayForeachImpl arr).map Prod.snd = liveSlots arr ∧
    (holeyArrayForeachImpl arr).map Prod.fst = List.range (size arr) ∧
    (∀ i, i ∈ (holeyArrayForeachImpl arr).map Prod.snd ↔ i < arr.capacity ∧ i ∉ arr.holeIs) ∧
    ((holeyArrayForeachImpl arr).map Prod.snd).Pairwise (fun a b => a < b) ∧
    ((holeyArrayForeachImpl arr).map Prod.snd).Nodup ∧
    (∀ (σ : Type) (f : Nat → Nat → Option El → σ → σ) (init : σ),
      foreach arr f init
        = (liveSlots arr).enum.foldl (fun s c => f c.1 c.2 (arr.index c.2) s) init) := by
  have heq := holeyArrayForeachImpl_eq arr hs
  have hsnd : (holeyArrayForeachImpl arr).map Prod.snd = liveSlots arr := by
    rw [heq]; exact enum_map_snd _
  refine ⟨heq, hsnd, ?_, ?_, ?_, ?_, ?_⟩
  · rw [heq, ← liveSlots_length_of_sorted arr hs hb]
    exact List.enum_map_fst _
  · intro i
    rw [hsnd]
    exact mem_liveSlots arr i
  · rw [hsnd]
    exact liveSlots_pairwise arr
  · rw [hsnd]
    exact liveSlots_nodup arr
  · intro σ f init
    unfold foreach
    rw [heq]

/-- Witness for C11: capacity 6 with holes 1, 2 and 5; the calls are
`f(0, 0, _)`, `f(1, 3, _)`, `f(2, 4, _)`. -/
theorem foreach_visits_live_slots_ascending_witness :
    holeyArrayForeachImpl
        ({ mem := [some 7, none, none, some 8, some 9, none], capacity := 6
           holeIs := [1, 2, 5] } : HoleyArray Nat)
      = [(0, 0), (1, 3), (2, 4)] :=
  (foreach_visits_live_slots_ascending
    ({ mem := [some 7, none, none, some 8, some 9, none], capacity := 6
       holeIs := [1, 2, 5] } : HoleyArray Nat) (by decide) (by decide)).1.trans (by decide)

/-! ## Insert-then-remove on a holey array -/

theorem vectorInsert_lowerBound_of_lt (v : List Nat) (h : Nat) (hlt : ∀ x ∈ v, x < h) :
    vectorInsert v (lowerBound v h) h = v ++ [h] := by
  induction v with
  | nil => rfl
  | cons x v ih =>
    rw [vectorInsert_lowerBound_cons, if_pos (hlt x (List.mem_cons_self _ _)),
      ih (fun y hy => hlt y (List.mem_cons_of_mem _ hy))]
    rfl

theorem eq_of_pairwise_lt_of_mem_iff (l1 l2 : List Nat) (h1 : l1.Pairwise (fun a b => a < b))
    (h2 : l2.Pairwise (fun a b => a < b)) (hmem : ∀ i, i ∈ l1 ↔ i ∈ l2) : l1 = l2 :=
  List.eq_of_perm_of_sorted
    ((List.perm_ext_iff_of_nodup (pairwise_lt_nodup h1) (pairwise_lt_nodup h2)).mpr hmem) h1 h2

theorem emplace_destroy_roundtrip {El : Type} (arr : HoleyArray El) (hinv : arr.Inv)
    (hcap : arr.holeIs ≠ [] ∨ 2 ≤ arr.capacity) (create : Nat → El) :
    ∃ h arr1, emplace arr create = some (h, arr1) ∧
      liveSlots (destroy arr1 h) = liveSlots arr ∧
      (∀ i, (destroy arr1 h).index i = arr.index i) ∧
      (destroy arr1 h).Inv ∧
      (destroy arr1 h).capacity = arr1.capacity ∧
      ∀ create2 : Nat → El, ∃ arr3, emplace (destroy arr1 h) create2 = some (h, arr3) := by
  obtain ⟨h, arr1, he, hs⟩ := emplace_spec arr create hinv hcap
  have hh1 := (mem_liveSlots arr1 h).mp hs.isLive
  have hinv2 := destroy_inv arr1 h hs.inv hh1.1 hh1.2
  have hsorted : (arr1.holeIs ++ [h]).Pairwise (fun a b => a < b) := by
    rw [← hs.last]; exact (emplaceGrow_inv arr hinv).sorted
  have hlt : ∀ x ∈ arr1.holeIs, x < h := fun x hx =>
    (List.pairwise_append.mp hsorted).2.2 x hx h (List.mem_singleton_self h)
  have hholes : (destroy arr1 h).holeIs = arr1.holeIs ++ [h] :=
    vectorInsert_lowerBound_of_lt arr1.holeIs h hlt
  refine ⟨h, arr1, he, ?_, ?_, hinv2, rfl, ?_⟩
  · apply eq_of_pairwise_lt_of_mem_iff _ _ (liveSlots_pairwise _) (liveSlots_pairwise _)
    intro i
    rw [mem_liveSlots_destroy, hs.slots]
    constructor
    · rintro ⟨rfl | hi, hne⟩
      · exact absurd rfl hne
      · exact hi
    · intro hi
      exact ⟨Or.inr hi, fun hih => hs.notLive (hih ▸ hi)⟩
  · intro i
    rw [destroy_index arr1 h i (by rw [hs.inv.memLength]; exact hh1.1)]
    by_cases hi : h = i
    · subst hi
      rw [if_pos rfl]
      cases hv : arr.index h with
      | none => rfl
      | some v => exact absurd (mem_liveSlots_of_index arr hinv h v hv) hs.notLive
    · rw [if_neg hi]
      exact hs.frame i (Ne.symm hi)
  · intro create2
    have hne : (destroy arr1 h).holeIs ≠ [] := by rw [hholes]; simp
    have hl : (destroy arr1 h).holeIs.getLast? = some h := by rw [hholes]; simp
    unfold emplace
    rw [emplaceGrow_of_ne_nil _ hne]
    simp only [hl]
    exact ⟨_, rfl⟩

/-- C12. For every `HoleyArray` built with an initial capacity of at least 2
and taken through any sequence of `emplace` and `destroy`-of-a-live-slot
operations: `emplace` returns a slot `h` (growing the storage when needed),
and after `destroy(h)` the live slots are those from before the `emplace` and
`operator[]` yields the same object at every index; the next `emplace` returns
the same slot `h` again. -/
theorem emplace_then_destroy_is_identity {El : Type} (c : Nat) (hc : 2 ≤ c)
    (ops : List (HoleyOp El))
    (hlive : destroysLive (HoleyArray.construct c : HoleyArray El) ops = true)
    (create : Nat → El) :
    ∃ arr h arr1, applyOps (HoleyArray.construct c) ops = some arr ∧
      emplace arr create = some (h, arr1) ∧
      liveSlots (destroy arr1 h) = liveSlots arr ∧
      (∀ i, (destroy arr1 h).index i = arr.index i) ∧
      ∀ create2 : Nat → El, ∃ arr3, emplace (destroy arr1 h) create2 = some (h, arr3) := by
  obtain ⟨arr, h1, h2, h3⟩ :=
    applyOps_inv ops (HoleyArray.construct c) (construct_inv c) hc hlive
  obtain ⟨h, arr1, he, hl, hi, _, _, hn⟩ := emplace_destroy_roundtrip arr h2 (Or.inr h3) create
  exact ⟨arr, h, arr1, h1, he, hl, hi, hn⟩

/-- Witness for C12: a table of capacity 2 that is full, so that the `emplace`
grows it to capacity 3 and returns slot 2; after `destroy(2)` the live slots
are 0 and 1 again and the next `emplace` returns slot 2. -/
theorem emplace_then_destroy_is_identity_witness :
    ∃ arr h arr1,
      applyOps (HoleyArray.construct 2 : HoleyArray Nat)
        [.emplace (fun i => i + 10), .emplace (fun i => i + 10)] = some arr ∧
      emplace arr (fun i => i + 20) = some (h, arr1) ∧
      liveSlots (destroy arr1 h) = liveSlots arr ∧
      (∀ i, (destroy arr1 h).index i = arr.index i) ∧
      ∀ create2 : Nat → Nat, ∃ arr3, emplace (destroy arr1 h) create2 = some (h, arr3) :=
  emplace_then_destroy_is_identity 2 (by decide)
    [.emplace (fun i => i + 10), .emplace (fun i => i + 10)] (by decide) (fun i => i + 20)

/-! ## The growth step of `emplace` -/

theorem growth_eq_small (c : Nat) (hsmall : c < 8388608) :
    growthMultiplierNum * c / growthMultiplierDen = 8 * c / 5 := by
  unfold growthMultiplierNum growthMultiplierDen
  omega

theorem specCeilCapacity_small (c : Nat) (hpos : 0 < c) (hsmall : c < 8388608) :
    specCeilCapacity c = 8 * c / 5 + 1 := by
  unfold specCeilCapacity growthMultiplierNum growthMultiplierDen
  apply Nat.div_eq_of_lt_le
  · show (8 * c / 5 + 1) * 8388608 ≤ 13421773 * c + (8388608 - 1)
    omega
  · show 13421773 * c + (8388608 - 1) < (8 * c / 5 + 1 + 1) * 8388608
    omega

/-- C13 (as amended). Whenever `emplace` is called on a `HoleyArray` that has no
free slot and capacity `c >= 2`, it returns, and the capacity afterwards is
`floor(growthMultiplier * c)` for `growthMultiplier = 1.6f`: greater than `c`,
at least `3 * c / 2` and less than `2 * c`.  For `c < 2^23` this is
`floor(8 * c / 5)`, one less than `ceil(growthMultiplier * c)`.  The slot
returned is the last new one, `capacity - 1`. -/
theorem emplace_growth_capacity {El : Type} (arr : HoleyArray El) (hnil : arr.holeIs = [])
    (hc : 2 ≤ arr.capacity) (create : Nat → El) :
    ∃ h arr', emplace arr create = some (h, arr') ∧
      arr'.capacity = growthMultiplierNum * arr.capacity / growthMultiplierDen ∧
      arr.capacity < arr'.capacity ∧
      3 * arr.capacity / 2 ≤ arr'.capacity ∧
      arr'.capacity < 2 * arr.capacity ∧
      (arr.capacity < 8388608 →
        arr'.capacity = 8 * arr.capacity / 5 ∧
        arr'.capacity + 1 = specCeilCapacity arr.capacity) ∧
      h = arr'.capacity - 1 ∧
      arr'.holeIs = List.range' arr.capacity (arr'.capacity - 1 - arr.capacity) := by
  have hg := emplaceGrow_of_nil arr hnil
  have hlt := growth_lt arr.capacity hc
  have hsplit : List.range' arr.capacity
      (growthMultiplierNum * arr.capacity / growthMultiplierDen - arr.capacity)
      = List.range' arr.capacity
          (growthMultiplierNum * arr.capacity / growthMultiplierDen - 1 - arr.capacity)
        ++ [growthMultiplierNum * arr.capacity / growthMultiplierDen - 1] := by
    have hk : growthMultiplierNum * arr.capacity / growthMultiplierDen - arr.capacity
        = (growthMultiplierNum * arr.capacity / growthMultiplierDen - 1 - arr.capacity) + 1 := by
      omega
    rw [hk, List.range'_concat]
    congr 2
    omega
  refine ⟨growthMultiplierNum * arr.capacity / growthMultiplierDen - 1,
    { mem := (emplaceGrow arr).mem.set
        (growthMultiplierNum * arr.capacity / growthMultiplierDen - 1)
        (some (create (growthMultiplierNum * arr.capacity / growthMultiplierDen - 1)))
      capacity := growthMultiplierNum * arr.capacity / growthMultiplierDen
      holeIs := List.range' arr.capacity
        (growthMultiplierNum * arr.capacity / growthMultiplierDen - 1 - arr.capacity) },
    ?_, rfl, hlt, ?_, ?_, ?_, rfl, rfl⟩
  · unfold emplace
    simp only [hg, hsplit, List.getLast?_append, List.getLast?_singleton, List.dropLast_concat]
    rfl
  · show 3 * arr.capacity / 2 ≤ growthMultiplierNum * arr.capacity / growthMultiplierDen
    unfold growthMultiplierNum growthMultiplierDen
    omega
  · show growthMultiplierNum * arr.capacity / growthMultiplierDen < 2 * arr.capacity
    unfold growthMultiplierNum growthMultiplierDen
    omega
  · intro hsmall
    show growthMultiplierNum * arr.capacity / growthMultiplierDen = 8 * arr.capacity / 5 ∧
      growthMultiplierNum * arr.capacity / growthMultiplierDen + 1
        = specCeilCapacity arr.capacity
    rw [specCeilCapacity_small arr.capacity (by omega) hsmall,
      growth_eq_small arr.capacity hsmall]
    exact ⟨rfl, rfl⟩

/-- Witness for C13 (as amended): the full player table of capacity 5 grows to
capacity 8 and the new player gets slot 7. -/
theorem emplace_growth_capacity_witness :
    ∃ arr', emplace ({ mem := [some 0, some 1, some 2, some 3, some 4], capacity := 5, holeIs := [] } :
        HoleyArray Nat) (fun i => i) = some (7, arr') ∧
      arr'.capacity = 8 ∧ arr'.holeIs = [5, 6] := by
  obtain ⟨h, arr', he, hcap, _, _, _, _, hh, hholes⟩ :=
    emplace_growth_capacity ({ mem := [some 0, some 1, some 2, some 3, some 4], capacity := 5, holeIs := [] } :
        HoleyArray Nat) rfl (by decide) (fun i => i)
  have hcap8 : arr'.capacity = 8 := by rw [hcap]; decide
  rw [hcap8] at hh hholes
  subst hh
  exact ⟨arr', he, hcap8, hholes⟩

/-- C13 as stated fails: a full table of capacity 5 (the player table after
five joins) has capacity 8 after `emplace`, which is neither
`ceil(growthMultiplier * 5) = 9` nor at least `2 * 5`. -/
theorem emplace_growth_not_doubling :
    ∃ h arr', emplace ({ mem := [some 0, some 1, some 2, some 3, some 4], capacity := 5, holeIs := [] } :
        HoleyArray Nat) (fun i => i) = some (h, arr') ∧
      arr'.capacity = 8 ∧
      specCeilCapacity 5 = 9 ∧
      arr'.capacity ≠ specCeilCapacity 5 ∧
      ¬ (2 * 5 ≤ arr'.capacity) :=
  ⟨_, _, rfl, rfl, by decide, by decide, by decide⟩

/-! ## The server's message handler -/

theorem copyPosition_index (players : HoleyArray Player) (playerI : Nat) (scan : List Nat)
    (j : Nat) (hi : playerI < players.mem.length) :
    (copyPosition players playerI scan).index j
      = if playerI = j then
          some { position :=
                  { x := s32OfBytes ((scan.drop 0).take 4)
                    y := s32OfBytes ((scan.drop 4).take 4)
                    z := s32OfBytes ((scan.drop 8).take 4) } }
        else players.index j := by
  unfold HoleyArray.index copyPosition
  exact index_set players _ playerI j _ rfl hi

theorem copyPosition_inv (players : HoleyArray Player) (playerI : Nat) (scan : List Nat)
    (p : Player) (hp : players.index playerI = some p) (hinv : players.Inv) :
    (copyPosition players playerI scan).Inv where
  sorted := hinv.sorted
  bound := hinv.bound
  memLength := by simp [copyPosition, hinv.memLength]
  live := fun j hj => by
    have hlt := lt_length_of_index players playerI p hp
    rw [copyPosition_index players playerI scan j hlt]
    show _ ↔ j ∈ players.holeIs
    by_cases h : playerI = j
    · subst h
      have hl := ((mem_liveSlots players playerI).mp
        (mem_liveSlots_of_index players hinv playerI p hp)).2
      simp [hl]
    · rw [if_neg h]
      exact hinv.live j hj

/-- C14 (as amended). For the player in slot `playerI`, the server's message
handler on a message of type 0 with at least 12 payload bytes returns 12 and
sets that player's position to the three little-endian signed 32-bit integers
at payload offsets 0, 4 and 8; no other slot of the table, none of its holes
and not its capacity change.  On a message of type 0 with fewer than 12
payload bytes it returns -1 and changes nothing.  On a message of any other
type it does not return: `ASSERT(messageType == 0)` ends the process. -/
theorem server_handler_update_pos (players : HoleyArray Player) (playerI : Nat) (p : Player)
    (hp : players.index playerI = some p) (scan : List Nat) :
    (12 ≤ scan.length →
      ∃ players1, serverHandleMessage playerI 0 scan players = .consumed 12 players1 ∧
        players1.index playerI
          = some { position :=
                    { x := s32OfBytes ((scan.drop 0).take 4)
                      y := s32OfBytes ((scan.drop 4).take 4)
                      z := s32OfBytes ((scan.drop 8).take 4) } } ∧
        (∀ j, j ≠ playerI → players1.index j = players.index j) ∧
        players1.holeIs = players.holeIs ∧
        players1.capacity = players.capacity ∧
        liveSlots players1 = liveSlots players) ∧
    (scan.length < 12 → serverHandleMessage playerI 0 scan players = .incomplete) ∧
    (∀ messageType, messageType ≠ 0 →
      serverHandleMessage playerI messageType scan players = .fault .exit) := by
  have hlt := lt_length_of_index players playerI p hp
  refine ⟨fun h12 => ⟨copyPosition players playerI scan, ?_, ?_, ?_, rfl, rfl, rfl⟩, ?_, ?_⟩
  · exact (serverHandleMessage_consumed playerI scan players h12 (by rw [hp]; rfl)).1
  · rw [copyPosition_index players playerI scan playerI hlt, if_pos rfl]
  · intro j hj
    rw [copyPosition_index players playerI scan j hlt, if_neg (Ne.symm hj)]
  · exact serverHandleMessage_incomplete playerI scan players
  · intro messageType hne
    simp [serverHandleMessage, hne]

/-- Witness for C14 (as amended): the player in slot 4 of a two-player table gets
the position `(1, -2, 3)`; the player in slot 3 keeps `(0, 0, 0)`. -/
theorem server_handler_update_pos_witness :
    ∃ players1,
      serverHandleMessage 4 0 [1, 0, 0, 0, 254, 255, 255, 255, 3, 0, 0, 0]
        ({ mem := [none, none, none, some Player.construct, some Player.construct],
           capacity := 5, holeIs := [0, 1, 2] } : HoleyArray Player)
        = .consumed 12 players1 ∧
      players1.index 4 = some { position := { x := 1, y := -2, z := 3 } } ∧
      players1.index 3 = some Player.construct := by
  obtain ⟨players1, h1, h2, h3, _⟩ :=
    (server_handler_update_pos
      ({ mem := [none, none, none, some Player.construct, some Player.construct],
         capacity := 5, holeIs := [0, 1, 2] } : HoleyArray Player) 4 Player.construct rfl
      [1, 0, 0, 0, 254, 255, 255, 255, 3, 0, 0, 0]).1 (by decide)
  exact ⟨players1, h1, h2.trans (by decide), (h3 3 (by decide)).trans rfl⟩

/-- C14 as stated fails: on a message of type 1 the handler of the player in
slot 4 does not return -1; the process exits. -/
theorem server_handler_other_type_exits :
    serverHandleMessage 4 1 [1, 0, 0, 0, 254, 255, 255, 255, 3, 0, 0, 0]
        ({ mem := [none, none, none, some Player.construct, some Player.construct],
           capacity := 5, holeIs := [0, 1, 2] } : HoleyArray Player)
      = .fault .exit ∧
    ¬ (serverHandleMessage 4 1 [1, 0, 0, 0, 254, 255, 255, 255, 3, 0, 0, 0]
        ({ mem := [none, none, none, some Player.construct, some Player.construct],
           capacity := 5, holeIs := [0, 1, 2] } : HoleyArray Player)
      = .incomplete) := by
  have h : serverHandleMessage 4 1 [1, 0, 0, 0, 254, 255, 255, 255, 3, 0, 0, 0]
      ({ mem := [none, none, none, some Player.construct, some Player.construct],
         capacity := 5, holeIs := [0, 1, 2] } : HoleyArray Player) = .fault .exit := rfl
  refine ⟨h, fun hc => ?_⟩
  rw [h] at hc
  cases hc

/-! ## The position update echo -/

theorem u32OfBytes_le32 (n : Nat) : u32OfBytes (le32 n) = n % 4294967296 := by
  simp only [u32OfBytes, le32, List.getD_cons_zero, List.getD_cons_succ]
  omega

theorem s32OfBytes_leS32 (v : Int) (hlo : -2147483648 ≤ v) (hhi : v < 2147483648) :
    s32OfBytes (leS32 v) = v := by
  unfold s32OfBytes leS32
  rw [u32OfBytes_le32]
  split <;> omega

theorem positionTimerMessage_eq (x y z : Int) :
    positionTimerMessage x y z = 0 :: (leS32 x ++ leS32 y ++ leS32 z) := rfl

theorem eq_singleton_of_mem_iff (l : List Nat) (a : Nat) (hnd : l.Nodup)
    (hmem : ∀ i, i ∈ l ↔ i = a) : l = [a] :=
  List.perm_singleton.mp
    ((List.perm_ext_iff_of_nodup hnd (List.nodup_singleton a)).mpr
      (fun i => by rw [hmem, List.mem_singleton]))


theorem readable_whole_update_pos (A : Nat) (players : HoleyArray Player) (p : Player)
    (hp : players.index A = some p) (payload : List Nat) (hlen : payload.length = 12)
    (handleEndOfStream : HoleyArray Player → HoleyArray Player) :
    (handleMessageStreamReadable (serverHandleMessage A) handleEndOfStream AsyncRead.initial
        { stream := 0 :: payload, events := [.ready 13] } players).state
      = copyPosition players A payload ∧
    (handleMessageStreamReadable (serverHandleMessage A) handleEndOfStream AsyncRead.initial
        { stream := 0 :: payload, events := [.ready 13] } players).handled = [(0, payload)] ∧
    (handleMessageStreamReadable (serverHandleMessage A) handleEndOfStream AsyncRead.initial
        { stream := 0 :: payload, events := [.ready 13] } players).ending = .wouldBlock := by
  have hcons := (serverHandleMessage_consumed A payload players (by omega) (by rw [hp]; rfl)).1
  have hskip := scanMessages_skip (serverHandleMessage A) payload []
    (copyPosition players A payload) [(0, payload.take 12)]
  rw [List.append_nil, hlen] at hskip
  have hscan : scanMessages (serverHandleMessage A) 0 (0 :: payload) players []
      = .ok { incomplete := [], state := copyPosition players A payload
              handled := [(0, payload)] } := by
    simp only [scanMessages, hcons, hskip, List.nil_append]
    rw [List.take_of_length_le (by omega)]
  have htake12 : payload.take 12 = payload := List.take_of_length_le (by omega)
  have hdrop12 : payload.drop 12 = [] := List.drop_of_length_le (by omega)
  simp [handleMessageStreamReadable, AsyncRead.initial, readLoop, read, hlen, htake12, hdrop12,
    hscan, storeIncomplete, maxMessageLength, maxMessagesToReceiveAtOnce]

/-- C15. For all signed 32-bit `x`, `y`, `z` and a player table whose live
players are exactly `A` and `B`: the client's position timer builds the 13
bytes `0x00`, `x`, `y`, `z` (little-endian); when they arrive on `A`'s socket
the frame reader calls the server's handler once, which consumes the 12 payload
bytes and sets `A`'s position to `(x, y, z)`; the next
`broadcastPlayerPositions` then writes to `B` exactly one message, `0x03`
followed by the little-endian encodings of `x`, `y`, `z`. -/
theorem position_update_echo (players : HoleyArray Player) (hinv : players.Inv) (A B : Nat)
    (hAB : A ≠ B) (hlive : ∀ i, i ∈ liveSlots players ↔ i = A ∨ i = B) (x y z : Int)
    (hx : -2147483648 ≤ x ∧ x < 2147483648) (hy : -2147483648 ≤ y ∧ y < 2147483648)
    (hz : -2147483648 ≤ z ∧ z < 2147483648) :
    positionTimerMessage x y z = 0 :: (leS32 x ++ leS32 y ++ leS32 z) ∧
    ∃ players1,
      serverHandleMessage A 0 (leS32 x ++ leS32 y ++ leS32 z) players
        = .consumed 12 players1 ∧
      (handleMessageStreamReadable (serverHandleMessage A)
          (fun s => (handleClientDisconnected s A).1) AsyncRead.initial
          { stream := positionTimerMessage x y z, events := [.ready 13] } players).state
        = players1 ∧
      players1.index A = some { position := { x := x, y := y, z := z } } ∧
      writesTo B (broadcastPlayerPositions players1)
        = [3 :: (leS32 x ++ leS32 y ++ leS32 z)] := by
  have hAlive : A ∈ liveSlots players := (hlive A).mpr (Or.inl rfl)
  obtain ⟨p, hp⟩ := index_ne_none_of_mem_liveSlots players hinv A hAlive
  have hlt := lt_length_of_index players A p hp
  have hlen : (leS32 x ++ leS32 y ++ leS32 z).length = 12 := rfl
  have hcons := (serverHandleMessage_consumed A (leS32 x ++ leS32 y ++ leS32 z) players
    (by rw [hlen]) (by rw [hp]; rfl)).1
  have hread := readable_whole_update_pos A players p hp (leS32 x ++ leS32 y ++ leS32 z) hlen
    (fun s => (handleClientDisconnected s A).1)
  have hidx : (copyPosition players A (leS32 x ++ leS32 y ++ leS32 z)).index A
      = some { position := { x := x, y := y, z := z } } := by
    rw [copyPosition_index players A _ A hlt, if_pos rfl]
    have h0 : ((leS32 x ++ leS32 y ++ leS32 z).drop 0).take 4 = leS32 x := rfl
    have h4 : ((leS32 x ++ leS32 y ++ leS32 z).drop 4).take 4 = leS32 y := rfl
    have h8 : ((leS32 x ++ leS32 y ++ leS32 z).drop 8).take 4 = leS32 z := rfl
    rw [h0, h4, h8, s32OfBytes_leS32 x hx.1 hx.2, s32OfBytes_leS32 y hy.1 hy.2,
      s32OfBytes_leS32 z hz.1 hz.2]
  have hinv1 := copyPosition_inv players A (leS32 x ++ leS32 y ++ leS32 z) p hp hinv
  have hslots : liveSlots (copyPosition players A (leS32 x ++ leS32 y ++ leS32 z))
      = liveSlots players := rfl
  have hBlive : B ∈ liveSlots (copyPosition players A (leS32 x ++ leS32 y ++ leS32 z)) := by
    rw [hslots]; exact (hlive B).mpr (Or.inr rfl)
  have hothers : (liveSlots (copyPosition players A (leS32 x ++ leS32 y ++ leS32 z))).filter
      (fun o => decide (o ≠ B)) = [A] := by
    apply eq_singleton_of_mem_iff _ _ (List.Nodup.filter _ (liveSlots_nodup _))
    intro i
    rw [List.mem_filter, hslots, hlive i]
    simp only [ne_eq, decide_not, Bool.not_eq_true', decide_eq_false_iff_not]
    constructor
    · rintro ⟨rfl | rfl, hne⟩
      · rfl
      · exact absurd rfl hne
    · rintro rfl
      exact ⟨Or.inl rfl, hAB⟩
  refine ⟨positionTimerMessage_eq x y z, copyPosition players A (leS32 x ++ leS32 y ++ leS32 z),
    hcons, ?_, hidx, ?_⟩
  · rw [positionTimerMessage_eq]
    exact hread.1
  · rw [broadcastPlayerPositions_eq _ hinv1,
      writesTo_map_of_mem _ (fun r => 3 :: othersPositions
        (copyPosition players A (leS32 x ++ leS32 y ++ leS32 z)) r) B (liveSlots_nodup _) hBlive]
    unfold othersPositions
    rw [hothers]
    simp only [List.flatMap_cons, List.flatMap_nil, List.append_nil, slotPositionBytes, hidx,
      positionBytes]

/-- Witness for C15: `A` in slot 4, `B` in slot 3, `(x, y, z) = (1, -2, 3)`. -/
theorem position_update_echo_witness :
    ∃ players1,
      serverHandleMessage 4 0 (leS32 1 ++ leS32 (-2) ++ leS32 3)
        ({ mem := [none, none, none, some Player.construct, some Player.construct],
           capacity := 5, holeIs := [0, 1, 2] } : HoleyArray Player)
        = .consumed 12 players1 ∧
      writesTo 3 (broadcastPlayerPositions players1)
        = [[3, 1, 0, 0, 0, 254, 255, 255, 255, 3, 0, 0, 0]] := by
  obtain ⟨_, players1, h1, _, _, h4⟩ :=
    position_update_echo
      ({ mem := [none, none, none, some Player.construct, some Player.construct],
         capacity := 5, holeIs := [0, 1, 2] } : HoleyArray Player)
      ⟨by decide, by decide, by decide, by decide⟩ 4 3 (by decide)
      (by intro i; simp [liveSlots]; omega) 1 (-2) 3
      (by decide) (by decide) (by decide)
  exact ⟨players1, h1, h4.trans (by decide)⟩

/-! ## The client's peer mirror -/

theorem getElem?_lowerBound_of_mem (v : List Nat) (i : Nat)
    (hs : v.Pairwise (fun a b => a < b)) (hi : i ∈ v) : v[lowerBound v i]? = some i := by
  induction v with
  | nil => exact absurd hi (List.not_mem_nil _)
  | cons x v ih =>
    have hs2 := List.pairwise_cons.mp hs
    by_cases hx : x < i
    · have hiv : i ∈ v := by
        rcases List.mem_cons.mp hi with rfl | h
        · omega
        · exact h
      have hlb : lowerBound (x :: v) i = lowerBound v i + 1 := by
        simp [lowerBound, List.takeWhile_cons, hx]
      rw [hlb, List.getElem?_cons_succ]
      exact ih hs2.2 hiv
    · have hix : i = x := by
        rcases List.mem_cons.mp hi with rfl | h
        · rfl
        · have := hs2.1 i h
          omega
      subst hix
      have hlb : lowerBound (i :: v) i = 0 := by
        simp [lowerBound, List.takeWhile_cons]
      rw [hlb, List.getElem?_cons_zero]

theorem mem_vectorErase_lowerBound (v : List Nat) (i x : Nat)
    (hs : v.Pairwise (fun a b => a < b)) (hi : i ∈ v) :
    x ∈ vectorErase v (lowerBound v i) ↔ x ∈ v ∧ x ≠ i := by
  induction v with
  | nil => exact absurd hi (List.not_mem_nil _)
  | cons y v ih =>
    have hs2 := List.pairwise_cons.mp hs
    by_cases hy : y < i
    · have hiv : i ∈ v := by
        rcases List.mem_cons.mp hi with rfl | h
        · omega
        · exact h
      have hlb : lowerBound (y :: v) i = lowerBound v i + 1 := by
        simp [lowerBound, List.takeWhile_cons, hy]
      have hcons : vectorErase (y :: v) (lowerBound v i + 1) = y :: vectorErase v (lowerBound v i) := by
        simp [vectorErase]
      rw [hlb, hcons, List.mem_cons, List.mem_cons, ih hs2.2 hiv]
      constructor
      · rintro (rfl | ⟨h1, h2⟩)
        · exact ⟨Or.inl rfl, by omega⟩
        · exact ⟨Or.inr h1, h2⟩
      · rintro ⟨rfl | h1, h2⟩
        · exact Or.inl rfl
        · exact Or.inr ⟨h1, h2⟩
    · have hiy : i = y := by
        rcases List.mem_cons.mp hi with rfl | h
        · rfl
        · have := hs2.1 i h
          omega
      subst hiy
      have hlb : lowerBound (i :: v) i = 0 := by
        simp [lowerBound, List.takeWhile_cons]
      have hcons : vectorErase (i :: v) 0 = v := by
        simp [vectorErase]
      rw [hlb, hcons, List.mem_cons]
      constructor
      · intro h
        exact ⟨Or.inr h, fun hxi => by have := hs2.1 x h; omega⟩
      · rintro ⟨rfl | h1, h2⟩
        · exact absurd rfl h2
        · exact h1

theorem pairwise_vectorErase (v : List Nat) (pos : Nat) (hs : v.Pairwise (fun a b => a < b)) :
    (vectorErase v pos).Pairwise (fun a b => a < b) := by
  unfold vectorErase
  have hsub : (v.take pos ++ v.drop (pos + 1)).Sublist v := by
    conv_rhs => rw [← List.take_append_drop pos v]
    exact List.Sublist.append (List.Sublist.refl _) (List.drop_sublist_drop_left v (Nat.le_succ pos))
  exact hs.sublist hsub

theorem replica_index_set {El : Type} (mem : List (Option El)) (i j : Nat) (e : Option El)
    (hi : i < mem.length) :
    ((mem.set i e)[j]?).join = if i = j then e else (mem[j]?).join := by
  by_cases h : i = j
  · subst h; simp [List.getElem?_set, hi]
  · simp [List.getElem?_set, h]

theorem replica_allocate_inv {El : Type} (n : Nat) :
    ∃ arr0 : ReplicaHoleyArray El,
      ReplicaHoleyArray.empty.allocate n = .ok arr0 ∧ arr0.Inv ∧ arr0.filledIs = [] ∧
        arr0.size = n := by
  refine ⟨{ mem := some (List.replicate n none), filledIs := [], size := n }, rfl, ?_, rfl, rfl⟩
  refine ⟨List.Pairwise.nil, fun i hi => absurd hi (List.not_mem_nil _),
    ⟨_, rfl, List.length_replicate _ _⟩, fun i => ?_⟩
  simp only [List.not_mem_nil, ReplicaHoleyArray.index, false_iff]
  by_cases hi : i < n
  · simp [List.getElem?_replicate, hi]
  · simp [List.getElem?_replicate, hi]

theorem replica_emplace_inv {El : Type} (arr : ReplicaHoleyArray El) (hinv : arr.Inv) (i : Nat)
    (el : El) (hi : i < arr.size) (hfresh : i ∉ arr.filledIs) :
    ∃ arr1, arr.emplace i el = .ok arr1 ∧ arr1.Inv ∧ arr1.size = arr.size := by
  obtain ⟨mem, hmem, hlen⟩ := hinv.allocated
  have hilt : i < mem.length := by rw [hlen]; exact hi
  refine ⟨{ arr with mem := some (mem.set i (some el))
                     filledIs := vectorInsert arr.filledIs (lowerBound arr.filledIs i) i },
    by simp [ReplicaHoleyArray.emplace, hmem, hilt], ?_, rfl⟩
  refine ⟨pairwise_vectorInsert_lowerBound _ _ hinv.sorted hfresh, ?_,
    ⟨_, rfl, by simp [hlen]⟩, fun j => ?_⟩
  · intro j hj
    rcases (mem_vectorInsert_lowerBound _ _ _).mp hj with rfl | hj
    · exact hi
    · exact hinv.bound j hj
  · show j ∈ vectorInsert arr.filledIs (lowerBound arr.filledIs i) i ↔ _
    rw [mem_vectorInsert_lowerBound]
    have hpop := hinv.populated j
    simp only [ReplicaHoleyArray.index, hmem] at hpop ⊢
    rw [replica_index_set mem i j _ hilt]
    by_cases h : i = j
    · subst h; simp
    · rw [if_neg h, ← hpop]
      constructor
      · rintro (rfl | hm)
        · exact absurd rfl h
        · exact hm
      · exact fun hm => Or.inr hm

theorem replica_destroy_inv {El : Type} (arr : ReplicaHoleyArray El) (hinv : arr.Inv) (i : Nat)
    (hi : i ∈ arr.filledIs) :
    ∃ arr1, arr.destroy i = .ok arr1 ∧ arr1.Inv ∧ arr1.size = arr.size := by
  obtain ⟨mem, hmem, hlen⟩ := hinv.allocated
  have hilt : i < mem.length := by rw [hlen]; exact hinv.bound i hi
  have hget := getElem?_lowerBound_of_mem arr.filledIs i hinv.sorted hi
  refine ⟨{ arr with mem := some (mem.set i none)
                     filledIs := vectorErase arr.filledIs (lowerBound arr.filledIs i) },
    by simp [ReplicaHoleyArray.destroy, hget, hmem], ?_, rfl⟩
  refine ⟨pairwise_vectorErase _ _ hinv.sorted, ?_, ⟨_, rfl, by simp [hlen]⟩, fun j => ?_⟩
  · intro j hj
    exact hinv.bound j ((mem_vectorErase_lowerBound _ _ _ hinv.sorted hi).mp hj).1
  · show j ∈ vectorErase arr.filledIs (lowerBound arr.filledIs i) ↔ _
    rw [mem_vectorErase_lowerBound _ _ _ hinv.sorted hi]
    have hpop := hinv.populated j
    simp only [ReplicaHoleyArray.index, hmem] at hpop ⊢
    rw [replica_index_set mem i j _ hilt]
    by_cases h : i = j
    · subst h; simp
    · rw [if_neg h, ← hpop]
      exact ⟨fun hm => hm.1, fun hm => ⟨hm, fun hji => h hji.symm⟩⟩

theorem replicaOps_inv {El : Type} (ops : List (ReplicaOp El)) :
    ∀ (arr : ReplicaHoleyArray El), arr.Inv → replicaOpsDistinct arr ops = true →
      ∃ arr1, replicaOps arr ops = .ok arr1 ∧ arr1.Inv ∧ arr1.size = arr.size := by
  induction ops with
  | nil => intro arr hinv _; exact ⟨arr, rfl, hinv, rfl⟩
  | cons op ops ih =>
    intro arr hinv hd
    cases op with
    | emplace i el =>
      simp only [replicaOpsDistinct, Bool.and_eq_true, decide_eq_true_eq] at hd
      obtain ⟨arr1, he, hinv1, hsize1⟩ := replica_emplace_inv arr hinv i el hd.1.1 hd.1.2
      rw [he] at hd
      obtain ⟨arr2, h2, hinv2, hsize2⟩ := ih arr1 hinv1 hd.2
      exact ⟨arr2, by simp only [replicaOps, he, h2], hinv2, hsize2.trans hsize1⟩
    | destroy i =>
      simp only [replicaOpsDistinct, Bool.and_eq_true, decide_eq_true_eq] at hd
      obtain ⟨arr1, he, hinv1, hsize1⟩ := replica_destroy_inv arr hinv i hd.1
      rw [he] at hd
      obtain ⟨arr2, h2, hinv2, hsize2⟩ := ih arr1 hinv1 hd.2
      exact ⟨arr2, by simp only [replicaOps, he, h2], hinv2, hsize2.trans hsize1⟩

theorem updatePositions_cons (scan : List Nat) (mem : List (Option OtherPlayer))
    (filledI i : Nat) (rest : List Nat) :
    updatePositions scan mem filledI (i :: rest)
      = updatePositions scan (mem.set i (some { position := tripleAt scan filledI }))
          (filledI + 1) rest := by
  have h0 : (0 + 3 * filledI) * 4 = 12 * filledI := by omega
  have h1 : (1 + 3 * filledI) * 4 = 12 * filledI + 4 := by omega
  have h2 : (2 + 3 * filledI) * 4 = 12 * filledI + 8 := by omega
  simp only [updatePositions, tripleAt, h0, h1, h2]

theorem updatePositions_spec (scan : List Nat) :
    ∀ (filledIs : List Nat) (mem : List (Option OtherPlayer)) (filledI : Nat),
      filledIs.Nodup → (∀ i ∈ filledIs, i < mem.length) →
      (∀ n id : Nat, filledIs[n]? = some id →
        ((updatePositions scan mem filledI filledIs)[id]?).join
          = some ({ position := tripleAt scan (filledI + n) } : OtherPlayer)) ∧
      (∀ j, j ∉ filledIs → (updatePositions scan mem filledI filledIs)[j]? = mem[j]?) := by
  intro filledIs
  induction filledIs with
  | nil =>
    intro mem filledI _ _
    exact ⟨fun n id h => by simp at h, fun j _ => rfl⟩
  | cons i rest ih =>
    intro mem filledI hnd hb
    have hnd2 := List.nodup_cons.mp hnd
    have hilt : i < mem.length := hb i (List.mem_cons_self _ _)
    obtain ⟨ih1, ih2⟩ := ih (mem.set i (some { position := tripleAt scan filledI })) (filledI + 1)
      hnd2.2 (fun j hj => by rw [List.length_set]; exact hb j (List.mem_cons_of_mem _ hj))
    rw [updatePositions_cons]
    refine ⟨fun n id hn => ?_, fun j hj => ?_⟩
    · cases n with
      | zero =>
        rw [List.getElem?_cons_zero] at hn
        injection hn with hn
        subst hn
        rw [ih2 i hnd2.1]
        simp [List.getElem?_set, hilt]
      | succ n =>
        rw [List.getElem?_cons_succ] at hn
        rw [ih1 n id hn]
        congr 3
        omega
    · rw [ih2 j (fun h => hj (List.mem_cons_of_mem _ h))]
      have hne : i ≠ j := fun h => hj (h ▸ List.mem_cons_self _ _)
      simp [List.getElem?_set, hne]

/-- C16. For every peer mirror obtained from an empty one by `allocate` and
then `emplace` and `destroy` calls at distinct ids (each `emplace` at an
unpopulated id inside the allocation, each `destroy` at a populated id), every
call is defined, `filledIs` is strictly ascending and lists exactly the
populated ids; with `k = |filledIs|`, the client handler on a message of type 3
with at least `12 * k` payload bytes returns `12 * k`, keeps `filledIs`, sets
the position of the peer at the `i`-th id of `filledIs` (the `i`-th smallest
populated id) to the `i`-th little-endian `(x, y, z)` triple of the payload
for every `i < k`, and leaves every other index as it was. -/
theorem client_positions_in_ascending_id_order (size : Nat)
    (ops : List (ReplicaOp OtherPlayer)) (arr0 : ReplicaHoleyArray OtherPlayer)
    (halloc : ReplicaHoleyArray.empty.allocate size = .ok arr0)
    (hd : replicaOpsDistinct arr0 ops = true) :
    ∃ arr, replicaOps arr0 ops = .ok arr ∧
      arr.filledIs.Pairwise (fun a b => a < b) ∧
      (∀ i, i ∈ arr.filledIs ↔ (arr.index i).isSome = true) ∧
      ∀ scan : List Nat, 12 * arr.filledIs.length ≤ scan.length →
        ∃ arr1, clientHandleMessage 3 scan arr = .consumed (12 * arr.filledIs.length) arr1 ∧
          arr1.filledIs = arr.filledIs ∧
          (∀ i id : Nat, arr.filledIs[i]? = some id →
            arr1.index id = some { position := tripleAt scan i }) ∧
          (∀ j, j ∉ arr.filledIs → arr1.index j = arr.index j) := by
  obtain ⟨arr0', halloc', hinv0, _, _⟩ := @replica_allocate_inv OtherPlayer size
  rw [halloc] at halloc'
  injection halloc' with h0
  subst h0
  obtain ⟨arr, hrun, hinv, _⟩ := replicaOps_inv ops arr0 hinv0 hd
  refine ⟨arr, hrun, hinv.sorted, hinv.populated, fun scan hscan => ?_⟩
  obtain ⟨mem, hmem, hlen⟩ := hinv.allocated
  obtain ⟨h1, h2⟩ := updatePositions_spec scan arr.filledIs mem 0
    (pairwise_lt_nodup hinv.sorted) (fun i hi => by rw [hlen]; exact hinv.bound i hi)
  have hnot : ¬ scan.length < 3 * 4 * arr.count := by
    unfold ReplicaHoleyArray.count; omega
  refine ⟨{ arr with mem := arr.mem.map (fun mem => updatePositions scan mem 0 arr.filledIs) },
    ?_, rfl, fun i id hi => ?_, fun j hj => ?_⟩
  · simp only [clientHandleMessage, hnot, if_false]
    simp [ReplicaHoleyArray.count]
  · have := h1 i id hi
    rw [Nat.zero_add] at this
    simp only [ReplicaHoleyArray.index, hmem, Option.map_some']
    exact this
  · simp only [ReplicaHoleyArray.index, hmem, Option.map_some']
    rw [h2 j hj]

/-- Witness for C16: a mirror of 5 buckets, peers put at ids 3, 1 and 4, the
peer at 1 removed; a type-3 message with two triples gives the peer at id 3
the position `(1, 2, 3)` and the peer at id 4 the position `(-1, 0, 256)`. -/
theorem client_positions_in_ascending_id_order_witness :
    ∃ arr arr1,
      replicaOps
        ({ mem := some [none, none, none, none, none], filledIs := [], size := 5 } :
          ReplicaHoleyArray OtherPlayer)
        [.emplace 3 { position := { x := 0, y := 0, z := 0 } },
         .emplace 1 { position := { x := 0, y := 0, z := 0 } },
         .emplace 4 { position := { x := 0, y := 0, z := 0 } }, .destroy 1] = .ok arr ∧
      arr.filledIs = [3, 4] ∧
      clientHandleMessage 3
        [1, 0, 0, 0, 2, 0, 0, 0, 3, 0, 0, 0, 255, 255, 255, 255, 0, 0, 0, 0, 0, 1, 0, 0] arr
        = .consumed 24 arr1 ∧
      arr1.index 3 = some { position := { x := 1, y := 2, z := 3 } } ∧
      arr1.index 4 = some { position := { x := -1, y := 0, z := 256 } } := by
  obtain ⟨arr, hrun, _, _, hmsg⟩ :=
    client_positions_in_ascending_id_order 5
      [.emplace 3 { position := { x := 0, y := 0, z := 0 } },
       .emplace 1 { position := { x := 0, y := 0, z := 0 } },
       .emplace 4 { position := { x := 0, y := 0, z := 0 } }, .destroy 1]
      { mem := some [none, none, none, none, none], filledIs := [], size := 5 } rfl (by decide)
  have harr : arr = { mem := some [none, none, none,
                                   some { position := { x := 0, y := 0, z := 0 } },
                                   some { position := { x := 0, y := 0, z := 0 } }],
                      filledIs := [3, 4], size := 5 } := by
    have hev : replicaOps
        ({ mem := some [none, none, none, none, none], filledIs := [], size := 5 } :
          ReplicaHoleyArray OtherPlayer)
        [.emplace 3 { position := { x := 0, y := 0, z := 0 } },
         .emplace 1 { position := { x := 0, y := 0, z := 0 } },
         .emplace 4 { position := { x := 0, y := 0, z := 0 } }, .destroy 1] = .ok _ := rfl
    rw [hev] at hrun
    injection hrun with hrun
    exact hrun.symm
  subst harr
  obtain ⟨arr1, h1, _, h3, _⟩ := hmsg
    [1, 0, 0, 0, 2, 0, 0, 0, 3, 0, 0, 0, 255, 255, 255, 255, 0, 0, 0, 0, 0, 1, 0, 0] (by decide)
  exact ⟨_, arr1, hrun, rfl, h1, (h3 0 3 rfl).trans (by decide), (h3 1 4 rfl).trans (by decide)⟩

/-! ## The capacity of the client's peer mirror -/

/-- C17 fails on the code: the client handler allocates the peer mirror with
`allocate(ns.otherPlayers, 5u)` whatever the SNAPSHOT announces.  Seven
clients connect to the empty server.  The seventh is sent the SNAPSHOT with
count 6 and ids 0, 1, 2, 3, 4, 7: the handler allocates 5 buckets and `emplace`
at id 7 constructs outside the allocation.  The first client, whose mirror has
5 buckets after its SNAPSHOT, is sent JOINED messages with ids 3, 2, 1, 0 and
then 6: `emplace` at id 6 constructs outside the allocation. -/
theorem snapshot_mirror_capacity_is_five :
    ∃ players ws,
      serverRun MutexedPlayers.initial
          [.newConnection, .newConnection, .newConnection, .newConnection, .newConnection,
           .newConnection, .newConnection] = some (players, ws) ∧
      writesTo 6 ws
        = [0 :: (le32 6 ++ le32 0 ++ le32 1 ++ le32 2 ++ le32 3 ++ le32 4 ++ le32 7)] ∧
      clientHandleMessage 0 (le32 6 ++ le32 0 ++ le32 1 ++ le32 2 ++ le32 3 ++ le32 4 ++ le32 7)
          ReplicaHoleyArray.empty = .fault .undefined ∧
      writesTo 4 ws
        = [0 :: le32 0, 1 :: le32 3, 1 :: le32 2, 1 :: le32 1, 1 :: le32 0, 1 :: le32 6,
           1 :: le32 5] ∧
      (∃ mirror, clientReceive ReplicaHoleyArray.empty
          [0 :: le32 0, 1 :: le32 3, 1 :: le32 2, 1 :: le32 1, 1 :: le32 0] = .ok mirror ∧
        mirror.size = 5 ∧ mirror.filledIs = [0, 1, 2, 3] ∧
        clientHandleMessage 1 (le32 6) mirror = .fault .undefined) :=
  ⟨_, _, rfl, rfl, rfl, rfl, _, rfl, rfl, rfl, rfl⟩

/-! ## Incomplete payloads at the client -/

/-- C18. The client's message handler returns -1, before it touches the peer
mirror, whenever the payload is incomplete: for the types 0, 1 and 2 when fewer
than 4 payload bytes remain (also when none has arrived), for type 0 also when
fewer than `4 + 4 * N` bytes remain for the announced count `N`, and for type 3
when fewer than `12 * size(otherPlayers)` bytes remain.  The frame reader then
keeps the mirror as it was and saves the whole suffix, type byte included, as
the incomplete message. -/
theorem client_handler_incomplete (messageType : Nat) (scan : List Nat)
    (mirror : ReplicaHoleyArray OtherPlayer)
    (hinc : (messageType ≤ 2 ∧ scan.length < 4) ∨
      (messageType = 0 ∧ scan.length < 4 + 4 * u32OfBytes (scan.take 4)) ∨
      (messageType = 3 ∧ scan.length < 12 * mirror.count)) :
    clientHandleMessage messageType scan mirror = .incomplete ∧
    ∀ handled, scanMessages clientHandleMessage 0 (messageType :: scan) mirror handled
      = .ok { incomplete := messageType :: scan, state := mirror, handled := handled } := by
  have h : clientHandleMessage messageType scan mirror = .incomplete := by
    rcases hinc with ⟨ht, hl⟩ | ⟨rfl, hl⟩ | ⟨rfl, hl⟩
    · have h3 : messageType = 0 ∨ messageType = 1 ∨ messageType = 2 := by omega
      rcases h3 with rfl | rfl | rfl <;> simp [clientHandleMessage, hl]
    · by_cases h4 : scan.length < 4
      · simp [clientHandleMessage, h4]
      · have hl2 : scan.length < 4 + u32OfBytes (scan.take 4) * 4 := by omega
        simp [clientHandleMessage, h4, hl2]
    · have hl2 : scan.length < 3 * 4 * mirror.count := by omega
      simp [clientHandleMessage, hl2]
  refine ⟨h, fun handled => ?_⟩
  simp only [scanMessages, h]

/-- Witness for C18: of a SNAPSHOT announcing two ids only the count and three
bytes of the first id have arrived. -/
theorem client_handler_incomplete_witness :
    clientHandleMessage 0 [2, 0, 0, 0, 4, 0, 0] ReplicaHoleyArray.empty = .incomplete ∧
    ∀ handled, scanMessages clientHandleMessage 0 [0, 2, 0, 0, 0, 4, 0, 0]
        ReplicaHoleyArray.empty handled
      = .ok { incomplete := [0, 2, 0, 0, 0, 4, 0, 0], state := ReplicaHoleyArray.empty
              handled := handled } :=
  client_handler_incomplete 0 [2, 0, 0, 0, 4, 0, 0] ReplicaHoleyArray.empty
    (Or.inr (Or.inl ⟨rfl, by decide⟩))

/-! ## Partial writes -/

/-- C19 fails on the code: `scheduleSocketWrite` is called with an empty write
buffer and 5 bytes, `write()` accepts 3 of them and then reports `EAGAIN`.
`writeAsMuchAsPossible` reaches `UNIMPLEMENTED` and the process exits, so the
call does not return.  The code that appends the unwritten suffix, adds
`EPOLLOUT` and sets `willNotifyOnWritable` runs only when `write()` stops in
another way (here: fails with another error after the same 3 bytes). -/
theorem schedule_write_would_block_exits :
    scheduleSocketWrite (SocketOut.initial [.accept 3, .wouldBlock] false) [1, 2, 3, 4, 5]
      = none ∧
    writeAsMuchAsPossible [.accept 3, .wouldBlock] [1, 2, 3, 4, 5] 0 [] = none ∧
    scheduleSocketWrite (SocketOut.initial [.accept 3, .failure] false) [1, 2, 3, 4, 5]
      = some { asyncWrite := { buf := [4, 5], willNotifyOnWritable := true }
               outbound := { accepted := [1, 2, 3], events := [], epollOut := true } } :=
  ⟨rfl, rfl, rfl⟩

/-- C20 fails on the code: 5 bytes are scheduled on a fresh socket while
`write()` fails, so they are buffered and `EPOLLOUT` is added; on the writable
notification `write()` accepts 2 bytes and then fails again.
`handleMessageStreamWritable` keeps the 3 unwritten bytes in the buffer and
removes `EPOLLOUT` all the same.  A later notification that empties the buffer
leaves `willNotifyOnWritable` set, so the next `scheduleSocketWrite` that has to
buffer bytes does not add `EPOLLOUT` either. -/
theorem writable_disarms_with_bytes_left :
    runWriteOps (SocketOut.initial [.failure, .accept 2, .failure] false)
        [.schedule [1, 2, 3, 4, 5], .writable]
      = some { asyncWrite := { buf := [3, 4, 5], willNotifyOnWritable := true }
               outbound := { accepted := [1, 2], events := [], epollOut := false } } ∧
    runWriteOps (SocketOut.initial [.failure] false) [.schedule [1, 2, 3, 4, 5]]
      = some { asyncWrite := { buf := [1, 2, 3, 4, 5], willNotifyOnWritable := true }
               outbound := { accepted := [], events := [], epollOut := true } } ∧
    runWriteOps (SocketOut.initial [.failure, .accept 5, .accept 1, .failure] false)
        [.schedule [1, 2, 3, 4, 5], .writable, .schedule [6, 7]]
      = some { asyncWrite := { buf := [7], willNotifyOnWritable := true }
               outbound := { accepted := [1, 2, 3, 4, 5, 6], events := [], epollOut := false } } :=
  ⟨rfl, rfl, rfl⟩

/-! ## The flag of the write side -/

/-- C21 fails on the code: 5 bytes are scheduled on a fresh socket while
`write()` fails, so they are buffered, `EPOLLOUT` is added and
`willNotifyOnWritable` is set.  The writable notification writes all 5 bytes
and removes `EPOLLOUT`, but `handleMessageStreamWritable` has no assignment to
`willNotifyOnWritable`: the flag stays set while `EPOLLOUT` is not registered.
The next `scheduleSocketWrite`, of which `write()` accepts 1 of 2 bytes, buffers
the other byte and, finding the flag set, does not add `EPOLLOUT`. -/
theorem writable_keeps_flag_set :
    runWriteOps (SocketOut.initial [.failure, .accept 5] false)
        [.schedule [1, 2, 3, 4, 5], .writable]
      = some { asyncWrite := { buf := [], willNotifyOnWritable := true }
               outbound := { accepted := [1, 2, 3, 4, 5], events := [], epollOut := false } } ∧
    runWriteOps (SocketOut.initial [.failure, .accept 5, .accept 1, .failure] false)
        [.schedule [1, 2, 3, 4, 5], .writable, .schedule [6, 7]]
      = some { asyncWrite := { buf := [7], willNotifyOnWritable := true }
               outbound := { accepted := [1, 2, 3, 4, 5, 6], events := [], epollOut := false } } :=
  ⟨rfl, rfl⟩

/-! ## Messages longer than the reader's buffers -/

/-- C22 fails on the code: four clients connect; the fourth is sent the
SNAPSHOT with count 3, 17 bytes.  When `read()` returns its first 13 bytes and
then reports would-block, the client's handler has returned -1 on 12 payload
bytes, and `handleMessageStreamReadable` stores the length 13 and copies 13
bytes into the 12-byte array `AsyncRead::incompleteMessage`. -/
theorem client_incomplete_message_overflows :
    ∃ players ws,
      serverRun MutexedPlayers.initial
          [.newConnection, .newConnection, .newConnection, .newConnection]
        = some (players, ws) ∧
      writesTo 1 ws = [0 :: (le32 3 ++ le32 2 ++ le32 3 ++ le32 4)] ∧
      (0 :: (le32 3 ++ le32 2 ++ le32 3 ++ le32 4)).length = 17 ∧
      clientHandleMessage 0 ((le32 3 ++ le32 2 ++ le32 3 ++ le32 4).take 12)
          ReplicaHoleyArray.empty = .incomplete ∧
      AsyncRead.initial.incompleteMessage.length = 12 ∧
      storeIncomplete AsyncRead.initial ((0 :: (le32 3 ++ le32 2 ++ le32 3 ++ le32 4)).take 13)
        = .error .undefined ∧
      (handleMessageStreamReadable clientHandleMessage (fun s => s) AsyncRead.initial
          { stream := 0 :: (le32 3 ++ le32 2 ++ le32 3 ++ le32 4), events := [.ready 13] }
          ReplicaHoleyArray.empty).ending = .fault .undefined :=
  ⟨_, _, rfl, rfl, rfl, rfl, rfl, rfl, rfl⟩

set_option maxRecDepth 100000 in
/-- C30 fails on the code: 33 clients connect; the last one is sent the
SNAPSHOT with count 32, 133 bytes, which all arrive before the client reads.
`read()` fills the 130-byte scratch buffer, the handler returns -1 (129 payload
bytes, 132 needed), the 130 bytes become the incomplete prefix and the next
`read()` is offered 0 bytes of space: it returns 0 and
`handleMessageStreamReadable` calls the end-of-stream handler although the
server has neither closed nor reset the connection (3 bytes are still
unread). -/
theorem client_reader_offers_no_space :
    (∃ players ws,
      serverRun MutexedPlayers.initial (List.replicate 33 .newConnection)
        = some (players, ws) ∧
      writesTo 45 ws = [0 :: (le32 32 ++ (List.range 30 ++ [46, 47]).flatMap le32)]) ∧
    (0 :: (le32 32 ++ (List.range 30 ++ [46, 47]).flatMap le32)).length = 133 ∧
    (handleMessageStreamReadable clientHandleMessage (fun s => s) AsyncRead.initial
        { stream := 0 :: (le32 32 ++ (List.range 30 ++ [46, 47]).flatMap le32)
          events := [.ready 133] }
        ReplicaHoleyArray.empty).ending = .endOfStream ∧
    (handleMessageStreamReadable clientHandleMessage (fun s => s) AsyncRead.initial
        { stream := 0 :: (le32 32 ++ (List.range 30 ++ [46, 47]).flatMap le32)
          events := [.ready 133] }
        ReplicaHoleyArray.empty).inbound.stream.length = 3 ∧
    (handleMessageStreamReadable clientHandleMessage (fun s => s) AsyncRead.initial
        { stream := 0 :: (le32 32 ++ (List.range 30 ++ [46, 47]).flatMap le32)
          events := [.ready 133] }
        ReplicaHoleyArray.empty).handled = [] :=
  ⟨⟨_, _, rfl, rfl⟩, rfl, rfl, rfl, rfl⟩

/-! ## The slot that `emplace` hands out -/

theorem getLast?_is_max (l : List Nat) (hs : l.Pairwise (fun a b => a < b)) (h : Nat)
    (hl : l.getLast? = some h) : h ∈ l ∧ ∀ x ∈ l, x ≤ h := by
  have hne : l ≠ [] := by
    intro hnil
    rw [hnil] at hl
    exact Option.noConfusion hl
  have hsplit : l.dropLast ++ [h] = l := List.dropLast_append_getLast? h (by simp [hl])
  refine ⟨by rw [← hsplit]; simp, fun x hx => ?_⟩
  rw [← hsplit] at hx hs
  rcases List.mem_append.mp hx with hx | hx
  · exact Nat.le_of_lt ((List.pairwise_append.mp hs).2.2 x hx h (List.mem_singleton_self h))
  · rw [List.mem_singleton.mp hx]

/-- C29. `emplace` on a `HoleyArray` allocates the largest free slot index.
On a table whose `holeIs` is strictly ascending and not empty it returns the
maximum of `holeIs`; on a freshly constructed table of capacity `c >= 1` the
first `emplace` returns `c - 1`; on a full table whose capacity `c` grows to
`c' > c` it returns `c' - 1`. -/
theorem emplace_takes_largest_free_slot {El : Type} (arr : HoleyArray El) (create : Nat → El) :
    (arr.holeIs.Pairwise (fun a b => a < b) → arr.holeIs ≠ [] →
      ∃ h arr', emplace arr create = some (h, arr') ∧ h ∈ arr.holeIs ∧
        (∀ x ∈ arr.holeIs, x ≤ h) ∧ arr'.capacity = arr.capacity) ∧
    (∀ c, 1 ≤ c →
      ∃ arr', emplace (HoleyArray.construct c : HoleyArray El) create = some (c - 1, arr')) ∧
    (arr.holeIs = [] → arr.capacity < (growArray arr.mem arr.capacity).newCapacity →
      ∃ arr', emplace arr create = some (arr'.capacity - 1, arr') ∧
        arr'.capacity = (growArray arr.mem arr.capacity).newCapacity ∧
        arr.capacity < arr'.capacity) := by
  refine ⟨fun hs hne => ?_, fun c hc => ?_, fun hnil hgrow => ?_⟩
  · obtain ⟨h, hl⟩ : ∃ h, arr.holeIs.getLast? = some h := by
      cases hl : arr.holeIs.getLast? with
      | none => exact absurd (List.getLast?_eq_none_iff.mp hl) hne
      | some x => exact ⟨x, rfl⟩
    obtain ⟨hmem, hmax⟩ := getLast?_is_max arr.holeIs hs h hl
    refine ⟨h, { arr with mem := arr.mem.set h (some (create h))
                          holeIs := arr.holeIs.dropLast }, ?_, hmem, hmax, rfl⟩
    unfold emplace
    rw [emplaceGrow_of_ne_nil arr hne]
    simp only [hl]
  · have hne : (HoleyArray.construct c : HoleyArray El).holeIs ≠ [] := by
      show List.range c ≠ []
      intro h
      have := congrArg List.length h
      simp at this
      omega
    have hl : (HoleyArray.construct c : HoleyArray El).holeIs.getLast? = some (c - 1) := by
      show (List.range c).getLast? = some (c - 1)
      obtain ⟨k, rfl⟩ : ∃ k, c = k + 1 := ⟨c - 1, by omega⟩
      rw [List.range_succ]
      simp
    unfold emplace
    rw [emplaceGrow_of_ne_nil _ hne]
    simp only [hl]
    exact ⟨_, rfl⟩
  · have hg := emplaceGrow_of_nil arr hnil
    have hgrow2 : arr.capacity < growthMultiplierNum * arr.capacity / growthMultiplierDen :=
      hgrow
    have hsplit : List.range' arr.capacity
        (growthMultiplierNum * arr.capacity / growthMultiplierDen - arr.capacity)
        = List.range' arr.capacity
            (growthMultiplierNum * arr.capacity / growthMultiplierDen - 1 - arr.capacity)
          ++ [growthMultiplierNum * arr.capacity / growthMultiplierDen - 1] := by
      have hk : growthMultiplierNum * arr.capacity / growthMultiplierDen - arr.capacity
          = (growthMultiplierNum * arr.capacity / growthMultiplierDen - 1 - arr.capacity) + 1 := by
        omega
      rw [hk, List.range'_concat]
      congr 2
      omega
    refine ⟨{ mem := (emplaceGrow arr).mem.set
                (growthMultiplierNum * arr.capacity / growthMultiplierDen - 1)
                (some (create (growthMultiplierNum * arr.capacity / growthMultiplierDen - 1)))
              capacity := growthMultiplierNum * arr.capacity / growthMultiplierDen
              holeIs := List.range' arr.capacity
                (growthMultiplierNum * arr.capacity / growthMultiplierDen - 1 - arr.capacity) },
      ?_, rfl, hgrow2⟩
    unfold emplace
    simp only [hg, hsplit, List.getLast?_append, List.getLast?_singleton, List.dropLast_concat]
    rfl

/-- Witness for C29: the player table with holes 0 and 2 hands out slot 2; the
fresh table of capacity 5 hands out slot 4; the full table of capacity 5 grows
to capacity 8 and hands out slot 7. -/
theorem emplace_takes_largest_free_slot_witness :
    (∃ arr', emplace ({ mem := [none, some 1, none, some 3, some 4], capacity := 5,
                         holeIs := [0, 2] } : HoleyArray Nat) (fun i => i) = some (2, arr')) ∧
    (∃ arr', emplace (HoleyArray.construct 5 : HoleyArray Nat) (fun i => i) = some (4, arr')) ∧
    (∃ arr', emplace ({ mem := [some 0, some 1, some 2, some 3, some 4], capacity := 5,
                         holeIs := [] } : HoleyArray Nat) (fun i => i) = some (7, arr')) := by
  refine ⟨?_, ?_, ?_⟩
  · obtain ⟨h, arr', he, hm, hmax, _⟩ :=
      (emplace_takes_largest_free_slot
        ({ mem := [none, some 1, none, some 3, some 4], capacity := 5,
           holeIs := [0, 2] } : HoleyArray Nat) (fun i => i)).1 (by decide) (by decide)
    have h2 : h = 2 := by
      have hle := hmax 2 (by decide)
      have hin : h = 0 ∨ h = 2 := by simpa using hm
      omega
    subst h2
    exact ⟨arr', he⟩
  · exact (emplace_takes_largest_free_slot
      ({ mem := [], capacity := 0, holeIs := [] } : HoleyArray Nat) (fun i => i)).2.1 5
      (by decide)
  · obtain ⟨arr', he, hcap, _⟩ :=
      (emplace_takes_largest_free_slot
        ({ mem := [some 0, some 1, some 2, some 3, some 4], capacity := 5,
           holeIs := [] } : HoleyArray Nat) (fun i => i)).2.2 rfl (by decide)
    have h8 : arr'.capacity = 8 := by rw [hcap]; decide
    rw [h8] at he
    exact ⟨arr', he⟩

/-! ## Round-robin registration -/

theorem lockForAddReaction_eq (reactor : EpollReactor) (h : 0 < reactor.size) :
    lockForAddReaction reactor
      = some (reactor.nextRoundRobinI,
          { reactor with nextRoundRobinI := (1 + reactor.nextRoundRobinI) % reactor.size }) := by
  unfold lockForAddReaction
  rw [if_neg (by omega)]

theorem mem_epollCtlAdd (interest : List EpollEntry) (fd events data : Nat)
    (hfresh : ∀ e ∈ interest, e.fd ≠ fd) :
    epollCtlAdd interest fd events data
      = interest ++ [{ fd := fd, events := events, data := data }] := by
  unfold epollCtlAdd
  have hany : interest.any (fun e => decide (e.fd = fd)) = false := by
    rw [List.any_eq_false]
    intro e he
    simpa using hfresh e he
  rw [hany]
  rfl

/-- C23. In a reactor with `N` threads whose round-robin cursor is `c < N`,
with room in the tables of thread `c` and `fd` not yet in its epoll set:
`addFdReaction` stores the reaction in a free slot of thread `c`'s fd table,
adds `fd` to thread `c`'s epoll set with that slot as user data, returns the
handle `{slot, c}` and leaves the cursor at `(c + 1) mod N`; `addTimerReaction`
stores the reaction in a free slot of thread `c`'s timer table, pushes the
pending timer `{now + interval, interval, slot}`, writes 1 to thread `c`'s
eventfd and leaves the cursor at `(c + 1) mod N`.  No other thread changes. -/
theorem add_reaction_round_robin (reactor : EpollReactor) (c : Nat)
    (hc : reactor.nextRoundRobinI = c) (hlt : c < reactor.size) (target : EpollThread)
    (ht : reactor.reactorThreads[c]? = some target)
    (hfdInv : target.fdReactionTable.Inv)
    (hfdRoom : target.fdReactionTable.holeIs ≠ [] ∨ 2 ≤ target.fdReactionTable.capacity)
    (htmInv : target.timerReactionTable.Inv)
    (htmRoom : target.timerReactionTable.holeIs ≠ [] ∨ 2 ≤ target.timerReactionTable.capacity) :
    (∀ (fd events : Nat) (reaction : FdReaction), (∀ e ∈ target.epollSet, e.fd ≠ fd) →
      ∃ slot reactor1 target1,
        addFdReaction reactor fd events reaction
          = some ({ epollReactionI := slot, reactionThreadI := c }, reactor1) ∧
        reactor1.nextRoundRobinI = (c + 1) % reactor.size ∧
        reactor1.size = reactor.size ∧
        reactor1.reactorThreads[c]? = some target1 ∧
        slot ∉ liveSlots target.fdReactionTable ∧
        target1.fdReactionTable.index slot = some reaction ∧
        (∀ j, j ≠ slot → target1.fdReactionTable.index j = target.fdReactionTable.index j) ∧
        target1.epollSet = target.epollSet ++ [{ fd := fd, events := events, data := slot }] ∧
        target1.timerReactionTable = target.timerReactionTable ∧
        target1.pendingTimers = target.pendingTimers ∧
        (∀ j, j ≠ c → reactor1.reactorThreads[j]? = reactor.reactorThreads[j]?)) ∧
    (∀ (now interval : Int) (reaction : TimerReaction),
      ∃ slot reactor1 target1,
        addTimerReaction reactor now interval reaction = some reactor1 ∧
        reactor1.nextRoundRobinI = (c + 1) % reactor.size ∧
        reactor1.size = reactor.size ∧
        reactor1.reactorThreads[c]? = some target1 ∧
        slot ∉ liveSlots target.timerReactionTable ∧
        target1.timerReactionTable.index slot = some reaction ∧
        (∀ j, j ≠ slot →
          target1.timerReactionTable.index j = target.timerReactionTable.index j) ∧
        target1.pendingTimers = target.pendingTimers ++
          [{ time := now + interval, interval := interval, indexInTable := slot % 65536 }] ∧
        target1.wakeupCounter = target.wakeupCounter + 1 ∧
        target1.fdReactionTable = target.fdReactionTable ∧
        target1.epollSet = target.epollSet ∧
        (∀ j, j ≠ c → reactor1.reactorThreads[j]? = reactor.reactorThreads[j]?)) := by
  have hsz : 0 < reactor.size := by omega
  have hlock := lockForAddReaction_eq reactor hsz
  have hclen : c < reactor.reactorThreads.length := by
    by_contra hcon
    rw [List.getElem?_eq_none (by omega)] at ht
    exact Option.noConfusion ht
  subst hc
  refine ⟨fun fd events reaction hfresh => ?_, fun now interval reaction => ?_⟩
  · obtain ⟨slot, table1, he, hs⟩ :=
      emplace_spec target.fdReactionTable (fun _ => reaction) hfdInv hfdRoom
    refine ⟨slot,
      { nextRoundRobinI := (1 + reactor.nextRoundRobinI) % reactor.size
        size := reactor.size
        reactorThreads := reactor.reactorThreads.set reactor.nextRoundRobinI
          { target with
            fdReactionTable := table1
            epollSet := epollCtlAdd target.epollSet fd events slot } },
      { target with
        fdReactionTable := table1
        epollSet := epollCtlAdd target.epollSet fd events slot }, ?_, ?_, rfl, ?_,
      hs.notLive, hs.value, hs.frame, mem_epollCtlAdd _ _ _ _ hfresh, rfl, rfl, ?_⟩
    · simp only [addFdReaction, hlock, ht, he]
    · show (1 + reactor.nextRoundRobinI) % reactor.size = _
      rw [Nat.add_comm]
    · simp [List.getElem?_set, hclen]
    · intro j hj
      simp [List.getElem?_set, Ne.symm hj]
  · obtain ⟨slot, table1, he, hs⟩ :=
      emplace_spec target.timerReactionTable (fun _ => reaction) htmInv htmRoom
    refine ⟨slot,
      { nextRoundRobinI := (1 + reactor.nextRoundRobinI) % reactor.size
        size := reactor.size
        reactorThreads := reactor.reactorThreads.set reactor.nextRoundRobinI
          { target with
            timerReactionTable := table1
            pendingTimers := PriorityQueue.push target.pendingTimers
              { time := now + interval, interval := interval, indexInTable := slot % 65536 }
            wakeupCounter := target.wakeupCounter + 1 } },
      { target with
        timerReactionTable := table1
        pendingTimers := PriorityQueue.push target.pendingTimers
          { time := now + interval, interval := interval, indexInTable := slot % 65536 }
        wakeupCounter := target.wakeupCounter + 1 }, ?_, ?_, rfl, ?_,
      hs.notLive, hs.value, hs.frame, rfl, rfl, rfl, rfl, ?_⟩
    · simp only [addTimerReaction, hlock, ht, he]
    · show (1 + reactor.nextRoundRobinI) % reactor.size = _
      rw [Nat.add_comm]
    · simp [List.getElem?_set, hclen]
    · intro j hj
      simp [List.getElem?_set, Ne.symm hj]

/-- Witness for C23: a reactor of two threads with the cursor at 1; the
listening socket (fd 20) is registered in thread 1 and the cursor returns
to 0. -/
theorem add_reaction_round_robin_witness :
    ∃ slot reactor1,
      addFdReaction
          { nextRoundRobinI := 1, size := 2
            reactorThreads := [constructedThread (fun i => 10 + i) 0,
                               constructedThread (fun i => 10 + i) 1] }
          20 EPOLLIN { func := .handleNewConnection, data := 0 }
        = some ({ epollReactionI := slot, reactionThreadI := 1 }, reactor1) ∧
      reactor1.nextRoundRobinI = 0 := by
  obtain ⟨slot, reactor1, _, h1, h2, _⟩ :=
    (add_reaction_round_robin
      { nextRoundRobinI := 1, size := 2
        reactorThreads := [constructedThread (fun i => 10 + i) 0,
                           constructedThread (fun i => 10 + i) 1] }
      1 rfl (by decide) (constructedThread (fun i => 10 + i) 1) rfl
      ⟨by decide, by decide, by decide, by decide⟩ (Or.inl (by decide))
      (construct_inv 5) (Or.inl (by decide))).1
      20 EPOLLIN { func := .handleNewConnection, data := 0 } (by decide)
  exact ⟨slot, reactor1, h1, h2⟩

/-! ## The construction of the reactor -/

theorem emplace_construct_five {El : Type} (el : El) :
    emplace (HoleyArray.construct 5 : HoleyArray El) (fun _ => el)
      = some (4, { mem := [none, none, none, none, some el], capacity := 5
                   holeIs := [0, 1, 2, 3] }) := rfl

theorem threadConstruct_eq (eventFd : Nat → Nat) (N i : Nat) (hi : i < N) :
    EpollThread.construct
        { nextRoundRobinI := i, size := N
          reactorThreads := (List.range i).map (constructedThread eventFd) } i (eventFd i)
      = some { nextRoundRobinI := (i + 1) % N, size := N
               reactorThreads := (List.range (i + 1)).map (constructedThread eventFd) } := by
  have hN : ¬ N = 0 := by omega
  have hget : ((List.range i).map (constructedThread eventFd) ++
      [({ i := i, epollSet := [], wakeupForNewTimerFd := eventFd i, wakeupCounter := 0
          fdReactionTable := HoleyArray.construct 5
          timerReactionTable := HoleyArray.construct 5
          pendingTimers := [] } : EpollThread)])[i]?
      = some { i := i, epollSet := [], wakeupForNewTimerFd := eventFd i, wakeupCounter := 0
               fdReactionTable := HoleyArray.construct 5
               timerReactionTable := HoleyArray.construct 5
               pendingTimers := [] } := by
    rw [List.getElem?_append_right (by simp)]
    simp
  have hset : ((List.range i).map (constructedThread eventFd) ++
      [({ i := i, epollSet := [], wakeupForNewTimerFd := eventFd i, wakeupCounter := 0
          fdReactionTable := HoleyArray.construct 5
          timerReactionTable := HoleyArray.construct 5
          pendingTimers := [] } : EpollThread)]).set i (constructedThread eventFd i)
      = (List.range (i + 1)).map (constructedThread eventFd) := by
    rw [List.range_succ, List.map_append, List.set_append_right _ _ (by simp)]
    simp
  simp only [EpollThread.construct, addFdReaction, lockForAddReaction, hN, if_false, hget,
    emplace_construct_five]
  have hthread : ({ i := i, epollSet := epollCtlAdd [] (eventFd i) EPOLLIN 4
                    wakeupForNewTimerFd := eventFd i, wakeupCounter := 0
                    fdReactionTable :=
                      { mem := [none, none, none, none,
                                some { func := .wakeupForNewTimer, data := eventFd i }]
                        capacity := 5, holeIs := [0, 1, 2, 3] }
                    timerReactionTable := HoleyArray.construct 5
                    pendingTimers := [] } : EpollThread) = constructedThread eventFd i := rfl
  rw [hthread, hset, Nat.add_comm 1 i]

theorem constructThreads_eq (eventFd : Nat → Nat) (N : Nat) :
    ∀ (k i : Nat), i + k ≤ N → 0 < N →
      constructThreads eventFd k i
          { nextRoundRobinI := i % N, size := N
            reactorThreads := (List.range i).map (constructedThread eventFd) }
        = some { nextRoundRobinI := (i + k) % N, size := N
                 reactorThreads := (List.range (i + k)).map (constructedThread eventFd) } := by
  intro k
  induction k with
  | zero => intro i _ _; rfl
  | succ k ih =>
    intro i hik hN
    have hi : i < N := by omega
    rw [Nat.mod_eq_of_lt hi]
    simp only [constructThreads, threadConstruct_eq eventFd N i hi]
    have := ih (i + 1) (by omega) hN
    rw [this]
    have harith : i + 1 + k = i + (k + 1) := by omega
    rw [harith]

theorem constructedThread_getElem? (eventFd : Nat → Nat) (N i : Nat) (hi : i < N) :
    ((List.range N).map (constructedThread eventFd))[i]? = some (constructedThread eventFd i) := by
  rw [List.getElem?_map, List.getElem?_range hi]
  rfl

/-- C28. After `EpollReactor(N)` with `N >= 1` has constructed its threads in
index order, each registering its eventfd through `addFdReaction`: the cursor
is 0, and for every `i < N` thread `i` has its own eventfd as the only entry of
its epoll set (for `EPOLLIN`, user data 4) and the wake-up reaction in slot 4,
the only live slot of its fd table.  The first registration made afterwards
goes to thread 0, and the first `addTimerReaction` puts its timer into thread 0
and writes to the eventfd that thread 0 has in its own epoll set. -/
theorem reactor_construction (N : Nat) (hN : 1 ≤ N) (eventFd : Nat → Nat) :
    ∃ reactor, EpollReactor.construct N eventFd = some reactor ∧
      reactor.nextRoundRobinI = 0 ∧ reactor.size = N ∧ reactor.reactorThreads.length = N ∧
      (∀ i, i < N → ∃ thread, reactor.reactorThreads[i]? = some thread ∧
        thread.i = i ∧
        thread.wakeupForNewTimerFd = eventFd i ∧
        thread.epollSet = [{ fd := eventFd i, events := EPOLLIN, data := 4 }] ∧
        thread.fdReactionTable.index 4
          = some { func := .wakeupForNewTimer, data := eventFd i } ∧
        liveSlots thread.fdReactionTable = [4] ∧
        thread.pendingTimers = []) ∧
      (∀ (fd events : Nat) (reaction : FdReaction), ∃ slot reactor1,
        addFdReaction reactor fd events reaction
          = some ({ epollReactionI := slot, reactionThreadI := 0 }, reactor1)) ∧
      (∀ (now interval : Int) (reaction : TimerReaction), ∃ reactor1 thread1,
        addTimerReaction reactor now interval reaction = some reactor1 ∧
        reactor1.reactorThreads[0]? = some thread1 ∧
        thread1.pendingTimers
          = [{ time := now + interval, interval := interval, indexInTable := 4 }] ∧
        thread1.wakeupCounter = 1 ∧
        thread1.wakeupForNewTimerFd = eventFd 0 ∧
        thread1.epollSet = [{ fd := eventFd 0, events := EPOLLIN, data := 4 }]) := by
  have hcons := constructThreads_eq eventFd N N 0 (by omega) (by omega)
  rw [Nat.zero_mod, Nat.zero_add, Nat.mod_self] at hcons
  have h0 := constructedThread_getElem? eventFd N 0 (by omega)
  have hNz : ¬ N = 0 := by omega
  refine ⟨_, hcons, rfl, rfl, by simp, fun i hi => ?_, fun fd events reaction => ?_,
    fun now interval reaction => ?_⟩
  · exact ⟨constructedThread eventFd i, constructedThread_getElem? eventFd N i hi, rfl, rfl, rfl,
      rfl, rfl, rfl⟩
  · simp only [addFdReaction, lockForAddReaction, hNz, if_false, h0]
    exact ⟨_, _, rfl⟩
  · simp only [addTimerReaction, lockForAddReaction, hNz, if_false, h0]
    refine ⟨_,
      { constructedThread eventFd 0 with
        timerReactionTable :=
          { mem := [none, none, none, none, some reaction], capacity := 5
            holeIs := [0, 1, 2, 3] }
        pendingTimers := [{ time := now + interval, interval := interval, indexInTable := 4 }]
        wakeupCounter := 1 }, rfl, ?_, rfl, rfl, rfl, rfl⟩
    have hlen : 0 < ((List.range N).map (constructedThread eventFd)).length := by
      simp; omega
    have hget : ∀ (l : List EpollThread) (a : EpollThread), 0 < l.length →
        (l.set 0 a)[0]? = some a := by
      intro l a h
      cases l with
      | nil => exact absurd h (Nat.lt_irrefl 0)
      | cons x xs => simp
    rw [hget _ _ hlen]
    rfl

/-- Witness for C28: the server's reactor of 4 threads, with eventfds 10 to
13. -/
theorem reactor_construction_witness :
    ∃ reactor, EpollReactor.construct 4 (fun i => 10 + i) = some reactor ∧
      reactor.nextRoundRobinI = 0 ∧
      reactor.reactorThreads.map (fun t => t.epollSet)
        = [[{ fd := 10, events := EPOLLIN, data := 4 }],
           [{ fd := 11, events := EPOLLIN, data := 4 }],
           [{ fd := 12, events := EPOLLIN, data := 4 }],
           [{ fd := 13, events := EPOLLIN, data := 4 }]] := by
  obtain ⟨reactor, h1, h2, _⟩ := reactor_construction 4 (by decide) (fun i => 10 + i)
  have heval : EpollReactor.construct 4 (fun i => 10 + i)
      = some { nextRoundRobinI := 0, size := 4
               reactorThreads := (List.range 4).map (constructedThread (fun i => 10 + i)) } := rfl
  rw [heval] at h1
  injection h1 with h1
  subst h1
  exact ⟨_, heval, rfl, rfl⟩

/-! ## The pending timers -/

/-- C24 fails on the code: on a reactor of one thread two timers are
registered at time 0, with intervals of 10 ms and 20 ms.  `PendingTimerCmp`
is `a.time < b.time`, and `std::priority_queue` puts at `top()` an element that
the comparison orders before no other: the timer due at 20 ms, not the one
due at 10 ms.  The order of the two registrations does not matter. -/
theorem pending_timers_top_is_latest :
    ∃ reactor0 reactor1 reactor2 thread,
      EpollReactor.construct 1 (fun _ => 10) = some reactor0 ∧
      addTimerReaction reactor0 0 10000000 { func := .broadcastPlayerPositions, data := 0 }
        = some reactor1 ∧
      addTimerReaction reactor1 0 20000000 { func := .sendPositionUpdate, data := 0 }
        = some reactor2 ∧
      reactor2.reactorThreads[0]? = some thread ∧
      thread.pendingTimers
        = [{ time := 10000000, interval := 10000000, indexInTable := 4 },
           { time := 20000000, interval := 20000000, indexInTable := 3 }] ∧
      PriorityQueue.top thread.pendingTimers
        = some { time := 20000000, interval := 20000000, indexInTable := 3 } ∧
      PriorityQueue.top
          [{ time := 20000000, interval := 20000000, indexInTable := 3 },
           { time := 10000000, interval := 10000000, indexInTable := 4 }]
        = some { time := 20000000, interval := 20000000, indexInTable := 3 } ∧
      PendingTimerCmp { time := 10000000, interval := 10000000, indexInTable := 4 }
          { time := 20000000, interval := 20000000, indexInTable := 3 } = true :=
  ⟨_, _, _, _, rfl, rfl, rfl, rfl, rfl, rfl, rfl, rfl⟩

/-- C25 fails on the code: one timer is pending, due at 10 ms.  At 15 ms the
computed timeout is -5, and at 11.5 ms it is -1, the value computed for an
empty queue: the code has no `max(0, ...)`.  (At 10.5 ms the cast truncates
to 0, before the due time the timeout is positive, and without a timer it
is -1.) -/
theorem epoll_timeout_negative_when_overdue :
    epollTimeout [{ time := 10000000, interval := 10000000, indexInTable := 4 }] 15000000 = -5 ∧
    epollTimeout [{ time := 10000000, interval := 10000000, indexInTable := 4 }] 11500000 = -1 ∧
    epollTimeout [{ time := 10000000, interval := 10000000, indexInTable := 4 }] 10500000 = 0 ∧
    epollTimeout [{ time := 10000000, interval := 10000000, indexInTable := 4 }] 2500000 = 7 ∧
    epollTimeout [] 15000000 = -1 :=
  ⟨by decide, by decide, by decide, by decide, by decide⟩

/-! ## The mutex of the player table -/

/-- C27 fails on the code: when the player in slot 4 disconnects,
`handleClientDisconnected` runs `destroy(players.o, playerI)` before it
constructs the `std::lock_guard`: the removal from the table happens without
the mutex.  The other uses of the table and of the positions (the lookup of
the player, the message handler, `handleNewConnection`,
`broadcastPlayerPositions`) are made with the mutex held. -/
theorem disconnect_removes_player_without_mutex :
    handleClientDisconnectedSteps 4 = [.destroy 4, .lock, .foreach, .unlock] ∧
    usesUnderMutex false (handleClientDisconnectedSteps 4) = false ∧
    usesUnderMutex false (playerLookupSteps 4) = true ∧
    usesUnderMutex false (updatePositionSteps 4) = true ∧
    usesUnderMutex false (handleNewConnectionSteps [3, 4]) = true ∧
    usesUnderMutex false
      (broadcastPlayerPositionsSteps
        { mem := [none, none, none, some Player.construct, some Player.construct],
          capacity := 5, holeIs := [0, 1, 2] }) = true :=
  ⟨rfl, rfl, rfl, rfl, rfl, rfl⟩

/-! ## One pass of `checkTimers` -/

theorem foldl_top_mem (xs : List PendingTimer) : ∀ best : PendingTimer,
    xs.foldl (fun best y => if PendingTimerCmp best y then y else best) best = best ∨
    xs.foldl (fun best y => if PendingTimerCmp best y then y else best) best ∈ xs := by
  induction xs with
  | nil => intro best; exact Or.inl rfl
  | cons x xs ih =>
    intro best
    rw [List.foldl_cons]
    rcases ih (if PendingTimerCmp best x then x else best) with h | h
    · rw [h]
      split
      · exact Or.inr (List.mem_cons_self _ _)
      · exact Or.inl rfl
    · exact Or.inr (List.mem_cons_of_mem _ h)

theorem top_mem (q : List PendingTimer) (t : PendingTimer) (h : PriorityQueue.top q = some t) :
    t ∈ q := by
  cases q with
  | nil => exact Option.noConfusion h
  | cons x xs =>
    simp only [PriorityQueue.top, Option.some.injEq] at h
    rcases foldl_top_mem xs x with h1 | h1
    · rw [h1] at h; rw [← h]; exact List.mem_cons_self _ _
    · rw [h] at h1; exact List.mem_cons_of_mem _ h1

theorem floorMs_le_iff (t n : Int) : floorMs t ≤ n ↔ t < (n + 1) * 1000000 := by
  unfold floorMs ticksPerMillisecond
  omega

theorem firedCount_append (i i0 : Nat) (s : Int) (fired : List (Nat × Int)) :
    firedCount i (fired ++ [(i0, s)]) = firedCount i fired + (if i0 = i then 1 else 0) := by
  unfold firedCount
  rw [List.filter_append, List.length_append]
  by_cases h : i0 = i
  · simp [h]
  · simp [h]

theorem firedTimes_append (i i0 : Nat) (s : Int) (fired : List (Nat × Int)) :
    firedTimes i (fired ++ [(i0, s)]) = firedTimes i fired ++ (if i0 = i then [s] else []) := by
  unfold firedTimes
  rw [List.filter_append, List.map_append]
  by_cases h : i0 = i
  · simp [h]
  · simp [h]

theorem firedTimes_length (i : Nat) (fired : List (Nat × Int)) :
    (firedTimes i fired).length = firedCount i fired := by
  simp [firedTimes, firedCount]

theorem advanceTimer_injective (fired : List (Nat × Int)) :
    Function.Injective (advanceTimer fired) := by
  intro a b h
  cases a with
  | mk ta da ia =>
    cases b with
    | mk tb db ib =>
      simp only [advanceTimer, PendingTimer.mk.injEq] at h
      obtain ⟨h1, h2, h3⟩ := h
      subst h2 h3
      simp only [PendingTimer.mk.injEq, and_true]
      omega

theorem advanceTimer_nil (t : PendingTimer) : advanceTimer [] t = t := by
  cases t
  simp [advanceTimer, firedCount]

theorem advanceTimer_append_of_ne (fired : List (Nat × Int)) (i0 : Nat) (s : Int)
    (t : PendingTimer) (h : i0 ≠ t.indexInTable) :
    advanceTimer (fired ++ [(i0, s)]) t = advanceTimer fired t := by
  simp [advanceTimer, firedCount_append, h]

theorem advanceTimer_append_of_eq (fired : List (Nat × Int)) (s : Int) (t : PendingTimer) :
    advanceTimer (fired ++ [(t.indexInTable, s)]) t
      = { advanceTimer fired t with
          time := (advanceTimer fired t).time + (advanceTimer fired t).interval } := by
  simp only [advanceTimer, firedCount_append, if_true, PendingTimer.mk.injEq, and_true]
  push_cast
  ring

theorem checkTimersLoop_step (fuel : Nat) (now : Int) (timers : List PendingTimer)
    (fired : List (Nat × Int)) (timer : PendingTimer)
    (htop : PriorityQueue.top timers = some timer) (hdue : floorMs timer.time ≤ now) :
    checkTimersLoop (fuel + 1) now timers fired
      = checkTimersLoop fuel now
          (timers.erase timer ++ [{ timer with time := timer.time + timer.interval }])
          (fired ++ [(timer.indexInTable, timer.time)]) := by
  simp only [checkTimersLoop, htop, hdue, if_true, PriorityQueue.pop, PriorityQueue.push]

theorem checkTimersLoop_stop (fuel : Nat) (now : Int) (timers : List PendingTimer)
    (fired : List (Nat × Int))
    (hstop : ∀ t, PriorityQueue.top timers = some t → ¬ floorMs t.time ≤ now) :
    checkTimersLoop (fuel + 1) now timers fired = some (timers, fired) := by
  cases htop : PriorityQueue.top timers with
  | none => simp only [checkTimersLoop, htop]
  | some t => simp only [checkTimersLoop, htop, hstop t htop, if_false]

theorem checkTimersLoop_mono (now : Int) : ∀ (fuel : Nat) (timers : List PendingTimer)
    (fired : List (Nat × Int)) (r : List PendingTimer × List (Nat × Int)),
    checkTimersLoop fuel now timers fired = some r →
    checkTimersLoop (fuel + 1) now timers fired = some r := by
  intro fuel
  induction fuel with
  | zero => intro timers fired r h; exact Option.noConfusion h
  | succ fuel ih =>
    intro timers fired r h
    cases htop : PriorityQueue.top timers with
    | none =>
      rw [checkTimersLoop_stop _ _ _ _ (fun t ht => by rw [htop] at ht; exact Option.noConfusion ht)]
        at h ⊢
      exact h
    | some t =>
      by_cases hdue : floorMs t.time ≤ now
      · rw [checkTimersLoop_step _ _ _ _ t htop hdue] at h ⊢
        exact ih _ _ r h
      · have hstop : ∀ t', PriorityQueue.top timers = some t' → ¬ floorMs t'.time ≤ now := by
          intro t' ht'
          rw [htop] at ht'
          injection ht' with ht'
          rw [← ht']
          exact hdue
        rw [checkTimersLoop_stop _ _ _ _ hstop] at h ⊢
        exact h

theorem checkTimersLoop_mono_add (now : Int) (fuel : Nat) (timers : List PendingTimer)
    (fired : List (Nat × Int)) (r : List PendingTimer × List (Nat × Int))
    (h : checkTimersLoop fuel now timers fired = some r) :
    ∀ k, checkTimersLoop (fuel + k) now timers fired = some r := by
  intro k
  induction k with
  | zero => exact h
  | succ k ih => exact checkTimersLoop_mono now (fuel + k) timers fired r ih

theorem checkTimersLoop_spec (timers0 : List PendingTimer)
    (hnd : (timers0.map (fun t => t.indexInTable)).Nodup)
    (hpos : ∀ t ∈ timers0, 0 < t.interval) (now : Int) :
    ∀ (fuel : Nat) (timers : List PendingTimer) (fired : List (Nat × Int)),
      timers.Perm (timers0.map (advanceTimer fired)) →
      (∀ t ∈ timers0, firedTimes t.indexInTable fired
        = (List.range (firedCount t.indexInTable fired)).map
            (fun j : Nat => t.time + j * t.interval)) →
      (timers.map (fun t => ((now + 1) * 1000000 - t.time).toNat)).sum < fuel →
      ∃ timers1 fired1, checkTimersLoop fuel now timers fired = some (timers1, fired1) ∧
        timers1.Perm (timers0.map (advanceTimer fired1)) ∧
        (∀ t ∈ timers0, firedTimes t.indexInTable fired1
          = (List.range (firedCount t.indexInTable fired1)).map
              (fun j : Nat => t.time + j * t.interval)) ∧
        (∀ t, PriorityQueue.top timers1 = some t → ¬ floorMs t.time ≤ now) := by
  have hnd0 : timers0.Nodup := List.Nodup.of_map _ hnd
  intro fuel
  induction fuel with
  | zero => intro timers fired _ _ hlt; exact absurd hlt (Nat.not_lt_zero _)
  | succ fuel ih =>
    intro timers fired hperm hfired hlt
    by_cases hstop : ∀ t, PriorityQueue.top timers = some t → ¬ floorMs t.time ≤ now
    · exact ⟨timers, fired, checkTimersLoop_stop _ _ _ _ hstop, hperm, hfired, hstop⟩
    · push_neg at hstop
      obtain ⟨tm, htop, hdue⟩ := hstop
      have htmT : tm ∈ timers := top_mem timers tm htop
      obtain ⟨t0, ht0, hg⟩ := List.mem_map.mp (hperm.subset htmT)
      have hidx : tm.indexInTable = t0.indexInTable := by rw [← hg]; rfl
      have hint : tm.interval = t0.interval := by rw [← hg]; rfl
      have htime : tm.time = t0.time + firedCount t0.indexInTable fired * t0.interval := by
        rw [← hg]; rfl
      have hother : ∀ t ∈ timers0.erase t0, tm.indexInTable ≠ t.indexInTable := by
        intro t ht hc
        have hmem := (List.Nodup.mem_erase_iff hnd0).mp ht
        exact hmem.1 (List.inj_on_of_nodup_map hnd hmem.2 ht0 (by rw [← hc, hidx]))
      rw [checkTimersLoop_step _ _ _ _ tm htop hdue]
      apply ih
      · -- the permutation
        have h1 : (timers.erase tm ++ [{ tm with time := tm.time + tm.interval }]).Perm
            ({ tm with time := tm.time + tm.interval } :: timers.erase tm) :=
          List.perm_append_singleton _ _
        have h2 : (timers.erase tm).Perm ((timers0.erase t0).map (advanceTimer fired)) := by
          rw [List.map_erase (advanceTimer_injective fired), hg]
          exact hperm.erase tm
        have h3 : (timers0.erase t0).map (advanceTimer fired)
            = (timers0.erase t0).map
                (advanceTimer (fired ++ [(tm.indexInTable, tm.time)])) := by
          apply List.map_congr_left
          intro t ht
          exact (advanceTimer_append_of_ne fired _ _ t (hother t ht)).symm
        have h4 : advanceTimer (fired ++ [(tm.indexInTable, tm.time)]) t0
            = { tm with time := tm.time + tm.interval } := by
          conv_lhs => rw [hidx]
          rw [advanceTimer_append_of_eq, hg]
        have h5 : (timers0.map (advanceTimer (fired ++ [(tm.indexInTable, tm.time)]))).Perm
            (advanceTimer (fired ++ [(tm.indexInTable, tm.time)]) t0 ::
              (timers0.erase t0).map (advanceTimer (fired ++ [(tm.indexInTable, tm.time)]))) :=
          (List.perm_cons_erase ht0).map _
        refine h1.trans (List.Perm.trans ?_ h5.symm)
        rw [h4, ← h3]
        exact List.Perm.cons _ h2
      · -- the recorded times
        intro t ht
        rw [firedTimes_append, firedCount_append]
        by_cases hi : tm.indexInTable = t.indexInTable
        · have ht0eq : t = t0 := List.inj_on_of_nodup_map hnd ht ht0 (by rw [← hi, hidx])
          subst ht0eq
          rw [if_pos hi, if_pos hi, List.range_succ, List.map_append, hfired t ht, htime]
          rfl
        · rw [if_neg hi, if_neg hi, List.append_nil, Nat.add_zero]
          exact hfired t ht
      · -- the measure
        have hsum : ((now + 1) * 1000000 - tm.time).toNat
            + ((timers.erase tm).map (fun t => ((now + 1) * 1000000 - t.time).toNat)).sum
            = (timers.map (fun t => ((now + 1) * 1000000 - t.time).toNat)).sum :=
          List.sum_map_erase (fun t : PendingTimer =>
            ((now + 1) * 1000000 - t.time).toNat) htmT
        have hlt1 : tm.time < (now + 1) * 1000000 := (floorMs_le_iff tm.time now).mp hdue
        have hposi : 0 < tm.interval := by rw [hint]; exact hpos t0 ht0
        rw [List.map_append, List.sum_append, List.map_singleton, List.sum_singleton]
        have hdec : ((now + 1) * 1000000 - (tm.time + tm.interval)).toNat
            < ((now + 1) * 1000000 - tm.time).toNat := by
          omega
        show _ + ((now + 1) * 1000000 - (tm.time + tm.interval)).toNat < fuel
        omega

/-- C26. For pending timers in distinct slots of the timer table, all with
strictly positive intervals, and reactions that do not touch the queue, one
pass of `checkTimers` terminates (from some number of iterations on the bound
is not reached and the result is the same).  It leaves as many pending timers
as before: each timer, with its `time` advanced by its interval once for every
invocation of its reaction in the pass.  The `j`-th invocation of the reaction
of a timer that entered the pass with `time = t0` is made for the fire time
`t0 + j * interval`, whatever `now` is.  When the pass ends the timer at
`top()` is not due. -/
theorem check_timers_pass (timers : List PendingTimer) (now : Int)
    (hpos : ∀ t ∈ timers, 0 < t.interval)
    (hnd : (timers.map (fun t => t.indexInTable)).Nodup) :
    ∃ fuel timers1 fired,
      (∀ k, checkTimers (fuel + k) now timers = some (timers1, fired)) ∧
      timers1.length = timers.length ∧
      timers1.Perm (timers.map (advanceTimer fired)) ∧
      (∀ t ∈ timers, firedTimes t.indexInTable fired
        = (List.range (firedCount t.indexInTable fired)).map
            (fun j : Nat => t.time + j * t.interval)) ∧
      (∀ t ∈ timers,
        { t with time := t.time + firedCount t.indexInTable fired * t.interval } ∈ timers1) ∧
      (∀ t, PriorityQueue.top timers1 = some t → ¬ floorMs t.time ≤ ceilMs now) := by
  have hinit : timers.Perm (timers.map (advanceTimer [])) := by
    have hmap : timers.map (advanceTimer []) = timers := by
      conv_rhs => rw [← List.map_id timers]
      exact List.map_congr_left (fun t _ => advanceTimer_nil t)
    rw [hmap]
  obtain ⟨timers1, fired, hrun, hperm, hfired, hstop⟩ :=
    checkTimersLoop_spec timers hnd hpos (ceilMs now)
      ((timers.map (fun t => ((ceilMs now + 1) * 1000000 - t.time).toNat)).sum + 1)
      timers [] hinit (fun t _ => rfl) (Nat.lt_succ_self _)
  refine ⟨_, timers1, fired, checkTimersLoop_mono_add _ _ _ _ _ hrun, ?_, hperm, hfired, ?_,
    hstop⟩
  · rw [hperm.length_eq, List.length_map]
  · intro t ht
    exact hperm.symm.subset (List.mem_map_of_mem (advanceTimer fired) ht)

/-- Witness for C26: one timer with an interval of 4 ms that is due at 0; in a
pass at 10 ms its reaction is invoked for the fire times 0, 4 ms and 8 ms and
the timer is left pending for 12 ms. -/
theorem check_timers_pass_witness :
    ∃ fuel, ∀ k,
      checkTimers (fuel + k) 10000000 [{ time := 0, interval := 4000000, indexInTable := 4 }]
        = some ([{ time := 12000000, interval := 4000000, indexInTable := 4 }],
            [(4, 0), (4, 4000000), (4, 8000000)]) := by
  obtain ⟨fuel, timers1, fired, hrun, _⟩ :=
    check_timers_pass [{ time := 0, interval := 4000000, indexInTable := 4 }] 10000000
      (by decide) (by decide)
  have heval : checkTimersLoop 4 (ceilMs 10000000)
      [{ time := 0, interval := 4000000, indexInTable := 4 }] []
      = some ([{ time := 12000000, interval := 4000000, indexInTable := 4 }],
          [(4, 0), (4, 4000000), (4, 8000000)]) := by decide
  have h1 := checkTimersLoop_mono_add _ _ _ _ _ heval fuel
  have h2 := hrun 4
  rw [Nat.add_comm] at h1
  unfold checkTimers at h2
  rw [h1] at h2
  injection h2 with h2
  rw [h2]
  exact ⟨fuel, hrun⟩

end Lobby
